import Mathlib

/-!
Verification of the ReAct agent core of the `in-house-system` repository.

The definitions below are a shallow embedding of the Python sources:
  * back/app/domains/notion_demo/services/agent/graph.py   (NotionGraphBuilder)
  * back/app/domains/clickup_demo/services/agent/graph.py  (ClickUpGraphBuilder,
    identical in the aspects verified here)
  * back/app/domains/clickup_demo/services/agent/tool_result_processor.py

Python objects that can appear as tool arguments / results (JSON-like object
graphs) are modelled by `PyVal`.  Floating point numbers are outside the model
(no claim involves them); `json.loads` is modelled by a recursive-descent
parser over the same grammar restricted accordingly.
-/

/-- A Python value as it occurs in tool arguments and results: `None`, `bool`,
`int`, `str`, `list`, `dict` (insertion-ordered association list). -/
inductive PyVal where
  | none : PyVal
  | bool (b : Bool) : PyVal
  | int (n : Int) : PyVal
  | str (s : String) : PyVal
  | list (xs : List PyVal) : PyVal
  | dict (kvs : List (String × PyVal)) : PyVal

-- Structural (Python `==`) equality test on `PyVal`.
mutual

def PyVal.beq : PyVal → PyVal → Bool
  | .none, .none => true
  | .bool a, .bool b => a == b
  | .int a, .int b => a == b
  | .str a, .str b => a == b
  | .list xs, .list ys => PyVal.beqList xs ys
  | .dict xs, .dict ys => PyVal.beqKVs xs ys
  | _, _ => false

def PyVal.beqList : List PyVal → List PyVal → Bool
  | [], [] => true
  | a :: as, b :: bs => PyVal.beq a b && PyVal.beqList as bs
  | _, _ => false

def PyVal.beqKVs : List (String × PyVal) → List (String × PyVal) → Bool
  | [], [] => true
  | (k, a) :: as, (l, b) :: bs => k == l && PyVal.beq a b && PyVal.beqKVs as bs
  | _, _ => false

end

mutual

theorem PyVal.beq_iff : ∀ (a b : PyVal), PyVal.beq a b = true ↔ a = b
  | .none, b => by cases b <;> simp [PyVal.beq]
  | .bool a, b => by cases b <;> simp [PyVal.beq]
  | .int a, b => by cases b <;> simp [PyVal.beq]
  | .str a, b => by cases b <;> simp [PyVal.beq]
  | .list xs, b => by
      cases b <;> simp [PyVal.beq]
      exact PyVal.beqList_iff xs _
  | .dict xs, b => by
      cases b <;> simp [PyVal.beq]
      exact PyVal.beqKVs_iff xs _

theorem PyVal.beqList_iff : ∀ (xs ys : List PyVal),
    PyVal.beqList xs ys = true ↔ xs = ys
  | [], ys => by cases ys <;> simp [PyVal.beqList]
  | x :: xs, ys => by
      cases ys with
      | nil => simp [PyVal.beqList]
      | cons y ys =>
          simp only [PyVal.beqList, Bool.and_eq_true, List.cons.injEq]
          rw [PyVal.beq_iff x y, PyVal.beqList_iff xs ys]

theorem PyVal.beqKVs_iff : ∀ (xs ys : List (String × PyVal)),
    PyVal.beqKVs xs ys = true ↔ xs = ys
  | [], ys => by cases ys <;> simp [PyVal.beqKVs]
  | (k, x) :: xs, ys => by
      cases ys with
      | nil => simp [PyVal.beqKVs]
      | cons y ys =>
          obtain ⟨l, v⟩ := y
          simp only [PyVal.beqKVs, Bool.and_eq_true, List.cons.injEq,
            Prod.mk.injEq, beq_iff_eq]
          rw [PyVal.beq_iff x v, PyVal.beqKVs_iff xs ys]

end

instance : DecidableEq PyVal :=
  fun a b => decidable_of_iff _ (PyVal.beq_iff a b)

/-- A Python exception, abstracted to its class name and its `str(e)` text. -/
structure PyExc where
  ename : String
  emsg : String
deriving DecidableEq

/-- Generic substring test on lists (used to model Python's `in` on strings). -/
def listHasSub {α : Type} [DecidableEq α] (needle : List α) : List α → Bool
  | [] => decide (needle = [])
  | a :: t => needle.isPrefixOf (a :: t) || listHasSub needle t

/-- Python `needle in s` for strings. -/
def strHasSub (needle s : String) : Bool :=
  listHasSub needle.toList s.toList

/-- The classification of a raised fault as a session-closed fault, from
`graph.py`: a fault is session-closed when the exception type name or its text
contains `ClosedResourceError`. -/
def isClosedResourceFault (e : PyExc) : Bool :=
  strHasSub "ClosedResourceError" e.ename || strHasSub "ClosedResourceError" e.emsg

-- A crude Python repr for PyVal, used only to render argument dicts into
-- failure-message strings (string content is never examined by any claim).
mutual

def pyRepr : PyVal → String
  | .none => "None"
  | .bool true => "True"
  | .bool false => "False"
  | .int n => toString n
  | .str s => "'" ++ s ++ "'"
  | .list xs => "[" ++ String.intercalate ", " (pyReprList xs) ++ "]"
  | .dict kvs => "\x7b" ++ String.intercalate ", " (pyReprKVs kvs) ++ "\x7d"

def pyReprList : List PyVal → List String
  | [] => []
  | x :: xs => pyRepr x :: pyReprList xs

def pyReprKVs : List (String × PyVal) → List String
  | [] => []
  | (k, v) :: kvs => ("'" ++ k ++ "': " ++ pyRepr v) :: pyReprKVs kvs

end

/-- A tool call requested by an assistant turn (name, args, correlation id).
`graph.py` extracts the same three fields from dict- or object-shaped calls. -/
structure ToolCallReq where
  name : String
  args : PyVal
  id : String
deriving DecidableEq

/-- A message in the conversation history (`langchain` message classes
restricted to the fields the graph code reads). -/
inductive Msg where
  | system (content : String) : Msg
  | human (content : String) : Msg
  | ai (content : String) (tool_calls : List ToolCallReq) : Msg
  | toolMsg (content : String) (tool_call_id : String) : Msg
deriving DecidableEq

/-- The `tool_calls` list of a message, `[]` when the message class has no
such attribute (mirrors the `hasattr` guards in `graph.py`). -/
def Msg.toolCalls : Msg → List ToolCallReq
  | .ai _ tcs => tcs
  | _ => []

/-- One record of `state["tool_history"]` as appended by the Act node: a dict
with keys `tool`, `args`, optionally `result` or `error`, `tool_call_id`,
`success`. -/
structure ToolRecord where
  tool : String
  args : PyVal
  result : Option PyVal
  error : Option String
  tool_call_id : String
  success : Bool
deriving DecidableEq

/-- One entry of `state["execution_logs"]` (each node appends a dict with a
node-specific key set). -/
inductive LogEntry where
  | reason (iteration : Nat) (has_tool_calls is_final : Bool) : LogEntry
  | actError (iteration : Nat) (error : String) : LogEntry
  | act (iteration : Nat) (tools_executed : Nat) : LogEntry
  | observe (iteration : Nat) (observations : Nat) : LogEntry
  | finalize (iteration : Nat) (total_tools_used : Nat) : LogEntry
deriving DecidableEq

/-- `NotionState` / `ClickUpState` from `models/state.py`. -/
structure AgentState where
  messages : List Msg
  node_sequence : List String
  execution_logs : List LogEntry
  max_iterations : Nat
  current_iteration : Nat
  tool_history : List ToolRecord
  current_decision : PyVal
  is_final_answer : Bool
  processed_tools : List ToolRecord
deriving DecidableEq

/-- The system directive text (`prompts.get_system_prompt`); its content is
never examined by any verified claim, so it is abbreviated here. -/
def getSystemPrompt : String :=
  "당신은 Notion 워크스페이스를 관리하는 AI 어시스턴트입니다."

/-- An assistant turn produced by the model: accumulated content plus the
requested tool calls. -/
def AIResp : Type := String × List ToolCallReq

/-- The tool calls requested by an (optional) assistant turn; an absent turn
requests none. -/
def respCalls : Option AIResp → List ToolCallReq
  | Option.none => []
  | some r => r.2

/-- The Reason node (`_reason_node`): appends the trace entry, increments the
iteration counter, invokes the model on the system directive plus the message
history (the model is a parameter `llm`; `Option.none` models a stream that
yielded no chunks, which the source guards with `if final_response:`), and on a
produced turn appends it, derives `is_final_answer` from the presence of tool
calls and logs the decision. -/
def reasonNode (llm : List Msg → Option AIResp) (s : AgentState) : AgentState :=
  let s1 := { s with node_sequence := s.node_sequence ++ ["reason"],
                     current_iteration := s.current_iteration + 1 }
  match llm (Msg.system getSystemPrompt :: s1.messages) with
  | Option.none => s1
  | some resp =>
      let hasToolCalls : Bool := decide (resp.2 ≠ [])
      { s1 with
        messages := s1.messages ++ [Msg.ai resp.1 resp.2],
        is_final_answer := !hasToolCalls,
        execution_logs := s1.execution_logs ++
          [LogEntry.reason s1.current_iteration hasToolCalls (!hasToolCalls)] }

/-- A tool of the cached catalog (`self.tools`): its `name` and its `ainvoke`
behaviour, which either returns a value (possibly Python `None`) or raises. -/
structure ToolImpl where
  name : String
  invoke : PyVal → Except PyExc PyVal

/-- The MCP client as the Act node uses it: the outcome of `ensure_session()`
and the combined outcome of the recovery sequence `close(); initialize();
get_tools()` (a raised fault in any of the three is caught by the same
`except` in the source). -/
structure MCPModel where
  ensure : Except PyExc Unit
  reinit : Except PyExc (List ToolImpl)

/-- First tool in the catalog with the given name (the `for ... if ... break`
resolution loop of the Act node). -/
def findTool (tools : List ToolImpl) (n : String) : Option ToolImpl :=
  tools.find? (fun t => t.name = n)

/-- The tool-history record for a call whose invocation returned `None`. -/
def noneResultRecord (c : ToolCallReq) : ToolRecord :=
  { tool := c.name, args := c.args, result := Option.none,
    error := some ("도구 '" ++ c.name ++ "'가 None을 반환했습니다."),
    tool_call_id := c.id, success := false }

/-- The tool-history record for a successful invocation. -/
def successRecord (c : ToolCallReq) (v : PyVal) : ToolRecord :=
  { tool := c.name, args := c.args, result := some v, error := Option.none,
    tool_call_id := c.id, success := true }

/-- The error text recorded for a non-session fault (`graph.py` rewrites two
known fault texts and falls back for empty ones). -/
def otherFaultMsg (toolName : String) (e : PyExc) : String :=
  let body :=
    if strHasSub "output schema" e.emsg || strHasSub "structured content" e.emsg then
      "도구 '" ++ toolName ++ "'가 빈 결과를 반환했거나 조회할 항목이 없습니다."
    else if e.emsg ≠ "" then e.emsg
    else "도구 '" ++ toolName ++ "' 실행 중 알 수 없는 오류가 발생했습니다."
  "[" ++ e.ename ++ "] " ++ body

/-- The tool-history record for a permanent (non-session) fault. -/
def otherFaultRecord (c : ToolCallReq) (e : PyExc) : ToolRecord :=
  { tool := c.name, args := c.args, result := Option.none,
    error := some (otherFaultMsg c.name e),
    tool_call_id := c.id, success := false }

/-- The tool-history record for a failed recovery retry
(`[type] 도구 실행 재시도 실패: str(e)`). -/
def retryFailRecord (c : ToolCallReq) (e : PyExc) : ToolRecord :=
  { tool := c.name, args := c.args, result := Option.none,
    error := some ("[" ++ e.ename ++ "] 도구 실행 재시도 실패: " ++ e.emsg),
    tool_call_id := c.id, success := false }

/-- The tool-history record for a call whose tool name is not in the catalog
(lists up to 10 available names as a diagnostic). -/
def notFoundRecord (tools : List ToolImpl) (c : ToolCallReq) : ToolRecord :=
  { tool := c.name, args := c.args, result := Option.none,
    error := some ("도구 '" ++ c.name ++ "'를 찾을 수 없습니다. 사용 가능한 도구: " ++
      String.intercalate ", " ((tools.map (fun t => t.name)).take 10)),
    tool_call_id := c.id, success := false }

/-- The exception raised when the tool is missing after reinitialization
(the `for ... else: raise` in the recovery block). -/
def retryNotFoundExc (toolName : String) : PyExc :=
  { ename := "Exception",
    emsg := "재초기화 후 도구 '" ++ toolName ++ "'를 찾을 수 없습니다." }

/-- The outcome of processing one requested tool call in the Act node:
the appended records, the actual gateway invocations performed (tool name and
args, in order), and the possibly refreshed catalog (`self.tools`). -/
structure CallResult where
  records : List ToolRecord
  invocations : List (String × PyVal)
  toolsAfter : List ToolImpl

/-- Classification of a returned result (`None` distrust) shared by the first
attempt and the retry. -/
def classifyReturn (c : ToolCallReq) (v : PyVal) : ToolRecord :=
  if v = PyVal.none then noneResultRecord c else successRecord c v

/-- Processing of one requested tool call by the Act node (`_act_node`, tool
execution loop): skip empty ids; resolve by name; invoke; on a session-closed
fault perform the single bounded recovery (reinitialize, refresh catalog,
retry once) when an MCP client is present. -/
def runToolCall (tools : List ToolImpl) (mcp : Option MCPModel)
    (c : ToolCallReq) : CallResult :=
  if c.id = "" then ⟨[], [], tools⟩
  else
    match findTool tools c.name with
    | Option.none => ⟨[notFoundRecord tools c], [], tools⟩
    | some t =>
        match t.invoke c.args with
        | .ok v => ⟨[classifyReturn c v], [(c.name, c.args)], tools⟩
        | .error e =>
            if isClosedResourceFault e then
              match mcp with
              | Option.none =>
                  -- `if self.mcp_client:` guards the whole recovery block: with
                  -- no client the `try` body is empty and no record is appended.
                  ⟨[], [(c.name, c.args)], tools⟩
              | some m =>
                  match m.reinit with
                  | .error re => ⟨[retryFailRecord c re], [(c.name, c.args)], tools⟩
                  | .ok newTools =>
                      match findTool newTools c.name with
                      | Option.none =>
                          ⟨[retryFailRecord c (retryNotFoundExc c.name)],
                            [(c.name, c.args)], newTools⟩
                      | some rt =>
                          match rt.invoke c.args with
                          | .ok v2 =>
                              ⟨[classifyReturn c v2],
                                [(c.name, c.args), (c.name, c.args)], newTools⟩
                          | .error re2 =>
                              ⟨[retryFailRecord c re2],
                                [(c.name, c.args), (c.name, c.args)], newTools⟩
            else ⟨[otherFaultRecord c e], [(c.name, c.args)], tools⟩

/-- Folds `runToolCall` over the requested calls, threading the (possibly
refreshed) catalog exactly as the mutable `self.tools` is threaded through the
source loop. -/
def runCalls (tools : List ToolImpl) (mcp : Option MCPModel) :
    List ToolCallReq → CallResult
  | [] => ⟨[], [], tools⟩
  | c :: cs =>
      let r := runToolCall tools mcp c
      let rest := runCalls r.toolsAfter mcp cs
      ⟨r.records ++ rest.records, r.invocations ++ rest.invocations, rest.toolsAfter⟩

/-- The record appended for every requested call on the ensure-session failure
path (note: `args` is recorded as `{}` and empty ids are not skipped there). -/
def ensureFailRecord (errMsg : String) (c : ToolCallReq) : ToolRecord :=
  { tool := c.name, args := PyVal.dict [], result := Option.none,
    error := some errMsg, tool_call_id := c.id, success := false }

/-- The tool calls of the last message of the history (the Act and Observe
nodes read `state["messages"][-1]`; an empty history, impossible in the graph
flow, is modelled as no calls). -/
def lastMsgToolCalls (msgs : List Msg) : List ToolCallReq :=
  match msgs.getLast? with
  | Option.none => []
  | some m => m.toolCalls

/-- The Act node (`_act_node`): trace entry; session health check with the
all-calls failure path; per-call execution via `runToolCall`; extends
`tool_history` and logs the executed-call count. -/
def actNode (tools : List ToolImpl) (mcp : Option MCPModel)
    (s : AgentState) : AgentState :=
  let s1 := { s with node_sequence := s.node_sequence ++ ["act"] }
  let ensureFail : Option PyExc :=
    match mcp with
    | Option.none => Option.none
    | some m => match m.ensure with
      | .ok _ => Option.none
      | .error e => some e
  match ensureFail with
  | some e =>
      let errMsg := "MCP 세션 초기화 실패: " ++ e.emsg
      { s1 with
        execution_logs := s1.execution_logs ++
          [LogEntry.actError s1.current_iteration errMsg],
        tool_history := s1.tool_history ++
          (lastMsgToolCalls s1.messages).map (ensureFailRecord errMsg) }
  | Option.none =>
      let r := runCalls tools mcp (lastMsgToolCalls s1.messages)
      { s1 with
        tool_history := s1.tool_history ++ r.records,
        execution_logs := s1.execution_logs ++
          [LogEntry.act s1.current_iteration r.records.length] }

/-- The `tool_call_id` of an observation message, `Option.none` otherwise. -/
def Msg.toolMsgId : Msg → Option String
  | .toolMsg _ i => some i
  | _ => Option.none

/-- Ids of all `ToolMessage`s already present in the history
(`existing_tool_message_ids` in `_observe_node`). -/
def existingToolMsgIds (msgs : List Msg) : List String :=
  msgs.filterMap Msg.toolMsgId

/-- Whether a message is an assistant message with a nonempty tool-call list
(the condition of the reversed scan in `_observe_node`). -/
def isAIWithCalls : Msg → Bool
  | .ai _ tcs => decide (tcs ≠ [])
  | _ => false

/-- The nonempty tool-call ids of the most recent assistant message that
carries tool calls (`current_tool_call_ids`; Python builds a set, modelled as
a list in order of appearance — no claim depends on set iteration order). -/
def currentToolCallIds (msgs : List Msg) : List String :=
  match msgs.reverse.find? isAIWithCalls with
  | Option.none => []
  | some m => m.toolCalls.filterMap fun tc => if tc.id = "" then Option.none else some tc.id

/-- `valid_tool_call_ids = current_tool_call_ids - existing_tool_message_ids`
(a Python set difference, modelled as a deduplicated filtered list). -/
def validToolCallIds (msgs : List Msg) : List String :=
  ((currentToolCallIds msgs).filter
    (fun i => !((existingToolMsgIds msgs).contains i))).dedup

/-- `tool_history` records not yet marked processed (`recent_tools`; Python
membership is structural dict equality). -/
def recentTools (s : AgentState) : List ToolRecord :=
  s.tool_history.filter (fun t => !(s.processed_tools.contains t))

/-- Lookup in `tool_results_by_id`: a dict built left to right, so the last
record with a given id wins. -/
def toolResultById (recent : List ToolRecord) (i : String) : Option ToolRecord :=
  recent.reverse.find? (fun t => t.tool_call_id = i)

/-- The observation content synthesized for one valid tool call id. -/
def observationContent (summarize : String → Option PyVal → String)
    (recent : List ToolRecord) (i : String) : String :=
  match toolResultById recent i with
  | some tr =>
      if tr.success then summarize tr.tool tr.result
      else
        "도구 실행 실패: " ++ (tr.error.getD "알 수 없는 오류가 발생했습니다.") ++
        "\n\n도구: " ++ tr.tool ++ "\n인자: " ++ pyRepr tr.args
  | Option.none => "도구를 실행하지 못했습니다. tool_call_id: " ++ i

/-- The Observe node (`_observe_node`): for every valid tool call id append
one observation message (success summary / failure text / not-executed
placeholder), mark consumed records processed, log the observation count.
The per-id loop body neither reads nor writes the data it accumulates, so it
is rendered as one `map` per accumulated list. The summarizer
(`summarize_tool_result`) is a parameter; no claim examines its output. -/
def observeNode (summarize : String → Option PyVal → String)
    (s : AgentState) : AgentState :=
  let s1 := { s with node_sequence := s.node_sequence ++ ["observe"] }
  let valid := validToolCallIds s1.messages
  let recent := recentTools s1
  let newMsgs := valid.map fun i =>
    Msg.toolMsg (observationContent summarize recent i) i
  { s1 with
    messages := s1.messages ++ newMsgs,
    processed_tools := s1.processed_tools ++ (valid.filterMap (toolResultById recent)),
    execution_logs := s1.execution_logs ++
      [LogEntry.observe s1.current_iteration
        ((recent.filter (fun t => valid.contains t.tool_call_id)).length)] }

/-- The Finalize node (`_finalize_node`): appends the trace entry and one log
record with the total tool count; touches nothing else. -/
def finalizeNode (s : AgentState) : AgentState :=
  { s with
    node_sequence := s.node_sequence ++ ["finalize"],
    execution_logs := s.execution_logs ++
      [LogEntry.finalize s.current_iteration s.tool_history.length] }

/-- The continuation decision (`_should_continue`): ceiling first, then the
final-answer flag, else act. Identical in both graph builders. -/
def shouldContinue (s : AgentState) : String :=
  if s.current_iteration ≥ s.max_iterations then "finalize"
  else if s.is_final_answer then "finalize"
  else "act"

/-- The compiled graph of `build()`: entry at Reason; Reason branches by
`shouldContinue`; Act → Observe → Reason; Finalize → END. `fuel` bounds the
recursion (any fuel beyond the reachable number of node visits is exact). -/
def runGraph (llm : List Msg → Option AIResp) (tools : List ToolImpl)
    (mcp : Option MCPModel) (summarize : String → Option PyVal → String) :
    Nat → String → AgentState → AgentState
  | 0, _, s => s
  | fuel + 1, node, s =>
      if node = "reason" then
        let s' := reasonNode llm s
        runGraph llm tools mcp summarize fuel (shouldContinue s') s'
      else if node = "act" then
        runGraph llm tools mcp summarize fuel "observe" (actNode tools mcp s)
      else if node = "observe" then
        runGraph llm tools mcp summarize fuel "reason" (observeNode summarize s)
      else if node = "finalize" then finalizeNode s
      else s

/-- One transition of the compiled graph, as a relation on
(pending node, state). Each constructor quantifies over the external
collaborators (model, catalog, client, summarizer), so reachability covers
every possible run. -/
inductive GStep : String × AgentState → String × AgentState → Prop where
  | reason_act (llm : List Msg → Option AIResp) (s : AgentState)
      (h : shouldContinue (reasonNode llm s) = "act") :
      GStep ("reason", s) ("act", reasonNode llm s)
  | reason_finalize (llm : List Msg → Option AIResp) (s : AgentState)
      (h : shouldContinue (reasonNode llm s) = "finalize") :
      GStep ("reason", s) ("finalize", reasonNode llm s)
  | act_observe (tools : List ToolImpl) (mcp : Option MCPModel) (s : AgentState) :
      GStep ("act", s) ("observe", actNode tools mcp s)
  | observe_reason (summarize : String → Option PyVal → String) (s : AgentState) :
      GStep ("observe", s) ("reason", observeNode summarize s)
  | finalize_end (s : AgentState) :
      GStep ("finalize", s) ("end", finalizeNode s)

/-- Reachability in the graph from the entry point. -/
def GReachable (init : AgentState) (c : String × AgentState) : Prop :=
  Relation.ReflTransGen GStep ("reason", init) c

/-! ### A sample initial state shared by concrete witnesses -/

/-- A freshly seeded conversation state (one user turn, ceiling 3). -/
def baseState : AgentState :=
  { messages := [Msg.human "내 스페이스 목록 보여줘"],
    node_sequence := [], execution_logs := [],
    max_iterations := 3, current_iteration := 0, tool_history := [],
    current_decision := PyVal.dict [], is_final_answer := false,
    processed_tools := [] }

/-! ### C1: the iteration ceiling forces Finalize -/

/-- C1: in every state whose iteration counter has reached the ceiling, the
continuation decision of `_should_continue` is `finalize`, regardless of any
other state content (in particular regardless of pending tool calls, which
`_should_continue` never inspects). -/
theorem c1_ceiling_forces_finalize (s : AgentState)
    (h : s.current_iteration ≥ s.max_iterations) :
    shouldContinue s = "finalize" := by
  unfold shouldContinue
  simp [h]

/-- Witness for C1: a state at the ceiling with a pending tool call in its
last assistant message still routes to `finalize`. -/
theorem c1_ceiling_forces_finalize_witness :
    shouldContinue { baseState with
      current_iteration := 3,
      messages := [Msg.ai "호출" [⟨"get_spaces", PyVal.dict [], "call-1"⟩]] } =
      "finalize" :=
  c1_ceiling_forces_finalize _ (by decide)

/-! ### C9: Finalize frame conditions -/

/-- C9: the Finalize node appends exactly one trace entry and one log record
carrying the total tool count, and leaves `messages`, `tool_history`,
`processed_tools`, `current_iteration`, `max_iterations` and `is_final_answer`
unchanged, so the answer is the last assistant message present on entry. -/
theorem c9_finalize_frame (s : AgentState) :
    (finalizeNode s).node_sequence = s.node_sequence ++ ["finalize"] ∧
    (finalizeNode s).execution_logs = s.execution_logs ++
      [LogEntry.finalize s.current_iteration s.tool_history.length] ∧
    (finalizeNode s).messages = s.messages ∧
    (finalizeNode s).tool_history = s.tool_history ∧
    (finalizeNode s).processed_tools = s.processed_tools ∧
    (finalizeNode s).current_iteration = s.current_iteration ∧
    (finalizeNode s).max_iterations = s.max_iterations ∧
    (finalizeNode s).is_final_answer = s.is_final_answer :=
  ⟨rfl, rfl, rfl, rfl, rfl, rfl, rfl, rfl⟩

/-! ### C2: null results are never recorded as success -/

/-- C2: for a resolvable tool call, an invocation returning `None` is recorded
with `success = false` and an error text, never as a success, while a
non-`None` result is recorded with `success = true`. -/
theorem c2_null_result_distrust (tools : List ToolImpl) (mcp : Option MCPModel)
    (c : ToolCallReq) (t : ToolImpl)
    (hid : c.id ≠ "") (hf : findTool tools c.name = some t) :
    (t.invoke c.args = Except.ok PyVal.none →
      (runToolCall tools mcp c).records =
        [{ tool := c.name, args := c.args, result := Option.none,
           error := some ("도구 '" ++ c.name ++ "'가 None을 반환했습니다."),
           tool_call_id := c.id, success := false }]) ∧
    (∀ v : PyVal, v ≠ PyVal.none → t.invoke c.args = Except.ok v →
      (runToolCall tools mcp c).records =
        [{ tool := c.name, args := c.args, result := some v,
           error := Option.none, tool_call_id := c.id, success := true }]) := by
  constructor
  · intro hv
    simp [runToolCall, hid, hf, hv, classifyReturn, noneResultRecord]
  · intro v hvne hv
    simp [runToolCall, hid, hf, hv, classifyReturn, hvne, successRecord]

/-- Witness for C2, on a catalog with a `None`-returning tool and a tool
returning a one-element list. -/
theorem c2_null_result_distrust_witness :
    (runToolCall [⟨"t_none", fun _ => Except.ok PyVal.none⟩] Option.none
        ⟨"t_none", PyVal.dict [], "id1"⟩).records =
      [{ tool := "t_none", args := PyVal.dict [], result := Option.none,
         error := some ("도구 '" ++ "t_none" ++ "'가 None을 반환했습니다."),
         tool_call_id := "id1", success := false }] ∧
    (runToolCall [⟨"t_ok", fun _ => Except.ok (PyVal.list [PyVal.int 1])⟩]
        Option.none ⟨"t_ok", PyVal.dict [], "id2"⟩).records =
      [{ tool := "t_ok", args := PyVal.dict [], result := some (PyVal.list [PyVal.int 1]),
         error := Option.none, tool_call_id := "id2", success := true }] :=
  ⟨(c2_null_result_distrust _ Option.none _ _ (by decide) (by rfl)).1 (by rfl),
   (c2_null_result_distrust _ Option.none _ _ (by decide) (by rfl)).2
     (PyVal.list [PyVal.int 1]) (by decide) (by rfl)⟩

/-! ### C3: session-closed faults get exactly one bounded retry -/

/-- C3: a session-closed fault on a tool call triggers exactly one recovery
(reinitialize, refresh catalog, retry the single call once — exactly two
gateway invocations); when the retry also raises, exactly one `tool_history`
record is appended, with `success = false`, and the Act loop continues with
the remaining calls instead of aborting. -/
theorem c3_session_fault_bounded_retry (tools newTools : List ToolImpl)
    (m : MCPModel) (c : ToolCallReq) (t rt : ToolImpl) (e e2 : PyExc)
    (cs : List ToolCallReq)
    (hid : c.id ≠ "")
    (hf : findTool tools c.name = some t)
    (hinv : t.invoke c.args = Except.error e)
    (hcl : isClosedResourceFault e = true)
    (hre : m.reinit = Except.ok newTools)
    (hrf : findTool newTools c.name = some rt)
    (hrinv : rt.invoke c.args = Except.error e2) :
    (runToolCall tools (some m) c).records = [retryFailRecord c e2] ∧
    (retryFailRecord c e2).success = false ∧
    (retryFailRecord c e2).error.isSome = true ∧
    (runToolCall tools (some m) c).invocations =
      [(c.name, c.args), (c.name, c.args)] ∧
    (runCalls tools (some m) (c :: cs)).records =
      retryFailRecord c e2 :: (runCalls newTools (some m) cs).records := by
  have hrun : runToolCall tools (some m) c =
      ⟨[retryFailRecord c e2], [(c.name, c.args), (c.name, c.args)], newTools⟩ := by
    simp [runToolCall, hid, hf, hinv, hcl, hre, hrf, hrinv]
  refine ⟨by rw [hrun], rfl, rfl, by rw [hrun], ?_⟩
  show (runCalls tools (some m) (c :: cs)).records = _
  simp [runCalls, hrun]

/-- Witness for C3: a concrete catalog whose tool raises a
`ClosedResourceError`-classified fault twice in a row. -/
theorem c3_session_fault_bounded_retry_witness :
    (runToolCall
        [⟨"t", fun _ => Except.error ⟨"ClosedResourceError", ""⟩⟩]
        (some ⟨Except.ok (), Except.ok
          [⟨"t", fun _ => Except.error ⟨"ClosedResourceError", "재시도 중 연결 종료"⟩⟩]⟩)
        ⟨"t", PyVal.dict [], "id9"⟩).records =
      [retryFailRecord ⟨"t", PyVal.dict [], "id9"⟩
        ⟨"ClosedResourceError", "재시도 중 연결 종료"⟩] ∧
    (runToolCall
        [⟨"t", fun _ => Except.error ⟨"ClosedResourceError", ""⟩⟩]
        (some ⟨Except.ok (), Except.ok
          [⟨"t", fun _ => Except.error ⟨"ClosedResourceError", "재시도 중 연결 종료"⟩⟩]⟩)
        ⟨"t", PyVal.dict [], "id9"⟩).invocations =
      [("t", PyVal.dict []), ("t", PyVal.dict [])] := by
  have h := c3_session_fault_bounded_retry
    [⟨"t", fun _ => Except.error ⟨"ClosedResourceError", ""⟩⟩]
    [⟨"t", fun _ => Except.error ⟨"ClosedResourceError", "재시도 중 연결 종료"⟩⟩]
    ⟨Except.ok (), Except.ok
      [⟨"t", fun _ => Except.error ⟨"ClosedResourceError", "재시도 중 연결 종료"⟩⟩]⟩
    ⟨"t", PyVal.dict [], "id9"⟩ _ _ ⟨"ClosedResourceError", ""⟩
    ⟨"ClosedResourceError", "재시도 중 연결 종료"⟩ []
    (by decide) (by rfl) (by rfl) (by decide) (by rfl) (by rfl) (by rfl)
  exact ⟨h.1, h.2.2.2.1⟩

/-! ### C7: how `is_final_answer` is decided -/

/-- A model stream that yields no chunks (`final_response` stays `None` in
`_reason_node`, a case the source explicitly guards with `if final_response:`). -/
def llmSilent : List Msg → Option AIResp := fun _ => Option.none

/-- Counterexample to C7 as stated: when the model stream yields no chunks,
`_reason_node` leaves `is_final_answer` at its previous value (here `false`),
so after this Reason step the flag is not equivalent to "the step produced no
tool calls" — it is carried over from an earlier step. -/
theorem c7_counterexample :
    ¬ (((reasonNode llmSilent baseState).is_final_answer = true) ↔
        respCalls (llmSilent (Msg.system getSystemPrompt :: baseState.messages)) = []) := by
  decide

/-- C7 (amended): after every Reason step in which the model produced an
assistant turn, `is_final_answer` is true iff that turn contains no tool
calls; when no turn was produced, the flag keeps its previous value. -/
theorem c7_final_answer_from_last_turn (llm : List Msg → Option AIResp)
    (s : AgentState) :
    (∀ content tcs,
      llm (Msg.system getSystemPrompt :: s.messages) = some (content, tcs) →
        ((reasonNode llm s).is_final_answer = true ↔ tcs = [])) ∧
    (llm (Msg.system getSystemPrompt :: s.messages) = Option.none →
      (reasonNode llm s).is_final_answer = s.is_final_answer) := by
  constructor
  · intro content tcs h
    simp only [reasonNode, h]
    by_cases htc : tcs = [] <;> simp [htc]
  · intro h
    simp only [reasonNode, h]

/-- Witness for C7 (amended): a model producing a turn with one tool call
yields `is_final_answer = false`; the silent model keeps the seeded value. -/
theorem c7_final_answer_from_last_turn_witness :
    ((reasonNode (fun _ => some ("호출합니다",
        [⟨"get_spaces", PyVal.dict [], "call-1"⟩])) baseState).is_final_answer
      = true ↔ ([⟨"get_spaces", PyVal.dict [], "call-1"⟩] : List ToolCallReq) = []) ∧
    (reasonNode llmSilent baseState).is_final_answer = baseState.is_final_answer :=
  ⟨(c7_final_answer_from_last_turn
      (fun _ => some ("호출합니다", [⟨"get_spaces", PyVal.dict [], "call-1"⟩]))
      baseState).1 "호출합니다" [⟨"get_spaces", PyVal.dict [], "call-1"⟩] rfl,
   (c7_final_answer_from_last_turn llmSilent baseState).2 rfl⟩

/-! ### C6: bounded run with a tool-hungry model -/

/-- A model that requests a (fresh-id) tool call on every Reason step. -/
def llmHungry : List Msg → Option AIResp := fun msgs =>
  some ("도구를 호출합니다.",
    [⟨"self_tool", PyVal.dict [], "call-" ++ toString msgs.length⟩])

/-- A catalog with the single self-requesting tool. -/
def toolsHungry : List ToolImpl :=
  [⟨"self_tool", fun _ => Except.ok (PyVal.str "ok")⟩]

/-- A summarizer stand-in for the bounded run. -/
def summSimple : String → Option PyVal → String := fun _ _ => "요약"

/-- The end state of the C6 scenario: `max_iterations = 3`, the model requests
a tool call on every Reason step. -/
def c6Final : AgentState :=
  runGraph llmHungry toolsHungry Option.none summSimple 20 "reason" baseState

/-- Counterexample to C6 as stated: the scenario run does not produce a
`node_sequence` of length `3*3 + 1 = 10` with three Act/Observe rounds — the
ceiling check fires right after the 3rd Reason, before its pending tool call
is acted on, so only two Act/Observe rounds happen. -/
theorem c6_counterexample :
    ¬ (c6Final.node_sequence =
        ["reason", "act", "observe", "reason", "act", "observe",
         "reason", "act", "observe", "finalize"] ∧
       c6Final.node_sequence.length = 10) := by
  decide

/-- C6 (amended): with `max_iterations = 3` and a model requesting a tool call
on every Reason step, the engine finalizes after 3 Reason entries and never
enters a 4th Reason, with `node_sequence` of length `3*(3-1) + 2 = 8`: two
full Reason/Act/Observe cycles, a third Reason whose pending tool call is
never executed, then Finalize. -/
theorem c6_three_reasons_then_finalize :
    c6Final.node_sequence =
      ["reason", "act", "observe", "reason", "act", "observe",
       "reason", "finalize"] ∧
    c6Final.node_sequence.length = 8 ∧
    c6Final.node_sequence.count "reason" = 3 := by
  decide

/-! ### C8: `current_iteration <= max_iterations` is an invariant -/

/-- The Reason node increments the iteration counter by exactly one. -/
theorem reasonNode_iteration (llm : List Msg → Option AIResp) (s : AgentState) :
    (reasonNode llm s).current_iteration = s.current_iteration + 1 := by
  simp only [reasonNode]
  split <;> rfl

/-- The Reason node never changes the ceiling. -/
theorem reasonNode_max (llm : List Msg → Option AIResp) (s : AgentState) :
    (reasonNode llm s).max_iterations = s.max_iterations := by
  simp only [reasonNode]
  split <;> rfl

/-- The Act node changes neither the counter nor the ceiling. -/
theorem actNode_iteration (tools : List ToolImpl) (mcp : Option MCPModel)
    (s : AgentState) :
    (actNode tools mcp s).current_iteration = s.current_iteration ∧
    (actNode tools mcp s).max_iterations = s.max_iterations := by
  simp only [actNode]
  split <;> exact ⟨rfl, rfl⟩

/-- The Observe node changes neither the counter nor the ceiling. -/
theorem observeNode_iteration (summarize : String → Option PyVal → String)
    (s : AgentState) :
    (observeNode summarize s).current_iteration = s.current_iteration ∧
    (observeNode summarize s).max_iterations = s.max_iterations :=
  ⟨rfl, rfl⟩

/-- A continuation decision of `act` certifies the counter is strictly below
the ceiling (this is how the continuation policy, not the stage bodies,
enforces the invariant). -/
theorem shouldContinue_act_lt (s : AgentState)
    (h : shouldContinue s = "act") :
    s.current_iteration < s.max_iterations := by
  by_contra hge
  have hge' : s.current_iteration ≥ s.max_iterations := by omega
  unfold shouldContinue at h
  rw [if_pos hge'] at h
  exact absurd h (by decide)

/-- The strengthened invariant carried around the cycle: the counter never
exceeds the ceiling, and strictly precedes it whenever a Reason, Act or
Observe stage is still pending. -/
def nodeInv : String × AgentState → Prop
  | (n, s) =>
      s.current_iteration ≤ s.max_iterations ∧
      ((n = "reason" ∨ n = "act" ∨ n = "observe") →
        s.current_iteration < s.max_iterations)

/-- Every graph transition preserves the strengthened invariant. -/
theorem gstep_preserves_nodeInv {p q : String × AgentState}
    (hstep : GStep p q) (hp : nodeInv p) : nodeInv q := by
  cases hstep with
  | reason_act llm s h =>
      have hlt := shouldContinue_act_lt _ h
      exact ⟨Nat.le_of_lt hlt, fun _ => hlt⟩
  | reason_finalize llm s h =>
      have hlt : s.current_iteration < s.max_iterations := hp.2 (Or.inl rfl)
      refine ⟨?_, fun hc => by simp at hc⟩
      rw [reasonNode_iteration, reasonNode_max]
      omega
  | act_observe tools mcp s =>
      have hlt : s.current_iteration < s.max_iterations := hp.2 (Or.inr (Or.inl rfl))
      have hit := actNode_iteration tools mcp s
      exact ⟨by omega, fun _ => by omega⟩
  | observe_reason summarize s =>
      have hlt : s.current_iteration < s.max_iterations := hp.2 (Or.inr (Or.inr rfl))
      have hit := observeNode_iteration summarize s
      exact ⟨by omega, fun _ => by omega⟩
  | finalize_end s =>
      exact ⟨hp.1, fun hc => by simp at hc⟩

/-- The strengthened invariant holds in every reachable configuration. -/
theorem greachable_nodeInv (init : AgentState)
    (hmax : 1 ≤ init.max_iterations) (hzero : init.current_iteration = 0) :
    ∀ c : String × AgentState, GReachable init c → nodeInv c := by
  intro c hr
  induction hr with
  | refl => exact ⟨by omega, fun _ => by omega⟩
  | tail hab hbc ih => exact gstep_preserves_nodeInv hbc ih

/-- C8: in every run of the graph started with `current_iteration = 0` and
`max_iterations >= 1`, every reachable state satisfies
`current_iteration <= max_iterations`: the continuation policy finalizes
before any stage body can push the counter past the ceiling. -/
theorem c8_iteration_invariant (init : AgentState) (n : String) (s : AgentState)
    (hmax : 1 ≤ init.max_iterations) (hzero : init.current_iteration = 0)
    (hr : GReachable init (n, s)) :
    s.current_iteration ≤ s.max_iterations :=
  (greachable_nodeInv init hmax hzero (n, s) hr).1

/-- Witness for C8, at a configuration actually reached by three transitions
of the hungry-model scenario. -/
theorem c8_iteration_invariant_witness :
    (observeNode summSimple (actNode toolsHungry Option.none
      (reasonNode llmHungry baseState))).current_iteration ≤
    (observeNode summSimple (actNode toolsHungry Option.none
      (reasonNode llmHungry baseState))).max_iterations :=
  c8_iteration_invariant baseState "reason" _ (by decide) (by decide)
    (Relation.ReflTransGen.tail
      (Relation.ReflTransGen.tail
        (Relation.ReflTransGen.tail Relation.ReflTransGen.refl
          (GStep.reason_act llmHungry baseState (by decide)))
        (GStep.act_observe toolsHungry Option.none _))
      (GStep.observe_reason summSimple _))

/-! ### C4: Observe is idempotent / at-most-once per tool call id -/

/-- The messages produced by one Observe run: the old history plus one
observation per valid tool call id. -/
theorem observeNode_messages (summarize : String → Option PyVal → String)
    (s : AgentState) :
    (observeNode summarize s).messages =
      s.messages ++ (validToolCallIds s.messages).map
        (fun i => Msg.toolMsg
          (observationContent summarize (recentTools s) i) i) := rfl

/-- `existingToolMsgIds` distributes over append. -/
theorem existingToolMsgIds_append (a b : List Msg) :
    existingToolMsgIds (a ++ b) =
      existingToolMsgIds a ++ existingToolMsgIds b :=
  List.filterMap_append ..

/-- The observation messages of a run contribute exactly their ids. -/
theorem existingToolMsgIds_obs (f : String → String) (ids : List String) :
    existingToolMsgIds (ids.map (fun i => Msg.toolMsg (f i) i)) = ids := by
  induction ids with
  | nil => rfl
  | cons i t ih =>
      simp only [List.map_cons, existingToolMsgIds, List.filterMap_cons] at *
      simpa [Msg.toolMsgId] using ih

/-- Appending messages that are not assistant-with-tool-calls messages leaves
the reversed scan of `_observe_node` unchanged. -/
theorem currentToolCallIds_append_nonAI (a b : List Msg)
    (hb : ∀ m ∈ b, isAIWithCalls m = false) :
    currentToolCallIds (a ++ b) = currentToolCallIds a := by
  unfold currentToolCallIds
  rw [List.reverse_append, List.find?_append,
    List.find?_eq_none.mpr (by simpa using fun m hm => by simp [hb m hm]),
    Option.none_or]

/-- Membership in `valid_tool_call_ids` is membership in the current ids
minus the already-observed ids. -/
theorem mem_validToolCallIds (msgs : List Msg) (i : String) :
    i ∈ validToolCallIds msgs ↔
      i ∈ currentToolCallIds msgs ∧ i ∉ existingToolMsgIds msgs := by
  unfold validToolCallIds
  rw [List.mem_dedup, List.mem_filter]
  simp

/-- After one Observe run every current tool call id has an observation
message, so the next run finds no valid id at all. -/
theorem validToolCallIds_after_observe (summarize : String → Option PyVal → String)
    (s : AgentState) :
    validToolCallIds (observeNode summarize s).messages = [] := by
  rw [observeNode_messages]
  unfold validToolCallIds
  rw [currentToolCallIds_append_nonAI _ _ (by
    intro m hm
    obtain ⟨j, _, rfl⟩ := List.mem_map.mp hm
    rfl)]
  rw [List.filter_eq_nil_iff.mpr, List.dedup_nil]
  intro x hx
  rw [existingToolMsgIds_append, existingToolMsgIds_obs]
  have hmem : x ∈ existingToolMsgIds s.messages ++ validToolCallIds s.messages := by
    rw [List.mem_append]
    by_cases hex : x ∈ existingToolMsgIds s.messages
    · exact Or.inl hex
    · exact Or.inr ((mem_validToolCallIds s.messages x).mpr ⟨hx, hex⟩)
  unfold validToolCallIds at hmem
  simp at hmem ⊢
  tauto

/-- C4: Observe is idempotent on the message history — a second run against
the resulting state (even with a superset of `tool_history`) appends no
further observation message — and any id with no observation yet receives at
most one, so at most one `ToolMessage` per tool call id is ever appended. -/
theorem c4_observe_idempotent (summarize : String → Option PyVal → String)
    (s : AgentState) (i : String)
    (h : (existingToolMsgIds s.messages).count i = 0) :
    (observeNode summarize (observeNode summarize s)).messages =
      (observeNode summarize s).messages ∧
    (existingToolMsgIds (observeNode summarize s).messages).count i ≤ 1 := by
  constructor
  · rw [observeNode_messages summarize (observeNode summarize s),
      validToolCallIds_after_observe]
    simp
  · rw [observeNode_messages, existingToolMsgIds_append, List.count_append, h,
      existingToolMsgIds_obs]
    have hnd : (validToolCallIds s.messages).Nodup := List.nodup_dedup _
    simpa using List.nodup_iff_count_le_one.mp hnd i

/-- Witness for C4: a state with one pending tool call and no observation yet
gains exactly one observation, and a repeated Observe adds nothing. -/
theorem c4_observe_idempotent_witness :
    ((existingToolMsgIds ({ baseState with
        messages := [Msg.ai "호출" [⟨"get_spaces", PyVal.dict [], "call-1"⟩]]
      } : AgentState).messages).count "call-1" = 0) ∧
    (observeNode summSimple (observeNode summSimple { baseState with
        messages := [Msg.ai "호출" [⟨"get_spaces", PyVal.dict [], "call-1"⟩]] })).messages =
      (observeNode summSimple { baseState with
        messages := [Msg.ai "호출" [⟨"get_spaces", PyVal.dict [], "call-1"⟩]] }).messages ∧
    (existingToolMsgIds (observeNode summSimple { baseState with
        messages := [Msg.ai "호출" [⟨"get_spaces", PyVal.dict [], "call-1"⟩]] }).messages).count
      "call-1" ≤ 1 := by
  refine ⟨by decide, ?_⟩
  exact c4_observe_idempotent summSimple _ "call-1" (by decide)

/-! ### C10: empty tool call ids -/

/-- A tool call with no id. -/
def emptyIdCall : ToolCallReq := ⟨"get_spaces", PyVal.dict [], ""⟩

/-- A state whose last assistant turn carries only the id-less call. -/
def ensureFailState : AgentState :=
  { baseState with messages := [Msg.ai "호출" [emptyIdCall]] }

/-- An MCP client whose liveness probe fails. -/
def mcpDown : MCPModel :=
  ⟨Except.error ⟨"RuntimeError", "세션이 닫혔습니다"⟩,
   Except.error ⟨"RuntimeError", "세션이 닫혔습니다"⟩⟩

/-- Counterexample to C10 as stated: on the session-health-check failure path
the Act node appends a `tool_history` failure record for every requested
call, including one whose id is empty — so an id-less call is not always
dropped without a record. -/
theorem c10_counterexample :
    (actNode [] (some mcpDown) ensureFailState).tool_history ≠ [] ∧
    ∃ r ∈ (actNode [] (some mcpDown) ensureFailState).tool_history,
      r.tool_call_id = "" ∧ r.success = false := by
  decide

/-- C10 (amended): outside the session-health-check failure path (which
records a failure for every requested call, empty id included), a requested
tool call with an empty id is silently dropped: the Act execution loop skips
it with no record and no gateway invocation, the Observe scan never collects
an empty id, and no observation message with an empty id is ever appended. -/
theorem c10_empty_id_dropped (tools : List ToolImpl) (mcp : Option MCPModel)
    (c : ToolCallReq) (summarize : String → Option PyVal → String)
    (s : AgentState) (hid : c.id = "") :
    (runToolCall tools mcp c).records = [] ∧
    (runToolCall tools mcp c).invocations = [] ∧
    ("" ∉ currentToolCallIds s.messages) ∧
    (existingToolMsgIds (observeNode summarize s).messages).count "" =
      (existingToolMsgIds s.messages).count "" := by
  have hcur : ∀ msgs : List Msg, "" ∉ currentToolCallIds msgs := by
    intro msgs hmem
    unfold currentToolCallIds at hmem
    rcases hfind : msgs.reverse.find? isAIWithCalls with _ | m
    · rw [hfind] at hmem
      exact absurd hmem (List.not_mem_nil "")
    · rw [hfind] at hmem
      obtain ⟨tc, _, hif⟩ := List.mem_filterMap.mp hmem
      by_cases htc : tc.id = "" <;> simp [htc] at hif
  refine ⟨by simp [runToolCall, hid], by simp [runToolCall, hid], hcur _, ?_⟩
  rw [observeNode_messages, existingToolMsgIds_append, List.count_append,
    existingToolMsgIds_obs]
  have : "" ∉ validToolCallIds s.messages := by
    intro hmem
    exact hcur _ ((mem_validToolCallIds s.messages "").mp hmem).1
  rw [List.count_eq_zero.mpr this]
  rw [Nat.add_zero]

/-- Witness for C10 (amended): the id-less call against a live catalog. -/
theorem c10_empty_id_dropped_witness :
    (runToolCall toolsHungry Option.none emptyIdCall).records = [] ∧
    ("" ∉ currentToolCallIds ensureFailState.messages) :=
  ⟨(c10_empty_id_dropped toolsHungry Option.none emptyIdCall summSimple
      ensureFailState rfl).1,
   (c10_empty_id_dropped toolsHungry Option.none emptyIdCall summSimple
      ensureFailState rfl).2.2.1⟩

/-! ### C5: the result normalizer (`tool_result_processor.extract_clickup_ids`)

The normalizer recursively rewrites a tool result, strips the internal
`lc_` wrapper from fields literally named `id`, and, for string values,
applies the substitution `re.sub(r'\blc_([a-f0-9-]+)\b', r'\1', text)` and
then attempts a JSON round-trip (`json.dumps(extract(json.loads(text)))`).
The JSON model below covers objects, arrays, strings (with the standard
single-character escapes), integers, booleans and null; floats and `\uXXXX`
escapes are outside the model. -/

/-- A word character for the `\b` assertions of the substitution pattern
(ASCII alphanumerics and underscore; non-ASCII characters, e.g. Korean text,
are treated as word characters as in Python's Unicode `\w`). -/
def isWordChar (c : Char) : Bool :=
  c.isAlphanum || c = '_' || decide (c.toNat ≥ 128)

/-- A character of the capture class `[a-f0-9-]`. -/
def isHexDashChar (c : Char) : Bool :=
  (decide ('a' ≤ c) && decide (c ≤ 'f')) || c.isDigit || c = '-'

/-- Wordness of an optional character (string edges count as non-word). -/
def wordOpt : Option Char → Bool
  | Option.none => false
  | some c => isWordChar c

/-- The `\b` assertion between two adjacent (optional) characters. -/
def isBoundary (a b : Option Char) : Bool := wordOpt a != wordOpt b

/-- Whether a nonempty capture candidate ends on a word boundary given the
character that follows it. -/
def capBoundaryOk (cap : List Char) (next : Option Char) : Bool :=
  match cap.getLast? with
  | Option.none => false
  | some c => isBoundary (some c) next

/-- Backtracking of the greedy `[a-f0-9-]+`: the longest nonempty prefix of
the scanned run whose end sits on a word boundary. -/
def pickCaptureLen (run after : List Char) : Option Nat :=
  (List.range run.length).reverse.findSome? fun k =>
    if capBoundaryOk (run.take (k + 1)) ((run.drop (k + 1) ++ after).head?) then
      some (k + 1)
    else Option.none

/-- The scanner of `re.sub(r'\blc_([a-f0-9-]+)\b', r'\1', text)`: leftmost
matches, replaced by their capture, scanning resuming after each match;
`p` is the character preceding the current position (for `\b`). The `fuel`
argument (any value at least the list length is exact, and the identity
lemmas below hold for every fuel) only bounds the recursion. -/
def lcSubAux : Nat → Option Char → List Char → List Char
  | 0, _, l => l
  | _ + 1, _, [] => []
  | fuel + 1, p, c :: rest =>
      if c = 'l' ∧ rest.take 2 = ['c', '_'] ∧ wordOpt p = false then
        let rest2 := rest.drop 2
        let run := rest2.takeWhile isHexDashChar
        let after := rest2.dropWhile isHexDashChar
        match pickCaptureLen run after with
        | some n => run.take n ++ lcSubAux fuel (run.take n).getLast? (rest2.drop n)
        | Option.none => c :: lcSubAux fuel (some c) rest
      else c :: lcSubAux fuel (some c) rest

/-- `re.sub(r'\blc_([a-f0-9-]+)\b', r'\1', text)` on a string. -/
def lcSub (s : String) : String :=
  String.mk (lcSubAux (s.length + 1) Option.none s.toList)

/-- JSON whitespace skipping (space, tab, newline, carriage return). -/
def pySkipWs : List Char → List Char
  | [] => []
  | c :: t =>
      if c = ' ' || c = '\t' || c = '\n' || c = '\r' then pySkipWs t else c :: t

/-- Decoding of a single-character JSON escape (`\uXXXX` is off-model). -/
def decodeEsc (c : Char) : Option Char :=
  if c = '"' then some '"'
  else if c = '\\' then some '\\'
  else if c = '/' then some '/'
  else if c = 'b' then some (Char.ofNat 8)
  else if c = 'f' then some (Char.ofNat 12)
  else if c = 'n' then some '\n'
  else if c = 'r' then some '\r'
  else if c = 't' then some '\t'
  else Option.none

/-- Hexadecimal digit test (`json.loads` accepts both letter cases in a
`\uXXXX` escape). -/
def isHex (c : Char) : Bool :=
  c.isDigit || ('a' ≤ c && c ≤ 'f') || ('A' ≤ c && c ≤ 'F')

/-- The value of a hexadecimal digit. -/
def hexVal (c : Char) : Nat :=
  if c.isDigit then c.toNat - 48
  else if 'a' ≤ c && c ≤ 'f' then c.toNat - 87
  else c.toNat - 55

/-- The value of a four-digit hexadecimal escape body. -/
def hexNum (a b c d : Char) : Nat :=
  ((hexVal a * 16 + hexVal b) * 16 + hexVal c) * 16 + hexVal d

/-- Parsing of a JSON string body after the opening quote; returns the decoded
characters and the remainder after the closing quote. Raw control characters
are rejected (`json.loads` is strict). `\uXXXX` escapes are decoded, with a
high/low surrogate pair combined into one code point as `json.loads` does; an
unpaired surrogate escape, which Python turns into a `str` holding a lone
surrogate, denotes no Unicode scalar and thus no value of the modelled string
domain, and is rejected. `fuel` bounds the recursion; any fuel at least the
input length is exact, and callers pass the input length. -/
def parseStrBody : Nat → List Char → Option (List Char × List Char)
  | 0, _ => Option.none
  | _ + 1, [] => Option.none
  | fuel + 1, c :: rest =>
      if c = '"' then some ([], rest)
      else if c = '\\' then
        match rest with
        | [] => Option.none
        | e :: rest2 =>
            if e = 'u' then
              match rest2.take 4 with
              | [h1, h2, h3, h4] =>
                  if isHex h1 && isHex h2 && isHex h3 && isHex h4 then
                    if hexNum h1 h2 h3 h4 < 55296 ∨
                        57344 ≤ hexNum h1 h2 h3 h4 then
                      (parseStrBody fuel (rest2.drop 4)).map fun sr =>
                        (Char.ofNat (hexNum h1 h2 h3 h4) :: sr.1, sr.2)
                    else if hexNum h1 h2 h3 h4 < 56320 then
                      match (rest2.drop 4).take 6 with
                      | ['\\', 'u', k1, k2, k3, k4] =>
                          if (isHex k1 && isHex k2 && isHex k3 && isHex k4)
                              = true ∧ 56320 ≤ hexNum k1 k2 k3 k4 ∧
                              hexNum k1 k2 k3 k4 < 57344 then
                            (parseStrBody fuel (rest2.drop 10)).map fun sr =>
                              (Char.ofNat (65536 +
                                (hexNum h1 h2 h3 h4 - 55296) * 1024 +
                                (hexNum k1 k2 k3 k4 - 56320)) :: sr.1, sr.2)
                          else Option.none
                      | _ => Option.none
                    else Option.none
                  else Option.none
              | _ => Option.none
            else
              match decodeEsc e with
              | some d => (parseStrBody fuel rest2).map fun sr => (d :: sr.1, sr.2)
              | Option.none => Option.none
      else if c.toNat < 32 then Option.none
      else (parseStrBody fuel rest).map fun sr => (c :: sr.1, sr.2)

/-- The numeric value of a decimal digit character. -/
def digitVal (c : Char) : Nat := c.toNat - 48

/-- The decimal character of a digit. -/
def digitChar (n : Nat) : Char := Char.ofNat (48 + n)

/-- Decimal digits of a natural number, most significant first (`fuel` only
bounds the recursion; any fuel above the digit count is exact). -/
def natCharsF : Nat → Nat → List Char
  | 0, _ => []
  | fuel + 1, n =>
      if n < 10 then [digitChar n]
      else natCharsF fuel (n / 10) ++ [digitChar (n % 10)]

/-- Decimal digits of a natural number, most significant first. -/
def natChars (n : Nat) : List Char := natCharsF (n + 1) n

/-- Python `str` of an integer. -/
def intChars (i : Int) : List Char :=
  if i < 0 then '-' :: natChars i.natAbs else natChars i.toNat

/-- The value of a digit list, most significant first. -/
def digitsToNat (l : List Char) : Nat := l.foldl (fun a c => a * 10 + digitVal c) 0

/-- Parsing of a JSON number token. JSON forbids leading zeros; a fractional
part or exponent would be a float, which is outside the model. -/
def parseIntToken (l : List Char) : Option (Int × List Char) :=
  let neg : Bool := l.head? = some '-'
  let l1 := if neg then l.tail else l
  match l1 with
  | [] => Option.none
  | c :: _ =>
      if c.isDigit then
        let ds := l1.takeWhile Char.isDigit
        let rest := l1.dropWhile Char.isDigit
        if ds.length > 1 && ds.head? = some '0' then Option.none
        else if rest.head? = some '.' || rest.head? = some 'e' ||
            rest.head? = some 'E' then Option.none
        else
          some ((if neg then -(Int.ofNat (digitsToNat ds))
                 else Int.ofNat (digitsToNat ds)), rest)
      else Option.none

-- The recursive-descent JSON reader (`json.loads`); `fuel` bounds the
-- recursion depth and member/item chains, decremented at every call.
mutual

def parseVal : Nat → List Char → Option (PyVal × List Char)
  | 0, _ => Option.none
  | fuel + 1, l =>
      match pySkipWs l with
      | [] => Option.none
      | c :: rest =>
          if c = '"' then
            (parseStrBody rest.length rest).map fun sr =>
              (PyVal.str (String.mk sr.1), sr.2)
          else if c = '{' then
            let l2 := pySkipWs rest
            if l2.head? = some '}' then some (PyVal.dict [], l2.tail)
            else (parseMembers fuel l2).map fun mr => (PyVal.dict mr.1, mr.2)
          else if c = '[' then
            let l2 := pySkipWs rest
            if l2.head? = some ']' then some (PyVal.list [], l2.tail)
            else (parseItems fuel l2).map fun ir => (PyVal.list ir.1, ir.2)
          else if c = 'n' then
            if rest.take 3 = ['u', 'l', 'l'] then some (PyVal.none, rest.drop 3)
            else Option.none
          else if c = 't' then
            if rest.take 3 = ['r', 'u', 'e'] then some (PyVal.bool true, rest.drop 3)
            else Option.none
          else if c = 'f' then
            if rest.take 4 = ['a', 'l', 's', 'e'] then
              some (PyVal.bool false, rest.drop 4)
            else Option.none
          else (parseIntToken (c :: rest)).map fun nr => (PyVal.int nr.1, nr.2)

def parseMembers : Nat → List Char → Option (List (String × PyVal) × List Char)
  | 0, _ => Option.none
  | fuel + 1, l =>
      match l with
      | [] => Option.none
      | c :: rest =>
          if c = '"' then
            match parseStrBody rest.length rest with
            | some kr =>
                let l2 := pySkipWs kr.2
                if l2.head? = some ':' then
                  match parseVal fuel l2.tail with
                  | some vr =>
                      let l3 := pySkipWs vr.2
                      if l3.head? = some ',' then
                        (parseMembers fuel (pySkipWs l3.tail)).map fun mr =>
                          ((String.mk kr.1, vr.1) :: mr.1, mr.2)
                      else if l3.head? = some '}' then
                        some ([(String.mk kr.1, vr.1)], l3.tail)
                      else Option.none
                  | Option.none => Option.none
                else Option.none
            | Option.none => Option.none
          else Option.none

def parseItems : Nat → List Char → Option (List PyVal × List Char)
  | 0, _ => Option.none
  | fuel + 1, l =>
      match parseVal fuel l with
      | some vr =>
          let l2 := pySkipWs vr.2
          if l2.head? = some ',' then
            (parseItems fuel (pySkipWs l2.tail)).map fun ir => (vr.1 :: ir.1, ir.2)
          else if l2.head? = some ']' then some ([vr.1], l2.tail)
          else Option.none
      | Option.none => Option.none

end

/-- `json.loads`: parse with ample fuel and require full consumption up to
trailing whitespace. -/
def jsonLoads (s : String) : Option PyVal :=
  match parseVal (s.length + 2) s.toList with
  | some vr => if pySkipWs vr.2 = [] then some vr.1 else Option.none
  | Option.none => Option.none

/-- Encoding of one character inside a JSON string literal, as `json.dumps`
emits it (`ensure_ascii=False`; control characters other than the named ones
are off-model). -/
def escChar (c : Char) : List Char :=
  if c = '"' then ['\\', '"']
  else if c = '\\' then ['\\', '\\']
  else if c = '\n' then ['\\', 'n']
  else if c = '\t' then ['\\', 't']
  else if c = '\r' then ['\\', 'r']
  else if c.toNat = 8 then ['\\', 'b']
  else if c.toNat = 12 then ['\\', 'f']
  else [c]

/-- Encoding of a string body. -/
def escStr : List Char → List Char
  | [] => []
  | c :: t => escChar c ++ escStr t

-- The JSON writer (`json.dumps` with default separators и ensure_ascii off):
-- '[a, b]', '{"k": v}' shapes.
mutual

def dumpChars : PyVal → List Char
  | PyVal.none => ['n', 'u', 'l', 'l']
  | PyVal.bool true => ['t', 'r', 'u', 'e']
  | PyVal.bool false => ['f', 'a', 'l', 's', 'e']
  | PyVal.int i => intChars i
  | PyVal.str s => '"' :: escStr s.toList ++ ['"']
  | PyVal.list [] => ['[', ']']
  | PyVal.list (x :: xs) => '[' :: dumpChars x ++ dumpItems xs ++ [']']
  | PyVal.dict [] => ['{', '}']
  | PyVal.dict (m :: ms) => '{' :: dumpMember m ++ dumpMembers ms ++ ['}']

def dumpMember : String × PyVal → List Char
  | (k, v) => '"' :: escStr k.toList ++ '"' :: ':' :: ' ' :: dumpChars v

def dumpItems : List PyVal → List Char
  | [] => []
  | y :: ys => ',' :: ' ' :: dumpChars y ++ dumpItems ys

def dumpMembers : List (String × PyVal) → List Char
  | [] => []
  | m :: ms => ',' :: ' ' :: dumpMember m ++ dumpMembers ms

end

/-- `json.dumps`. -/
def jsonDumps (v : PyVal) : String := String.mk (dumpChars v)

/-- Python `not result.strip()`: every character is whitespace (including the
empty string). -/
def pyBlank (s : String) : Bool :=
  s.toList.all fun c =>
    c = ' ' || c = '\t' || c = '\n' || c = '\r' || c.toNat = 11 || c.toNat = 12

/-- The replacement text for blank string results. -/
def blankMsg : String := "빈 결과가 반환되었습니다."

/-- The `lc_` strip applied by `_process_dict_result` to values of fields
literally named `id`. -/
def stripIdValue (k : String) (v : PyVal) : PyVal :=
  if k = "id" then
    match v with
    | PyVal.str sv =>
        if ['l', 'c', '_'].isPrefixOf sv.toList then
          PyVal.str (String.mk (sv.toList.drop 3))
        else v
    | _ => v
  else v

/-- `extract_clickup_ids` / `_process_string_result` / `_process_dict_result`.
`fuel` bounds the recursion depth (the Python recursion descends through
nested JSON parses with no explicit bound; any fuel at least the nesting
depth of the value is exact, and the theorems below quantify over fuel). -/
def extractF : Nat → PyVal → PyVal
  | 0, v => v
  | _ + 1, PyVal.none => PyVal.none
  | fuel + 1, PyVal.str s =>
      if pyBlank s then PyVal.str blankMsg
      else
        PyVal.str
          (match jsonLoads (lcSub s) with
           | some j => jsonDumps (extractF fuel j)
           | Option.none => lcSub s)
  | fuel + 1, PyVal.dict kvs =>
      PyVal.dict (kvs.map fun kv => (kv.1, extractF fuel (stripIdValue kv.1 kv.2)))
  | _ + 1, PyVal.list [] => PyVal.list []
  | fuel + 1, PyVal.list xs => PyVal.list (xs.map (extractF fuel))
  | _ + 1, v => v

/-- `_process_string_result`: the regex substitution followed by an attempted
JSON round-trip through the recursive extraction. -/
def processStrF (fuel : Nat) (s : String) : String :=
  match jsonLoads (lcSub s) with
  | some j => jsonDumps (extractF fuel j)
  | Option.none => lcSub s

/-- The doubly wrapped id that defeats idempotence: the regex cannot strip
`lc_x` (x is outside `[a-f0-9-]`), so one wrapper survives the first pass and
is stripped by the second. -/
def doubleWrapped : PyVal := PyVal.dict [("id", PyVal.str "lc_lc_x")]

/-- Counterexample to C5 as stated: the normalizer is not idempotent — on
`{"id": "lc_lc_x"}` a second application strips a second wrapper
(`lc_x` → `x`), so `normalize(normalize(x)) ≠ normalize(x)`; the evaluations
are fuel-stable. -/
theorem c5_counterexample :
    extractF 10 (extractF 10 doubleWrapped) ≠ extractF 10 doubleWrapped ∧
    extractF 10 doubleWrapped = PyVal.dict [("id", PyVal.str "lc_x")] ∧
    extractF 10 (extractF 10 doubleWrapped) = PyVal.dict [("id", PyVal.str "x")] ∧
    extractF 100 doubleWrapped = extractF 10 doubleWrapped := by
  decide

/-- Whether a character list begins with the marker `lc_`. -/
def startsLc : List Char → Bool
  | a :: b :: c :: _ => a = 'l' && b = 'c' && c = '_'
  | _ => false

/-- Whether a character list contains the marker `lc_` anywhere. -/
def hasLc : List Char → Bool
  | [] => false
  | c :: t => startsLc (c :: t) || hasLc t

/-- A string character that survives a `json.dumps`/`json.loads` round trip
in the model: printable, or one of the named escapable controls. -/
def goodChar (c : Char) : Bool :=
  decide (c.toNat ≥ 32) || c = '\n' || c = '\t' || c = '\r' ||
    c.toNat = 8 || c.toNat = 12

/-- No backslash anywhere: such text contains no JSON escape sequences. -/
def noBS (l : List Char) : Bool := l.all fun c => ¬ c = '\\'

/-- No double quote anywhere. -/
def noQuote (l : List Char) : Bool := l.all fun c => ¬ c = '"'

/-- A wrapper-free string: no `lc_` marker, round-trippable characters, and
no backslash (so that, read back as JSON text, it contains no escape
sequence that could decode into a marker). -/
def goodStr (s : String) : Bool :=
  !hasLc s.toList && s.toList.all goodChar && noBS s.toList

-- A wrapper-free value: every string (key or value) in the object graph is
-- wrapper-free.
mutual

def goodV : PyVal → Bool
  | PyVal.str s => goodStr s
  | PyVal.list xs => goodList xs
  | PyVal.dict kvs => goodKVs kvs
  | _ => true

def goodList : List PyVal → Bool
  | [] => true
  | x :: xs => goodV x && goodList xs

def goodKVs : List (String × PyVal) → Bool
  | [] => true
  | kv :: kvs => goodStr kv.1 && goodV kv.2 && goodKVs kvs

end

/-- A list not headed by `l` cannot begin with the marker. -/
theorem startsLc_false_of_head {a : Char} (l : List Char) (h : ¬ a = 'l') :
    startsLc (a :: l) = false := by
  match l with
  | [] => rfl
  | [_] => rfl
  | b :: c :: t => simp [startsLc, h]

/-- Unfolding of `hasLc` on a cons cell. -/
theorem hasLc_cons (c : Char) (t : List Char) :
    hasLc (c :: t) = (startsLc (c :: t) || hasLc t) := rfl

/-- A marker-free list has a marker-free tail. -/
theorem hasLc_tail {c : Char} {t : List Char} (h : hasLc (c :: t) = false) :
    hasLc t = false := by
  rw [hasLc_cons, Bool.or_eq_false_iff] at h
  exact h.2

/-- The substitution leaves marker-free text unchanged (for every fuel). -/
theorem lcSubAux_clean : ∀ (fuel : Nat) (p : Option Char) (l : List Char),
    hasLc l = false → lcSubAux fuel p l = l
  | 0, _, _, _ => rfl
  | _ + 1, _, [], _ => rfl
  | fuel + 1, p, c :: rest, h => by
      have htail := hasLc_tail h
      rw [lcSubAux, if_neg, lcSubAux_clean fuel (some c) rest htail]
      rintro ⟨rfl, h2, _⟩
      rcases rest with _ | ⟨a, _ | ⟨b, u⟩⟩
      · simp at h2
      · simp at h2
      · simp [List.take] at h2
        obtain ⟨rfl, rfl⟩ := h2
        rw [hasLc_cons] at h
        simp [startsLc] at h

/-- The substitution leaves marker-free strings unchanged. -/
theorem lcSub_clean (s : String) (h : hasLc s.toList = false) : lcSub s = s := by
  unfold lcSub
  rw [lcSubAux_clean _ _ _ h]
  obtain ⟨d⟩ := s
  rfl

/-- Characters with equal code points are equal. -/
theorem char_eq_of_toNat {a b : Char} (h : a.toNat = b.toNat) : a = b :=
  Char.ext (UInt32.ext h)

/-- Digit characters have code points 48–57. -/
theorem isDigit_toNat {c : Char} (h : c.isDigit = true) :
    48 ≤ c.toNat ∧ c.toNat ≤ 57 := by
  simp [Char.isDigit] at h
  exact h

/-- The marker test succeeds exactly on lists beginning `l`, `c`, `_`. -/
theorem startsLc_true_iff (l : List Char) :
    startsLc l = true ↔ ∃ t, l = 'l' :: 'c' :: '_' :: t := by
  constructor
  · intro h
    match l, h with
    | a :: b :: c :: t, h =>
        simp only [startsLc, Bool.and_eq_true, decide_eq_true_eq] at h
        exact ⟨t, by rw [h.1.1, h.1.2, h.2]⟩
  · rintro ⟨t, rfl⟩
    simp [startsLc]

/-- Every character decoded from an escape sequence. -/
theorem decodeEsc_mem {e d : Char} (h : decodeEsc e = some d) :
    d = '"' ∨ d = '\\' ∨ d = '/' ∨ d.toNat = 8 ∨ d.toNat = 12 ∨
      d = '\n' ∨ d = '\r' ∨ d = '\t' := by
  unfold decodeEsc at h
  split_ifs at h <;> simp_all <;> subst h <;> simp

/-- Escape-decoded characters are round-trippable. -/
theorem decodeEsc_good {e d : Char} (h : decodeEsc e = some d) :
    goodChar d = true := by
  rcases decodeEsc_mem h with h1 | h1 | h1 | h1 | h1 | h1 | h1 | h1 <;>
    first
      | (subst h1; decide)
      | (unfold goodChar; simp [h1])

/-- Escape-decoded characters are never `l`, `c` or `_`. -/
theorem decodeEsc_not_marker {e d : Char} (h : decodeEsc e = some d) :
    ¬ d = 'l' ∧ ¬ d = 'c' ∧ ¬ d = '_' := by
  rcases decodeEsc_mem h with h1 | h1 | h1 | h1 | h1 | h1 | h1 | h1 <;>
    first
      | (subst h1; decide)
      | (refine ⟨?_, ?_, ?_⟩ <;> rintro rfl <;> simp at h1)

/-- Shape of a single-character encoding: literal, or a decodable escape. -/
theorem escChar_shape (c : Char) :
    (escChar c = [c] ∧ goodChar c = true → 32 ≤ c.toNat) ∧
    (escChar c = [c] ∨ ∃ x, escChar c = ['\\', x] ∧ decodeEsc x = some c) := by
  unfold escChar
  split_ifs with h1 h2 h3 h4 h5 h6 h7
  · subst h1; exact ⟨by intro h; simp at h, Or.inr ⟨'"', rfl, rfl⟩⟩
  · subst h2; exact ⟨by intro h; simp at h, Or.inr ⟨'\\', rfl, rfl⟩⟩
  · subst h3; exact ⟨by intro h; simp at h, Or.inr ⟨'n', rfl, rfl⟩⟩
  · subst h4; exact ⟨by intro h; simp at h, Or.inr ⟨'t', rfl, rfl⟩⟩
  · subst h5; exact ⟨by intro h; simp at h, Or.inr ⟨'r', rfl, rfl⟩⟩
  · refine ⟨by intro h; simp at h, Or.inr ⟨'b', rfl, ?_⟩⟩
    show some (Char.ofNat 8) = some c
    rw [show (8 : Nat) = c.toNat from h6.symm, Char.ofNat_toNat]
  · refine ⟨by intro h; simp at h, Or.inr ⟨'f', rfl, ?_⟩⟩
    show some (Char.ofNat 12) = some c
    rw [show (12 : Nat) = c.toNat from h7.symm, Char.ofNat_toNat]
  · refine ⟨fun hge => ?_, Or.inl rfl⟩
    unfold goodChar at hge
    simp only [Bool.or_eq_true, decide_eq_true_eq] at hge
    rcases hge.2 with ((((hh | hh) | hh) | hh) | hh) | hh
    · exact hh
    · exact absurd hh h3
    · exact absurd hh h4
    · exact absurd hh h5
    · exact absurd hh h6
    · exact absurd hh h7

/-- A character as it can occur in a string literal parsed from
backslash-free text: printable, not a quote, not a backslash. -/
def tameChar (c : Char) : Bool := 32 ≤ c.toNat && ¬ c = '"' && ¬ c = '\\'

/-- A tame string: marker-free with only tame characters. -/
def tameStr (s : String) : Bool := !hasLc s.toList && s.toList.all tameChar

-- A tame value: every string (key or value) in the object graph is tame.
-- These are the values produced by parsing marker-free, backslash-free text.
mutual

def tameV : PyVal → Bool
  | PyVal.str s => tameStr s
  | PyVal.list xs => tameList xs
  | PyVal.dict kvs => tameKVs kvs
  | _ => true

def tameList : List PyVal → Bool
  | [] => true
  | x :: xs => tameV x && tameList xs

def tameKVs : List (String × PyVal) → Bool
  | [] => true
  | kv :: kvs => tameStr kv.1 && tameV kv.2 && tameKVs kvs

end

-- A quote-free-parse value: no strings and no nonempty objects anywhere.
-- These are the values produced by parsing quote-free text, in which no
-- string literal and no object key can begin.
mutual

def qfreeV : PyVal → Bool
  | PyVal.str _ => false
  | PyVal.dict [] => true
  | PyVal.dict (_ :: _) => false
  | PyVal.list xs => qfreeList xs
  | _ => true

def qfreeList : List PyVal → Bool
  | [] => true
  | x :: xs => qfreeV x && qfreeList xs

end

/-- An `all` predicate restricts to sublists. -/
theorem allSub {p : Char → Bool} {l1 l2 : List Char} (h : l2.Sublist l1)
    (hall : l1.all p = true) : l2.all p = true := by
  rw [List.all_eq_true] at hall ⊢
  exact fun c hc => hall c (h.subset hc)

/-- Whitespace skipping yields a sublist (in fact a suffix). -/
theorem pySkipWs_sublist : ∀ l : List Char, (pySkipWs l).Sublist l
  | [] => List.Sublist.refl []
  | c :: t => by
      rw [pySkipWs]
      split_ifs with h
      · exact (pySkipWs_sublist t).trans (List.sublist_cons_self c t)
      · exact List.Sublist.refl _

/-- One parser step on a quote. -/
theorem parseStrBody_quote (fuel : Nat) (rest : List Char) :
    parseStrBody (fuel + 1) ('"' :: rest) = some ([], rest) := rfl

/-- One parser step on an ordinary literal character. -/
theorem parseStrBody_lit (fuel : Nat) (c : Char) (rest : List Char)
    (h1 : ¬ c = '"') (h2 : ¬ c = '\\') (h3 : ¬ c.toNat < 32) :
    parseStrBody (fuel + 1) (c :: rest) =
      (parseStrBody fuel rest).map fun sr => (c :: sr.1, sr.2) := by
  cases rest with
  | nil => rw [parseStrBody.eq_3, if_neg h1, if_neg h2, if_neg h3]
  | cons e rest2 => rw [parseStrBody.eq_4, if_neg h1, if_neg h2, if_neg h3]

/-- One parser step on a raw control character. -/
theorem parseStrBody_ctl (fuel : Nat) (c : Char) (rest : List Char)
    (h1 : ¬ c = '"') (h2 : ¬ c = '\\') (h3 : c.toNat < 32) :
    parseStrBody (fuel + 1) (c :: rest) = Option.none := by
  cases rest with
  | nil => rw [parseStrBody.eq_3, if_neg h1, if_neg h2, if_pos h3]
  | cons e rest2 => rw [parseStrBody.eq_4, if_neg h1, if_neg h2, if_pos h3]

/-- One parser step on a single-character escape. -/
theorem parseStrBody_esc (fuel : Nat) (e : Char) (rest2 : List Char)
    (hu : ¬ e = 'u') :
    parseStrBody (fuel + 1) ('\\' :: e :: rest2) =
      (match decodeEsc e with
       | some d => (parseStrBody fuel rest2).map fun sr => (d :: sr.1, sr.2)
       | Option.none => Option.none) := by
  rw [parseStrBody.eq_4, if_neg (by decide), if_pos rfl, if_neg hu]

/-- Decoding inverts encoding for round-trippable characters: the parser
returns exactly the encoded string and the remainder after the closing
quote, given fuel at least the input length. -/
theorem parseStrBody_roundtrip : ∀ (fuel : Nat) (s rest : List Char),
    s.all goodChar = true → (escStr s ++ '"' :: rest).length ≤ fuel →
    parseStrBody fuel (escStr s ++ '"' :: rest) = some (s, rest)
  | fuel, [], rest, _, hf => by
      rw [show escStr [] ++ '"' :: rest = '"' :: rest from rfl] at hf ⊢
      obtain ⟨f, rfl⟩ : ∃ f, fuel = f + 1 := by
        rcases fuel with _ | f
        · simp at hf
        · exact ⟨f, rfl⟩
      exact parseStrBody_quote f rest
  | fuel, c :: t, rest, h, hf => by
      simp only [List.all_cons, Bool.and_eq_true] at h
      rcases (escChar_shape c).2 with he | ⟨x, he, hd⟩
      · have h32 : 32 ≤ c.toNat := (escChar_shape c).1 ⟨he, h.1⟩
        have hq : ¬ c = '"' := by
          rintro rfl
          simp [escChar] at he
        have hbs : ¬ c = '\\' := by
          rintro rfl
          simp [escChar] at he
        have hsh : escStr (c :: t) ++ '"' :: rest =
            c :: (escStr t ++ '"' :: rest) := by
          rw [show escStr (c :: t) = escChar c ++ escStr t from rfl, he]
          simp
        rw [hsh] at hf ⊢
        obtain ⟨f, rfl⟩ : ∃ f, fuel = f + 1 := by
          rcases fuel with _ | f
          · simp at hf
          · exact ⟨f, rfl⟩
        rw [parseStrBody_lit f c _ hq hbs (by omega),
          parseStrBody_roundtrip f t rest h.2
            (by simp only [List.length_cons] at hf; omega)]
        rfl
      · have hsh : escStr (c :: t) ++ '"' :: rest =
            '\\' :: x :: (escStr t ++ '"' :: rest) := by
          rw [show escStr (c :: t) = escChar c ++ escStr t from rfl, he]
          simp
        rw [hsh] at hf ⊢
        obtain ⟨f, rfl⟩ : ∃ f, fuel = f + 1 := by
          rcases fuel with _ | f
          · simp at hf
          · exact ⟨f, rfl⟩
        have hxu : ¬ x = 'u' := by
          rintro rfl
          simp [decodeEsc] at hd
        rw [parseStrBody_esc f x _ hxu, hd,
          parseStrBody_roundtrip f t rest h.2
            (by simp only [List.length_cons] at hf; omega)]
        rfl

/-- Under backslash-free input the parser copies the head literally. -/
theorem parseStrBody_head_nb : ∀ (fuel : Nat) (m : List Char) (d : Char)
    (s1 r : List Char), noBS m = true →
    parseStrBody fuel m = some (d :: s1, r) →
    ∃ f m1, fuel = f + 1 ∧ m = d :: m1 ∧ noBS m1 = true ∧
      parseStrBody f m1 = some (s1, r)
  | 0, m, d, s1, r, _, hp => by
      rw [parseStrBody.eq_1] at hp
      simp at hp
  | f + 1, [], d, s1, r, _, hp => by
      rw [parseStrBody.eq_2] at hp
      simp at hp
  | f + 1, c :: rest, d, s1, r, hnb, hp => by
      have hnb2 : ¬ c = '\\' ∧ noBS rest = true := by
        simpa [noBS] using hnb
      by_cases hq : c = '"'
      · subst hq
        rw [parseStrBody_quote] at hp
        simp at hp
      · by_cases h32 : c.toNat < 32
        · rw [parseStrBody_ctl f c rest hq hnb2.1 h32] at hp
          simp at hp
        · rw [parseStrBody_lit f c rest hq hnb2.1 h32] at hp
          rcases hps : parseStrBody f rest with _ | sr
          · rw [hps] at hp
            simp at hp
          · rw [hps] at hp
            simp only [Option.map_some', Option.some.injEq, Prod.mk.injEq,
              List.cons.injEq] at hp
            obtain ⟨⟨rfl, rfl⟩, rfl⟩ := hp
            exact ⟨f, rest, rfl, rfl, hnb2.2, by rw [hps]⟩

/-- Parsing a string body from marker-free, backslash-free input yields tame,
marker-free characters and a marker-free, backslash-free remainder. -/
theorem parseStrBody_tame : ∀ (fuel : Nat) (l : List Char),
    hasLc l = false → noBS l = true → ∀ s r,
    parseStrBody fuel l = some (s, r) →
    s.all tameChar = true ∧ hasLc s = false ∧ hasLc r = false ∧ noBS r = true
  | 0, l, _, _, s, r, hp => by
      rw [parseStrBody.eq_1] at hp
      simp at hp
  | f + 1, [], _, _, s, r, hp => by
      rw [parseStrBody.eq_2] at hp
      simp at hp
  | f + 1, c :: rest, hl, hnb, s, r, hp => by
      have hnb2 : ¬ c = '\\' ∧ noBS rest = true := by
        simpa [noBS] using hnb
      have hlr : hasLc rest = false := hasLc_tail hl
      by_cases hq : c = '"'
      · subst hq
        rw [parseStrBody_quote] at hp
        simp only [Option.some.injEq, Prod.mk.injEq] at hp
        obtain ⟨rfl, rfl⟩ := hp
        exact ⟨rfl, rfl, hlr, hnb2.2⟩
      · by_cases h32 : c.toNat < 32
        · rw [parseStrBody_ctl f c rest hq hnb2.1 h32] at hp
          simp at hp
        · rw [parseStrBody_lit f c rest hq hnb2.1 h32] at hp
          rcases hps : parseStrBody f rest with _ | sr
          · rw [hps] at hp
            simp at hp
          · rw [hps] at hp
            simp only [Option.map_some', Option.some.injEq, Prod.mk.injEq] at hp
            obtain ⟨hs, hr⟩ := hp
            obtain ⟨ih1, ih2, ih3, ih4⟩ :=
              parseStrBody_tame f rest hlr hnb2.2 sr.1 sr.2 (by rw [hps])
            subst hs
            subst hr
            refine ⟨?_, ?_, ih3, ih4⟩
            · rw [List.all_cons, Bool.and_eq_true]
              refine ⟨?_, ih1⟩
              unfold tameChar
              simp only [Bool.and_eq_true, decide_eq_true_eq]
              exact ⟨⟨by omega, hq⟩, hnb2.1⟩
            · rw [hasLc_cons, Bool.or_eq_false_iff]
              refine ⟨?_, ih2⟩
              by_cases hcl : c = 'l'
              · subst hcl
                cases hsl : startsLc ('l' :: sr.1) with
                | false => rfl
                | true =>
                    exfalso
                    obtain ⟨tl, hw⟩ := (startsLc_true_iff _).1 hsl
                    have hw2 : sr.1 = 'c' :: '_' :: tl := by
                      injection hw
                    have hps' : parseStrBody f rest =
                        some ('c' :: '_' :: tl, sr.2) := by
                      rw [hps, ← hw2]
                    obtain ⟨f1, m1, -, hm1, hnbm1, hps1⟩ :=
                      parseStrBody_head_nb f rest 'c' ('_' :: tl) sr.2
                        hnb2.2 hps'
                    obtain ⟨f2, m2, -, hm2, -, -⟩ :=
                      parseStrBody_head_nb f1 m1 '_' tl sr.2 hnbm1 hps1
                    rw [hm1, hm2] at hl
                    rw [hasLc_cons] at hl
                    simp [startsLc] at hl
              · exact startsLc_false_of_head _ hcl

/-- Properties of a single digit character. -/
theorem digitChar_spec (d : Nat) (h : d < 10) :
    (digitChar d).isDigit = true ∧ digitVal (digitChar d) = d ∧
      ((digitChar d) = '0' ↔ d = 0) := by
  interval_cases d <;> exact ⟨by decide, by decide, by decide⟩

/-- Appending one digit multiplies the value by ten. -/
theorem digitsToNat_append (a : List Char) (c : Char) :
    digitsToNat (a ++ [c]) = 10 * digitsToNat a + digitVal c := by
  unfold digitsToNat
  rw [List.foldl_append]
  simp [Nat.mul_comm]

/-- The decimal printer emits nonempty all-digit output with the printed
value and no leading zero (for adequate fuel). -/
theorem natCharsF_spec : ∀ (fuel n : Nat), n < 10 ^ fuel → 1 ≤ fuel →
    natCharsF fuel n ≠ [] ∧ (natCharsF fuel n).all Char.isDigit = true ∧
      digitsToNat (natCharsF fuel n) = n ∧
      (¬ n = 0 → ¬ (natCharsF fuel n).head? = some '0')
  | 0, _, _, hf => by omega
  | fuel + 1, n, hn, _ => by
      rw [natCharsF]
      split_ifs with h10
      · obtain ⟨hdig, hval, hzero⟩ := digitChar_spec n h10
        refine ⟨by simp, by simp [hdig], by simp [digitsToNat, hval], ?_⟩
        intro hnz hc
        simp only [List.head?_cons, Option.some.injEq] at hc
        exact hnz (hzero.mp hc)
      · have hf1 : 1 ≤ fuel := by
          by_contra hf0
          have : fuel = 0 := by omega
          subst this
          simp at hn
          omega
        have hdiv : n / 10 < 10 ^ fuel := by
          rw [Nat.div_lt_iff_lt_mul (by omega)]
          calc n < 10 ^ (fuel + 1) := hn
            _ = 10 ^ fuel * 10 := by ring
        obtain ⟨ihne, ihall, ihval, ihz⟩ := natCharsF_spec fuel (n / 10) hdiv hf1
        obtain ⟨hdig, hval, _⟩ := digitChar_spec (n % 10) (Nat.mod_lt _ (by omega))
        refine ⟨by simp, ?_, ?_, ?_⟩
        · rw [List.all_append]
          simp [ihall, hdig]
        · rw [digitsToNat_append, ihval, hval]
          omega
        · intro _ hc
          obtain ⟨c0, t0, hct⟩ := List.exists_cons_of_ne_nil ihne
          rw [hct] at hc
          simp only [List.cons_append, List.head?_cons, Option.some.injEq] at hc
          apply ihz (by omega)
          rw [hct, List.head?_cons, hc]

/-- Specialization to the printer's own fuel. -/
theorem natChars_spec (n : Nat) :
    natChars n ≠ [] ∧ (natChars n).all Char.isDigit = true ∧
      digitsToNat (natChars n) = n ∧
      (¬ n = 0 → ¬ (natChars n).head? = some '0') := by
  apply natCharsF_spec
  · calc n < 10 ^ n := Nat.lt_pow_self (by omega) n
      _ ≤ 10 ^ (n + 1) := Nat.pow_le_pow_right (by omega) (by omega)
  · omega

/-- `takeWhile`/`dropWhile` split an all-satisfying prefix off exactly. -/
theorem takeWhile_append_all {p : Char → Bool} : ∀ (a b : List Char),
    a.all p = true → (∀ c, b.head? = some c → p c = false) →
    (a ++ b).takeWhile p = a ∧ (a ++ b).dropWhile p = b
  | [], b, _, hb => by
      rcases b with _ | ⟨c, t⟩
      · exact ⟨rfl, rfl⟩
      · have := hb c rfl
        constructor
        · rw [List.nil_append, List.takeWhile_cons, this]
          simp
        · rw [List.nil_append, List.dropWhile_cons, this]
          simp
  | x :: a, b, ha, hb => by
      simp only [List.all_cons, Bool.and_eq_true] at ha
      obtain ⟨ih1, ih2⟩ := takeWhile_append_all a b ha.2 hb
      constructor
      · rw [List.cons_append, List.takeWhile_cons, ha.1, ih1]
        simp
      · rw [List.cons_append, List.dropWhile_cons, ha.1, ih2]
        simp

/-- A valid continuation after a printed value inside a dump: nothing, or a
separator/closer. -/
def delimOk (rest : List Char) : Prop :=
  rest = [] ∨ rest.head? = some ',' ∨ rest.head? = some ']' ∨ rest.head? = some '}'

/-- The head of a valid continuation is never a digit or float marker. -/
theorem delim_head_facts {rest : List Char} (hd : delimOk rest) (c : Char)
    (hc : rest.head? = some c) :
    c.isDigit = false ∧ ¬ c = '.' ∧ ¬ c = 'e' ∧ ¬ c = 'E' := by
  rcases hd with rfl | h | h | h
  · simp at hc
  all_goals
    rw [h] at hc
    injection hc with hc
    subst hc
    exact ⟨by decide, by decide, by decide, by decide⟩

/-- Digits are not the minus sign. -/
theorem isDigit_ne_minus {c : Char} (h : c.isDigit = true) : ¬ c = '-' := by
  intro hc
  have := isDigit_toNat h
  rw [hc] at this
  simp at this

/-- The number parser inverts the integer printer. -/
theorem parseIntToken_roundtrip (i : Int) (rest : List Char) (hd : delimOk rest) :
    parseIntToken (intChars i ++ rest) = some (i, rest) := by
  have hrest_nd : ∀ c, rest.head? = some c → c.isDigit = false := fun c hc =>
    (delim_head_facts hd c hc).1
  have hfl : (decide (rest.head? = some '.') || decide (rest.head? = some 'e') ||
      decide (rest.head? = some 'E')) = false := by
    rcases hl : rest.head? with _ | c
    · rfl
    · obtain ⟨-, h1, h2, h3⟩ := delim_head_facts hd c hl
      simp [h1, h2, h3]
  by_cases hneg : i < 0
  · have habs : ¬ i.natAbs = 0 := by omega
    obtain ⟨hne, hall, hval, hz⟩ := natChars_spec i.natAbs
    obtain ⟨c0, t0, hct⟩ := List.exists_cons_of_ne_nil hne
    have hc0dig : c0.isDigit = true := by
      rw [hct, List.all_cons, Bool.and_eq_true] at hall
      exact hall.1
    have hsplit := takeWhile_append_all (natChars i.natAbs) rest hall
      (fun c hc => hrest_nd c hc)
    have htake : List.takeWhile Char.isDigit (c0 :: (t0 ++ rest)) = c0 :: t0 := by
      rw [← List.cons_append, ← hct]
      exact hsplit.1
    have hdrop : List.dropWhile Char.isDigit (c0 :: (t0 ++ rest)) = rest := by
      rw [← List.cons_append, ← hct]
      exact hsplit.2
    have hlead : (decide ((c0 :: t0).length > 1) &&
        decide ((c0 :: t0).head? = some '0')) = false := by
      have hz' := hz habs
      rw [hct, List.head?_cons] at hz'
      simp [hz']
    have hval' : digitsToNat (c0 :: t0) = i.natAbs := by
      rw [← hct]
      exact hval
    have hi : -(Int.ofNat i.natAbs) = i := by
      rw [Int.ofNat_eq_natCast]
      omega
    have h01 : ¬ c0 = '0' := by
      have hz' := hz habs
      rw [hct, List.head?_cons] at hz'
      simpa using hz'
    rw [show intChars i = '-' :: natChars i.natAbs from by
      unfold intChars; rw [if_pos hneg]]
    unfold parseIntToken
    rw [List.cons_append, hct]
    simp [htake, hdrop, hc0dig, hlead, hfl, hval', hi]
    refine ⟨fun _ => h01, ?_⟩
    rw [abs_of_neg hneg]
    ring
  · have hnn : 0 ≤ i := by omega
    obtain ⟨hne, hall, hval, hz⟩ := natChars_spec i.toNat
    obtain ⟨c0, t0, hct⟩ := List.exists_cons_of_ne_nil hne
    have hc0dig : c0.isDigit = true := by
      rw [hct, List.all_cons, Bool.and_eq_true] at hall
      exact hall.1
    have hsplit := takeWhile_append_all (natChars i.toNat) rest hall
      (fun c hc => hrest_nd c hc)
    have htake : List.takeWhile Char.isDigit (c0 :: (t0 ++ rest)) = c0 :: t0 := by
      rw [← List.cons_append, ← hct]
      exact hsplit.1
    have hdrop : List.dropWhile Char.isDigit (c0 :: (t0 ++ rest)) = rest := by
      rw [← List.cons_append, ← hct]
      exact hsplit.2
    have hlead : (decide ((c0 :: t0).length > 1) &&
        decide ((c0 :: t0).head? = some '0')) = false := by
      by_cases h0 : i.toNat = 0
      · have : natChars 0 = ['0'] := by decide
        rw [h0, this] at hct
        obtain ⟨rfl, rfl⟩ := List.cons.inj hct
        simp
      · have hz' := hz h0
        rw [hct, List.head?_cons] at hz'
        simp [hz']
    have hval' : digitsToNat (c0 :: t0) = i.toNat := by
      rw [← hct]
      exact hval
    have hi : Int.ofNat i.toNat = i := by
      rw [Int.ofNat_eq_natCast]
      omega
    have hm := isDigit_ne_minus hc0dig
    have h01 : 0 < t0.length → ¬ c0 = '0' := by
      by_cases h0 : i.toNat = 0
      · have hnc : natChars 0 = ['0'] := by decide
        rw [h0, hnc] at hct
        obtain ⟨rfl, rfl⟩ := List.cons.inj hct
        intro hlen
        simp at hlen
      · intro _
        have hz' := hz h0
        rw [hct, List.head?_cons] at hz'
        simpa using hz'
    rw [show intChars i = natChars i.toNat from by
      unfold intChars; rw [if_neg hneg]]
    unfold parseIntToken
    rw [hct]
    simp [htake, hdrop, hc0dig, hlead, hfl, hval', hi, hm]
    exact ⟨h01, hnn⟩

/-- Whitespace skipping is the identity on lists with a non-whitespace head. -/
theorem pySkipWs_cons_not_ws {c : Char} (t : List Char)
    (h : (decide (c = ' ') || decide (c = '\t') || decide (c = '\n') ||
      decide (c = '\r')) = false) :
    pySkipWs (c :: t) = c :: t := by
  rw [pySkipWs.eq_2, if_neg]
  rw [h]
  simp

/-- Whitespace skipping eats a leading space. -/
theorem pySkipWs_cons_space (t : List Char) : pySkipWs (' ' :: t) = pySkipWs t := by
  rw [pySkipWs.eq_2, if_pos]
  rfl

/-- Character facts about digits used while steering the value parser. -/
theorem isDigit_char_facts {c : Char} (h : c.isDigit = true) :
    (decide (c = ' ') || decide (c = '\t') || decide (c = '\n') ||
      decide (c = '\r')) = false ∧
    ¬ c = ']' ∧ ¬ c = '}' ∧ ¬ c = ',' ∧ ¬ c = '"' ∧ ¬ c = '{' ∧ ¬ c = '[' ∧
    ¬ c = 'n' ∧ ¬ c = 't' ∧ ¬ c = 'f' := by
  obtain ⟨h1, h2⟩ := isDigit_toNat h
  refine ⟨?_, ?_, ?_, ?_, ?_, ?_, ?_, ?_, ?_, ?_⟩
  · simp only [Bool.or_eq_false_iff, decide_eq_false_iff_not]
    refine ⟨⟨⟨?_, ?_⟩, ?_⟩, ?_⟩ <;> rintro rfl <;> revert h1 h2 <;> decide
  all_goals (rintro rfl; revert h1 h2; decide)

/-- Rebuilding a string from its characters. -/
theorem strMkToList (s : String) : String.mk s.toList = s := by
  obtain ⟨d⟩ := s
  rfl

/-- The head of a dump: always present, never whitespace, and never a
closer or separator. -/
theorem dumpChars_head (v : PyVal) : ∃ c t, dumpChars v = c :: t ∧
    (decide (c = ' ') || decide (c = '\t') || decide (c = '\n') ||
      decide (c = '\r')) = false ∧
    ¬ c = ']' ∧ ¬ c = '}' ∧ ¬ c = ',' := by
  match v with
  | PyVal.none => exact ⟨'n', _, rfl, by decide, by decide, by decide, by decide⟩
  | PyVal.bool true => exact ⟨'t', _, rfl, by decide, by decide, by decide, by decide⟩
  | PyVal.bool false => exact ⟨'f', _, rfl, by decide, by decide, by decide, by decide⟩
  | PyVal.str s => exact ⟨'"', _, rfl, by decide, by decide, by decide, by decide⟩
  | PyVal.list [] => exact ⟨'[', _, rfl, by decide, by decide, by decide, by decide⟩
  | PyVal.list (x :: xs) =>
      exact ⟨'[', _, by rw [show dumpChars (PyVal.list (x :: xs)) =
        '[' :: (dumpChars x ++ dumpItems xs ++ [']']) from rfl], by decide,
        by decide, by decide, by decide⟩
  | PyVal.dict [] => exact ⟨'{', _, rfl, by decide, by decide, by decide, by decide⟩
  | PyVal.dict (m :: ms) =>
      exact ⟨'{', _, by rw [show dumpChars (PyVal.dict (m :: ms)) =
        '{' :: (dumpMember m ++ dumpMembers ms ++ ['}']) from rfl], by decide,
        by decide, by decide, by decide⟩
  | PyVal.int i =>
      by_cases hneg : i < 0
      · refine ⟨'-', natChars i.natAbs, ?_, by decide, by decide, by decide, by decide⟩
        rw [show dumpChars (PyVal.int i) = intChars i from rfl]
        unfold intChars
        rw [if_pos hneg]
      · obtain ⟨hne, hall, -, -⟩ := natChars_spec i.toNat
        obtain ⟨c0, t0, hct⟩ := List.exists_cons_of_ne_nil hne
        have hc0dig : c0.isDigit = true := by
          rw [hct, List.all_cons, Bool.and_eq_true] at hall
          exact hall.1
        obtain ⟨hws, hr1, hr2, hr3, -⟩ := isDigit_char_facts hc0dig
        refine ⟨c0, t0, ?_, hws, hr1, hr2, hr3⟩
        rw [show dumpChars (PyVal.int i) = intChars i from rfl]
        unfold intChars
        rw [if_neg hneg, hct]

/-- Whitespace skipping is the identity in front of a dump. -/
theorem pySkipWs_dump (v : PyVal) (m : List Char) :
    pySkipWs (dumpChars v ++ m) = dumpChars v ++ m := by
  obtain ⟨c, t, hct, hws, -⟩ := dumpChars_head v
  rw [hct, List.cons_append, pySkipWs_cons_not_ws _ hws]

/-- The value parser ignores one leading space. -/
theorem parseVal_cons_space (fuel : Nat) (l : List Char) :
    parseVal fuel (' ' :: l) = parseVal fuel l := by
  match fuel with
  | 0 => rfl
  | fuel + 1 =>
      rw [parseVal.eq_2, parseVal.eq_2, pySkipWs_cons_space]

-- Fuel weight of a value: an upper bound on the parser fuel consumed while
-- reading its dump back.
mutual

def jweight : PyVal → Nat
  | PyVal.list [] => 1
  | PyVal.list (x :: xs) => 1 + jweightItems (x :: xs)
  | PyVal.dict [] => 1
  | PyVal.dict (m :: ms) => 1 + jweightMembers (m :: ms)
  | _ => 1

def jweightItems : List PyVal → Nat
  | [] => 0
  | x :: xs => 1 + jweight x + jweightItems xs

def jweightMembers : List (String × PyVal) → Nat
  | [] => 0
  | m :: ms => 1 + jweight m.2 + jweightMembers ms

end

/-- Every value weighs at least one unit of fuel. -/
theorem jweight_pos (v : PyVal) : 1 ≤ jweight v := by
  match v with
  | PyVal.none | PyVal.bool _ | PyVal.int _ | PyVal.str _ =>
      simp [jweight]
  | PyVal.list [] => simp [jweight]
  | PyVal.list (x :: xs) => simp [jweight]
  | PyVal.dict [] => simp [jweight]
  | PyVal.dict (m :: ms) => simp [jweight]

/-- Components of a wrapper-free string. -/
theorem goodStr_parts {s : String} (h : goodStr s = true) :
    hasLc s.toList = false ∧ s.toList.all goodChar = true ∧
      noBS s.toList = true := by
  unfold goodStr at h
  rw [Bool.and_eq_true, Bool.and_eq_true] at h
  exact ⟨by simpa using h.1.1, h.1.2, h.2⟩

/-- A dump sequence of further items or members is a valid continuation. -/
theorem dumpItems_delim (xs : List PyVal) (rest : List Char) :
    delimOk (dumpItems xs ++ ']' :: rest) := by
  match xs with
  | [] => exact Or.inr (Or.inr (Or.inl rfl))
  | y :: ys => exact Or.inr (Or.inl rfl)

/-- Likewise for members before the closing brace. -/
theorem dumpMembers_delim (ms : List (String × PyVal)) (rest : List Char) :
    delimOk (dumpMembers ms ++ '}' :: rest) := by
  match ms with
  | [] => exact Or.inr (Or.inr (Or.inr rfl))
  | m :: ms2 => exact Or.inr (Or.inl rfl)

/-- A member dump begins with a quote, so whitespace skipping ignores it. -/
theorem pySkipWs_dumpMember (m : String × PyVal) (l : List Char) :
    pySkipWs (dumpMember m ++ l) = dumpMember m ++ l := by
  obtain ⟨k, v⟩ := m
  rw [show dumpMember (k, v) =
    '"' :: (escStr k.toList ++ '"' :: ':' :: ' ' :: dumpChars v) from rfl]
  rw [List.cons_append]
  exact pySkipWs_cons_not_ws _ (by decide)

/-- The head of a member dump region is the opening quote. -/
theorem dumpMember_head (m : String × PyVal) (l : List Char) :
    (dumpMember m ++ l).head? = some '"' := by
  obtain ⟨k, v⟩ := m
  rw [show dumpMember (k, v) =
    '"' :: (escStr k.toList ++ '"' :: ':' :: ' ' :: dumpChars v) from rfl]
  rfl

/-- The reader inverts the writer: parsing the dump of a wrapper-free value
returns exactly that value (and items/members sequences likewise), given
fuel at least the value's weight. -/
theorem parse_roundtrip : ∀ fuel : Nat,
    (∀ v rest, goodV v = true → delimOk rest → jweight v ≤ fuel →
      parseVal fuel (dumpChars v ++ rest) = some (v, rest)) ∧
    (∀ x xs rest, goodV x = true → goodList xs = true → delimOk rest →
      1 + jweight x + jweightItems xs ≤ fuel →
      parseItems fuel (dumpChars x ++ (dumpItems xs ++ ']' :: rest)) =
        some (x :: xs, rest)) ∧
    (∀ k v ms rest, goodStr k = true → goodV v = true → goodKVs ms = true →
      delimOk rest → 1 + jweight v + jweightMembers ms ≤ fuel →
      parseMembers fuel (dumpMember (k, v) ++ (dumpMembers ms ++ '}' :: rest)) =
        some ((k, v) :: ms, rest))
  | 0 => by
      refine ⟨?_, ?_, ?_⟩
      · intro v rest _ _ hw
        have := jweight_pos v
        omega
      · intro x xs rest _ _ _ hw
        omega
      · intro k v ms rest _ _ _ _ hw
        omega
  | fuel + 1 => by
      obtain ⟨ihv, ihi, ihm⟩ := parse_roundtrip fuel
      refine ⟨?_, ?_, ?_⟩
      · intro v rest hg hd hw
        rw [parseVal.eq_2, pySkipWs_dump v rest]
        match v with
        | PyVal.none =>
            show (match ('n' :: 'u' :: 'l' :: 'l' :: rest : List Char) with
              | [] => Option.none
              | c :: r => _) = _
            simp
        | PyVal.bool true =>
            show (match ('t' :: 'r' :: 'u' :: 'e' :: rest : List Char) with
              | [] => Option.none
              | c :: r => _) = _
            simp
        | PyVal.bool false =>
            show (match ('f' :: 'a' :: 'l' :: 's' :: 'e' :: rest : List Char) with
              | [] => Option.none
              | c :: r => _) = _
            simp
        | PyVal.str s =>
            obtain ⟨-, hall, -⟩ := goodStr_parts (by simpa [goodV] using hg)
            show (match ('"' :: escStr s.toList ++ ['"'] : List Char) ++ rest with
              | [] => Option.none
              | c :: r => _) = _
            simp only [List.cons_append, List.append_assoc, List.singleton_append]
            simp
            exact ⟨s.toList, parseStrBody_roundtrip _ s.toList rest hall
              (by simp), strMkToList s⟩
        | PyVal.int i =>
            have hrt := parseIntToken_roundtrip i rest hd
            by_cases hneg : i < 0
            · have hic : intChars i = '-' :: natChars i.natAbs := by
                unfold intChars
                rw [if_pos hneg]
              show (match intChars i ++ rest with
                | [] => Option.none
                | c :: r => _) = _
              rw [hic] at hrt ⊢
              simp only [List.cons_append]
              simp
              rw [← List.cons_append]
              rw [List.cons_append]
              exact hrt
            · obtain ⟨hne, hall, -, -⟩ := natChars_spec i.toNat
              obtain ⟨c0, t0, hct⟩ := List.exists_cons_of_ne_nil hne
              have hic : intChars i = c0 :: t0 := by
                unfold intChars
                rw [if_neg hneg, hct]
              have hc0dig : c0.isDigit = true := by
                rw [hct, List.all_cons, Bool.and_eq_true] at hall
                exact hall.1
              obtain ⟨-, -, -, -, hq, hbr, hbk, hn, ht, hf⟩ :=
                isDigit_char_facts hc0dig
              show (match intChars i ++ rest with
                | [] => Option.none
                | c :: r => _) = _
              rw [hic] at hrt ⊢
              simp only [List.cons_append]
              simp [hq, hbr, hbk, hn, ht, hf]
              rw [← List.cons_append]
              rw [List.cons_append]
              exact hrt
        | PyVal.list [] =>
            show (match ('[' :: [']'] : List Char) ++ rest with
              | [] => Option.none
              | c :: r => _) = _
            simp only [List.cons_append, List.singleton_append]
            simp [pySkipWs_cons_not_ws _ (by decide : (decide (']' = ' ') ||
              decide (']' = '	') || decide (']' = '
') ||
              decide (']' = '
')) = false)]
        | PyVal.list (x :: xs) =>
            have hgs : goodV x = true ∧ goodList xs = true := by
              have hgl : goodList (x :: xs) = true := by simpa [goodV] using hg
              simpa [goodList, Bool.and_eq_true] using hgl
            have hwt : 1 + jweight x + jweightItems xs ≤ fuel := by
              have hje : jweight (PyVal.list (x :: xs)) =
                  1 + (1 + jweight x + jweightItems xs) := by
                simp [jweight, jweightItems]
              omega
            obtain ⟨c, t, hct, hws, hnr, -, -⟩ := dumpChars_head x
            have hsc : dumpChars (PyVal.list (x :: xs)) ++ rest =
                '[' :: (dumpChars x ++ (dumpItems xs ++ (']' :: rest))) := by
              rw [show dumpChars (PyVal.list (x :: xs)) =
                '[' :: dumpChars x ++ dumpItems xs ++ [']'] from rfl]
              simp
            rw [hsc]
            have hskip : pySkipWs (dumpChars x ++ (dumpItems xs ++ ']' :: rest)) =
                dumpChars x ++ (dumpItems xs ++ ']' :: rest) := pySkipWs_dump x _
            have hhd : (dumpChars x ++ (dumpItems xs ++ ']' :: rest)).head? =
                some c := by
              rw [hct]
              rfl
            simp only [if_neg (by decide : ¬ ('[' : Char) = '"'),
              if_neg (by decide : ¬ ('[' : Char) = '{'),
              if_pos (rfl : ('[' : Char) = '['), if_true, hskip, hhd]
            rw [if_neg (by simpa using hnr)]
            rw [ihi x xs rest hgs.1 hgs.2 hd hwt]
            rfl
        | PyVal.dict [] =>
            show (match ('{' :: ['}'] : List Char) ++ rest with
              | [] => Option.none
              | c :: r => _) = _
            simp only [List.cons_append, List.singleton_append]
            simp [pySkipWs_cons_not_ws _ (by decide : (decide ('}' = ' ') ||
              decide ('}' = '	') || decide ('}' = '
') ||
              decide ('}' = '
')) = false)]
        | PyVal.dict ((k, v2) :: ms) =>
            have hgs : goodStr k = true ∧ goodV v2 = true ∧ goodKVs ms = true := by
              have hgk : goodKVs ((k, v2) :: ms) = true := by simpa [goodV] using hg
              simpa [goodKVs, Bool.and_eq_true, and_assoc] using hgk
            have hwt : 1 + jweight v2 + jweightMembers ms ≤ fuel := by
              have hje : jweight (PyVal.dict ((k, v2) :: ms)) =
                  1 + (1 + jweight v2 + jweightMembers ms) := by
                simp [jweight, jweightMembers]
              omega
            have hsc : dumpChars (PyVal.dict ((k, v2) :: ms)) ++ rest =
                '{' :: (dumpMember (k, v2) ++ (dumpMembers ms ++ ('}' :: rest))) := by
              rw [show dumpChars (PyVal.dict ((k, v2) :: ms)) =
                '{' :: dumpMember (k, v2) ++ dumpMembers ms ++ ['}'] from rfl]
              simp
            rw [hsc]
            have hskip := pySkipWs_dumpMember (k, v2) (dumpMembers ms ++ '}' :: rest)
            have hhd := dumpMember_head (k, v2) (dumpMembers ms ++ '}' :: rest)
            simp only [if_neg (by decide : ¬ ('{' : Char) = '"'),
              if_pos (rfl : ('{' : Char) = '{'), if_true, hskip, hhd]
            rw [if_neg (by decide : ¬ (some '"' : Option Char) = some '}')]
            rw [ihm k v2 ms rest hgs.1 hgs.2.1 hgs.2.2 hd hwt]
            rfl
      · intro x xs rest hgx hgxs hd hw
        rw [parseItems.eq_2]
        rw [ihv x (dumpItems xs ++ ']' :: rest) hgx (dumpItems_delim xs rest)
          (by omega)]
        match xs with
        | [] =>
            rw [show (dumpItems ([] : List PyVal) ++ ']' :: rest : List Char) =
              ']' :: rest from by
              rw [show dumpItems ([] : List PyVal) = [] from rfl]
              rfl]
            simp only []
            rw [show pySkipWs (']' :: rest) = ']' :: rest from
              pySkipWs_cons_not_ws _ (by decide)]
            simp
        | y :: ys =>
            have hgs : goodV y = true ∧ goodList ys = true := by
              simpa [goodList, Bool.and_eq_true] using hgxs
            have hsc : (dumpItems (y :: ys) ++ ']' :: rest : List Char) =
                ',' :: ' ' :: (dumpChars y ++ (dumpItems ys ++ ']' :: rest)) := by
              rw [show dumpItems (y :: ys) = ',' :: ' ' :: dumpChars y ++
                dumpItems ys from rfl]
              simp
            rw [hsc]
            simp only []
            rw [show pySkipWs (',' :: ' ' ::
                (dumpChars y ++ (dumpItems ys ++ ']' :: rest))) =
              ',' :: ' ' :: (dumpChars y ++ (dumpItems ys ++ ']' :: rest)) from
              pySkipWs_cons_not_ws _ (by decide)]
            simp only [List.head?_cons, List.tail_cons, if_true]
            rw [pySkipWs_cons_space,
              pySkipWs_dump y (dumpItems ys ++ ']' :: rest)]
            rw [ihi y ys rest hgs.1 hgs.2 hd (by
              simp only [jweightItems] at hw
              omega)]
            rfl
      · intro k v ms rest hgk hgv hgms hd hw
        have hsc : dumpMember (k, v) ++ (dumpMembers ms ++ '}' :: rest) =
            '"' :: (escStr k.toList ++ '"' ::
              (':' :: ' ' :: (dumpChars v ++ (dumpMembers ms ++ '}' :: rest)))) := by
          rw [show dumpMember (k, v) = '"' :: (escStr k.toList ++ '"' ::
            ':' :: ' ' :: dumpChars v) from rfl]
          simp
        rw [hsc, parseMembers.eq_3]
        simp only [if_pos (rfl : ('"' : Char) = '"'), if_true]
        rw [parseStrBody_roundtrip _ k.toList _ (goodStr_parts hgk).2.1
          (by simp)]
        simp only []
        rw [show pySkipWs (':' :: ' ' :: (dumpChars v ++
            (dumpMembers ms ++ '}' :: rest))) =
          ':' :: ' ' :: (dumpChars v ++ (dumpMembers ms ++ '}' :: rest)) from
          pySkipWs_cons_not_ws _ (by decide)]
        simp only [List.head?_cons, List.tail_cons, if_true]
        rw [parseVal_cons_space, ihv v (dumpMembers ms ++ '}' :: rest) hgv
          (dumpMembers_delim ms rest) (by omega)]
        simp only []
        match ms with
        | [] =>
            rw [show (dumpMembers ([] : List (String × PyVal)) ++ '}' :: rest :
              List Char) = '}' :: rest from by
              rw [show dumpMembers ([] : List (String × PyVal)) = [] from rfl]
              rfl]
            rw [show pySkipWs ('}' :: rest) = '}' :: rest from
              pySkipWs_cons_not_ws _ (by decide)]
            simp [strMkToList]
        | (k2, v2) :: ms2 =>
            have hgs : goodStr k2 = true ∧ goodV v2 = true ∧
                goodKVs ms2 = true := by
              simpa [goodKVs, Bool.and_eq_true, and_assoc] using hgms
            have hsc2 : (dumpMembers ((k2, v2) :: ms2) ++ '}' :: rest :
                List Char) = ',' :: ' ' :: (dumpMember (k2, v2) ++
                  (dumpMembers ms2 ++ '}' :: rest)) := by
              rw [show dumpMembers ((k2, v2) :: ms2) = ',' :: ' ' ::
                dumpMember (k2, v2) ++ dumpMembers ms2 from rfl]
              simp
            rw [hsc2]
            rw [show pySkipWs (',' :: ' ' :: (dumpMember (k2, v2) ++
                (dumpMembers ms2 ++ '}' :: rest))) =
              ',' :: ' ' :: (dumpMember (k2, v2) ++
                (dumpMembers ms2 ++ '}' :: rest)) from
              pySkipWs_cons_not_ws _ (by decide)]
            simp only [List.head?_cons, List.tail_cons, if_true]
            rw [pySkipWs_cons_space,
              pySkipWs_dumpMember (k2, v2) (dumpMembers ms2 ++ '}' :: rest)]
            rw [ihm k2 v2 ms2 rest hgs.1 hgs.2.1 hgs.2.2 hd (by
              simp only [jweightMembers] at hw
              omega)]
            simp [strMkToList]

/-- Marker-freedom is preserved by dropping elements. -/
theorem hasLc_drop : ∀ (n : Nat) (l : List Char), hasLc l = false →
    hasLc (l.drop n) = false
  | 0, _, h => h
  | _ + 1, [], _ => rfl
  | n + 1, _ :: t, h => hasLc_drop n t (hasLc_tail h)

/-- Marker-freedom is preserved by `dropWhile`. -/
theorem hasLc_dropWhile (p : Char → Bool) : ∀ (l : List Char),
    hasLc l = false → hasLc (l.dropWhile p) = false
  | [], h => h
  | c :: t, h => by
      rw [List.dropWhile_cons]
      split_ifs with hp
      · exact hasLc_dropWhile p t (hasLc_tail h)
      · exact h

/-- Marker-freedom is preserved by whitespace skipping. -/
theorem hasLc_skipWs : ∀ (l : List Char), hasLc l = false →
    hasLc (pySkipWs l) = false
  | [], h => h
  | c :: t, h => by
      rw [pySkipWs.eq_2]
      split_ifs with hws
      · exact hasLc_skipWs t (hasLc_tail h)
      · exact h

/-- The number parser returns a marker-free remainder on marker-free input. -/
theorem parseIntToken_clean (l : List Char) (h : hasLc l = false)
    (n : Int) (r : List Char) (hp : parseIntToken l = some (n, r)) :
    hasLc r = false := by
  unfold parseIntToken at hp
  simp only [] at hp
  have hl1 : hasLc (if (decide (l.head? = some '-') : Bool) then l.tail else l)
      = false := by
    split_ifs
    · match l, h with
      | [], h => exact h
      | _ :: _, h => exact hasLc_tail h
    · exact h
  rcases hm : (if (decide (l.head? = some '-') : Bool) then l.tail else l) with
    _ | ⟨c, t⟩
  · rw [hm] at hp
    simp at hp
  · rw [hm] at hp hl1
    simp only at hp
    split_ifs at hp <;>
      (simp only [Option.some.injEq, Prod.mk.injEq] at hp
       obtain ⟨-, hr⟩ := hp
       rw [← hr]
       exact hasLc_dropWhile Char.isDigit (c :: t) hl1)

/-- Marker-freedom is preserved by `List.tail`. -/
theorem hasLc_tailList : ∀ (l : List Char), hasLc l = false →
    hasLc l.tail = false
  | [], h => h
  | _ :: _, h => hasLc_tail h

/-- Sublists of backslash-free text are backslash-free. -/
theorem noBS_sub {l1 l2 : List Char} (h : l2.Sublist l1)
    (hn : noBS l1 = true) : noBS l2 = true := by
  unfold noBS at hn ⊢
  exact allSub h hn

/-- Sublists of quote-free text are quote-free. -/
theorem noQuote_sub {l1 l2 : List Char} (h : l2.Sublist l1)
    (hn : noQuote l1 = true) : noQuote l2 = true := by
  unfold noQuote at hn ⊢
  exact allSub h hn

/-- The remainder of a parsed number token is a sublist of the input. -/
theorem parseIntToken_sublist (l : List Char) (n : Int) (r : List Char)
    (hp : parseIntToken l = some (n, r)) : r.Sublist l := by
  unfold parseIntToken at hp
  simp only [] at hp
  have hsub : (if (decide (l.head? = some '-') : Bool) then l.tail
      else l).Sublist l := by
    split_ifs
    · exact List.tail_sublist l
    · exact List.Sublist.refl l
  rcases hm : (if (decide (l.head? = some '-') : Bool) then l.tail else l) with
    _ | ⟨c, t⟩
  · rw [hm] at hp
    simp at hp
  · rw [hm] at hp hsub
    simp only at hp
    split_ifs at hp <;>
      (simp only [Option.some.injEq, Prod.mk.injEq] at hp
       obtain ⟨-, hr⟩ := hp
       rw [← hr]
       exact (List.dropWhile_sublist _).trans hsub)

/-- Parsing marker-free, backslash-free input produces tame values and
marker-free, backslash-free remainders: with no escape sequence available,
no string in the parse can acquire a quote, a backslash or an `lc_` marker. -/
theorem parse_tame : ∀ fuel : Nat,
    (∀ l v r, hasLc l = false → noBS l = true → parseVal fuel l = some (v, r) →
      tameV v = true ∧ hasLc r = false ∧ noBS r = true) ∧
    (∀ l ms r, hasLc l = false → noBS l = true →
      parseMembers fuel l = some (ms, r) →
      tameKVs ms = true ∧ hasLc r = false ∧ noBS r = true) ∧
    (∀ l xs r, hasLc l = false → noBS l = true →
      parseItems fuel l = some (xs, r) →
      tameList xs = true ∧ hasLc r = false ∧ noBS r = true)
  | 0 => by
      refine ⟨?_, ?_, ?_⟩ <;> (intro l a r _ _ hp; simp [parseVal, parseMembers, parseItems] at hp)
  | fuel + 1 => by
      obtain ⟨ihv, ihm, ihi⟩ := parse_tame fuel
      refine ⟨?_, ?_, ?_⟩
      · intro l v r hl hnb hp
        rw [parseVal.eq_2] at hp
        have hls : hasLc (pySkipWs l) = false := hasLc_skipWs l hl
        have hnbs : noBS (pySkipWs l) = true := noBS_sub (pySkipWs_sublist l) hnb
        rcases hsw : pySkipWs l with _ | ⟨c, rest⟩
        · rw [hsw] at hp
          simp at hp
        · rw [hsw] at hp hls hnbs
          simp only [] at hp
          have hrest : hasLc rest = false := hasLc_tail hls
          have hnbrest : noBS rest = true :=
            noBS_sub (List.tail_sublist (c :: rest)) hnbs
          split_ifs at hp with h1 h2 h3 h4 h5 h6 h7 h8 h9 h10 h11
          · rcases hps : parseStrBody rest.length rest with _ | sr
            · rw [hps] at hp
              simp at hp
            · rw [hps] at hp
              simp only [Option.map_some', Option.some.injEq, Prod.mk.injEq] at hp
              obtain ⟨hv, hr⟩ := hp
              obtain ⟨hc1, hc2, hc3, hc4⟩ := parseStrBody_tame rest.length rest
                hrest hnbrest sr.1 sr.2 (by rw [hps])
              subst hv
              subst hr
              refine ⟨?_, hc3, hc4⟩
              simp [tameV, tameStr]
              exact ⟨by simpa using hc2, by simpa using hc1⟩
          · simp only [Option.some.injEq, Prod.mk.injEq] at hp
            obtain ⟨hv, hr⟩ := hp
            subst hv
            subst hr
            refine ⟨by simp [tameV, tameKVs], ?_, ?_⟩
            · exact hasLc_tailList _ (hasLc_skipWs rest hrest)
            · exact noBS_sub (List.tail_sublist _)
                (noBS_sub (pySkipWs_sublist _) hnbrest)
          · rcases hpm : parseMembers fuel (pySkipWs rest) with _ | mr
            · rw [hpm] at hp
              simp at hp
            · rw [hpm] at hp
              simp only [Option.map_some', Option.some.injEq, Prod.mk.injEq] at hp
              obtain ⟨hv, hr⟩ := hp
              subst hv
              subst hr
              obtain ⟨hg1, hg2, hg3⟩ := ihm (pySkipWs rest) mr.1 mr.2
                (hasLc_skipWs rest hrest) (noBS_sub (pySkipWs_sublist _) hnbrest)
                (by rw [hpm])
              exact ⟨by simpa [tameV] using hg1, hg2, hg3⟩
          · simp only [Option.some.injEq, Prod.mk.injEq] at hp
            obtain ⟨hv, hr⟩ := hp
            subst hv
            subst hr
            refine ⟨by simp [tameV, tameList], ?_, ?_⟩
            · exact hasLc_tailList _ (hasLc_skipWs rest hrest)
            · exact noBS_sub (List.tail_sublist _)
                (noBS_sub (pySkipWs_sublist _) hnbrest)
          · rcases hpi : parseItems fuel (pySkipWs rest) with _ | ir
            · rw [hpi] at hp
              simp at hp
            · rw [hpi] at hp
              simp only [Option.map_some', Option.some.injEq, Prod.mk.injEq] at hp
              obtain ⟨hv, hr⟩ := hp
              subst hv
              subst hr
              obtain ⟨hg1, hg2, hg3⟩ := ihi (pySkipWs rest) ir.1 ir.2
                (hasLc_skipWs rest hrest) (noBS_sub (pySkipWs_sublist _) hnbrest)
                (by rw [hpi])
              exact ⟨by simpa [tameV] using hg1, hg2, hg3⟩
          · simp only [Option.some.injEq, Prod.mk.injEq] at hp
            obtain ⟨hv, hr⟩ := hp
            subst hv
            subst hr
            exact ⟨by simp [tameV], hasLc_drop 3 rest hrest,
              noBS_sub (List.drop_sublist _ _) hnbrest⟩
          · simp only [Option.some.injEq, Prod.mk.injEq] at hp
            obtain ⟨hv, hr⟩ := hp
            subst hv
            subst hr
            exact ⟨by simp [tameV], hasLc_drop 3 rest hrest,
              noBS_sub (List.drop_sublist _ _) hnbrest⟩
          · simp only [Option.some.injEq, Prod.mk.injEq] at hp
            obtain ⟨hv, hr⟩ := hp
            subst hv
            subst hr
            exact ⟨by simp [tameV], hasLc_drop 4 rest hrest,
              noBS_sub (List.drop_sublist _ _) hnbrest⟩
          · rcases hpn : parseIntToken (c :: rest) with _ | nr
            · rw [hpn] at hp
              simp at hp
            · rw [hpn] at hp
              simp only [Option.map_some', Option.some.injEq, Prod.mk.injEq] at hp
              obtain ⟨hv, hr⟩ := hp
              subst hv
              subst hr
              refine ⟨by simp [tameV], ?_, ?_⟩
              · exact parseIntToken_clean (c :: rest) hls nr.1 nr.2 (by rw [hpn])
              · exact noBS_sub (parseIntToken_sublist _ nr.1 nr.2 (by rw [hpn]))
                  hnbs
      · intro l ms r hl hnb hp
        rcases l with _ | ⟨c, rest⟩
        · rw [parseMembers.eq_2] at hp
          simp at hp
        · rw [parseMembers.eq_3] at hp
          have hrest : hasLc rest = false := hasLc_tail hl
          have hnbrest : noBS rest = true :=
            noBS_sub (List.tail_sublist (c :: rest)) hnb
          split_ifs at hp with h1
          rcases hps : parseStrBody rest.length rest with _ | kr
          · rw [hps] at hp
            simp at hp
          · rw [hps] at hp
            simp only [] at hp
            obtain ⟨hk1, hk2, hk3, hk4⟩ := parseStrBody_tame rest.length rest
              hrest hnbrest kr.1 kr.2 (by rw [hps])
            split_ifs at hp with h2
            rcases hpv : parseVal fuel (pySkipWs kr.2).tail with _ | vr
            · rw [hpv] at hp
              simp at hp
            · rw [hpv] at hp
              simp only [] at hp
              obtain ⟨hv1, hv2, hv3⟩ := ihv (pySkipWs kr.2).tail vr.1 vr.2
                (hasLc_tailList _ (hasLc_skipWs kr.2 hk3))
                (noBS_sub (List.tail_sublist _)
                  (noBS_sub (pySkipWs_sublist _) hk4))
                (by rw [hpv])
              split_ifs at hp with h3 h4
              · rcases hpm : parseMembers fuel (pySkipWs (pySkipWs vr.2).tail)
                  with _ | mr
                · rw [hpm] at hp
                  simp at hp
                · rw [hpm] at hp
                  simp only [Option.map_some', Option.some.injEq,
                    Prod.mk.injEq] at hp
                  obtain ⟨hv, hr⟩ := hp
                  subst hv
                  subst hr
                  obtain ⟨hm1, hm2, hm3⟩ := ihm _ mr.1 mr.2
                    (hasLc_skipWs _ (hasLc_tailList _ (hasLc_skipWs vr.2 hv2)))
                    (noBS_sub (pySkipWs_sublist _)
                      (noBS_sub (List.tail_sublist _)
                        (noBS_sub (pySkipWs_sublist _) hv3)))
                    (by rw [hpm])
                  refine ⟨?_, hm2, hm3⟩
                  simp [tameKVs, tameStr, hm1, hv1]
                  exact ⟨by simpa using hk2, by simpa using hk1⟩
              · simp only [Option.some.injEq, Prod.mk.injEq] at hp
                obtain ⟨hv, hr⟩ := hp
                subst hv
                subst hr
                refine ⟨?_, hasLc_tailList _ (hasLc_skipWs vr.2 hv2),
                  noBS_sub (List.tail_sublist _)
                    (noBS_sub (pySkipWs_sublist _) hv3)⟩
                simp [tameKVs, tameStr, hv1]
                exact ⟨by simpa using hk2, by simpa using hk1⟩
      · intro l xs r hl hnb hp
        rw [parseItems.eq_2] at hp
        rcases hpv : parseVal fuel l with _ | vr
        · rw [hpv] at hp
          simp at hp
        · rw [hpv] at hp
          simp only [] at hp
          obtain ⟨hv1, hv2, hv3⟩ := ihv l vr.1 vr.2 hl hnb (by rw [hpv])
          split_ifs at hp with h1 h2
          · rcases hpi : parseItems fuel (pySkipWs (pySkipWs vr.2).tail)
              with _ | ir
            · rw [hpi] at hp
              simp at hp
            · rw [hpi] at hp
              simp only [Option.map_some', Option.some.injEq, Prod.mk.injEq] at hp
              obtain ⟨hv, hr⟩ := hp
              subst hv
              subst hr
              obtain ⟨hi1, hi2, hi3⟩ := ihi _ ir.1 ir.2
                (hasLc_skipWs _ (hasLc_tailList _ (hasLc_skipWs vr.2 hv2)))
                (noBS_sub (pySkipWs_sublist _)
                  (noBS_sub (List.tail_sublist _)
                    (noBS_sub (pySkipWs_sublist _) hv3)))
                (by rw [hpi])
              exact ⟨by simp [tameList, hv1, hi1], hi2, hi3⟩
          · simp only [Option.some.injEq, Prod.mk.injEq] at hp
            obtain ⟨hv, hr⟩ := hp
            subst hv
            subst hr
            exact ⟨by simp [tameList, hv1],
              hasLc_tailList _ (hasLc_skipWs vr.2 hv2),
              noBS_sub (List.tail_sublist _)
                (noBS_sub (pySkipWs_sublist _) hv3)⟩

/-- A list whose second element is not `c` cannot begin with the marker. -/
theorem startsLc_false_of_snd (a : Char) {b : Char} (l : List Char)
    (h : ¬ b = 'c') : startsLc (a :: b :: l) = false := by
  cases l with
  | nil => rfl
  | cons x t => simp [startsLc, h]

/-- If the tail does not begin with `c`, the whole list is not the marker. -/
theorem startsLc_false_of_headOpt (a : Char) (l : List Char)
    (h : ¬ l.head? = some 'c') : startsLc (a :: l) = false := by
  cases l with
  | nil => rfl
  | cons b t => exact startsLc_false_of_snd a t (by simpa using h)

/-- A prefix containing no `l` contributes no marker occurrence. -/
theorem hasLc_append_noL : ∀ (p t : List Char), (∀ c ∈ p, ¬ c = 'l') →
    hasLc t = false → hasLc (p ++ t) = false
  | [], _, _, ht => ht
  | c :: p', t, hp, ht => by
      rw [List.cons_append, hasLc_cons, Bool.or_eq_false_iff]
      refine ⟨startsLc_false_of_head _ (hp c (by simp)), ?_⟩
      exact hasLc_append_noL p' t (fun d hd => hp d (by simp [hd])) ht

/-- A digit character is not a marker letter and is printable. -/
theorem digit_char_facts {c : Char} (h : c.isDigit = true) :
    ¬ c = 'l' ∧ goodChar c = true ∧
      (c = ' ' || c = '\t' || c = '\n' || c = '\r' || decide (c.toNat = 11) ||
        decide (c.toNat = 12)) = false := by
  obtain ⟨h1, h2⟩ := isDigit_toNat h
  refine ⟨fun hc => by subst hc; simp at h1 h2, ?_, ?_⟩
  · unfold goodChar
    simp only [Bool.or_eq_true, decide_eq_true_eq]
    left; left; left; left; left
    omega
  · simp only [Bool.or_eq_false_iff, decide_eq_false_iff_not]
    refine ⟨⟨⟨⟨⟨?_, ?_⟩, ?_⟩, ?_⟩, ?_⟩, ?_⟩
    · intro hc; rw [hc] at h1; exact absurd h1 (by decide)
    · intro hc; rw [hc] at h1; exact absurd h1 (by decide)
    · intro hc; rw [hc] at h1; exact absurd h1 (by decide)
    · intro hc; rw [hc] at h1; exact absurd h1 (by decide)
    · omega
    · omega

/-- The digits of a printed integer are free of marker letters. -/
theorem intChars_noL (i : Int) : ∀ c ∈ intChars i, ¬ c = 'l' := by
  intro c hc
  unfold intChars at hc
  have hdig : ∀ n : Nat, c ∈ natChars n → ¬ c = 'l' := by
    intro n hmem
    obtain ⟨_, hall, _, _⟩ := natChars_spec n
    rw [List.all_eq_true] at hall
    exact (digit_char_facts (hall c hmem)).1
  split_ifs at hc with hneg
  · rcases List.mem_cons.mp hc with rfl | hmem
    · decide
    · exact hdig _ hmem
  · exact hdig _ hc

/-- The head of an encoded region is either the first source character or a
backslash (or, for an empty source, the head of the continuation). -/
theorem escStr_append_head {s t : List Char} {x : Char} (hx : ¬ x = '\\')
    (h : (escStr s ++ t).head? = some x) :
    s.head? = some x ∨ (s = [] ∧ t.head? = some x) := by
  cases s with
  | nil => exact Or.inr ⟨rfl, by simpa [escStr] using h⟩
  | cons c s' =>
      rw [show escStr (c :: s') = escChar c ++ escStr s' from rfl,
        List.append_assoc] at h
      rcases (escChar_shape c).2 with hlit | ⟨e, he, _⟩
      · rw [hlit] at h
        simp only [List.cons_append, List.head?_cons, Option.some.injEq] at h
        exact Or.inl (by rw [List.head?_cons, h])
      · rw [he] at h
        simp only [List.cons_append, List.head?_cons, Option.some.injEq] at h
        exact absurd h.symm hx

/-- Encoding a marker-free string body yields marker-free text, provided the
continuation is marker-free and does not begin with `c` or `_`. -/
theorem esc_clean (t : List Char) (ht : hasLc t = false)
    (hc : ¬ t.head? = some 'c') (hu : ¬ t.head? = some '_') :
    ∀ s, hasLc s = false → hasLc (escStr s ++ t) = false := by
  intro s
  induction s with
  | nil => intro _; simpa [escStr] using ht
  | cons c s' ih =>
      intro h1
      rw [hasLc_cons, Bool.or_eq_false_iff] at h1
      obtain ⟨hstart, htl⟩ := h1
      have ihw : hasLc (escStr s' ++ t) = false := ih htl
      rw [show escStr (c :: s') = escChar c ++ escStr s' from rfl,
        List.append_assoc]
      rcases (escChar_shape c).2 with hlit | ⟨e, he, hdec⟩
      · rw [hlit]
        simp only [List.cons_append, List.nil_append]
        rw [hasLc_cons, Bool.or_eq_false_iff]
        refine ⟨?_, ihw⟩
        by_cases hcl : c = 'l'
        · subst hcl
          cases hsl : startsLc ('l' :: (escStr s' ++ t)) with
          | false => rfl
          | true =>
              exfalso
              obtain ⟨tl, hw⟩ := (startsLc_true_iff _).1 hsl
              have hwt : escStr s' ++ t = 'c' :: '_' :: tl := by
                injection hw
              have hhead : (escStr s' ++ t).head? = some 'c' := by
                rw [hwt]; rfl
              rcases escStr_append_head (by decide) hhead with hsh | ⟨hse, hth⟩
              · cases s' with
                | nil => simp at hsh
                | cons a s'' =>
                    have ha : a = 'c' := by simpa using hsh
                    subst ha
                    have hw2 : escStr ('c' :: s'') ++ t =
                        'c' :: (escStr s'' ++ t) := by
                      rw [show escStr ('c' :: s'') = escChar 'c' ++ escStr s''
                        from rfl, show escChar 'c' = ['c'] from by decide]
                      simp
                    rw [hw2] at hwt
                    have hsnd : (escStr s'' ++ t).head? = some '_' := by
                      have h3 := List.tail_eq_of_cons_eq hwt
                      rw [h3]; rfl
                    rcases escStr_append_head (by decide) hsnd with hs2 | ⟨_, ht2⟩
                    · cases s'' with
                      | nil => simp at hs2
                      | cons b s3 =>
                          have hb : b = '_' := by simpa using hs2
                          subst hb
                          simp [startsLc] at hstart
                    · exact hu ht2
              · exact hc hth
        · exact startsLc_false_of_head _ hcl
      · rw [he]
        simp only [List.cons_append, List.nil_append]
        rw [hasLc_cons, hasLc_cons, Bool.or_eq_false_iff, Bool.or_eq_false_iff]
        have hel : ¬ e = 'l' := by
          rintro rfl
          simp [decodeEsc] at hdec
        exact ⟨startsLc_false_of_head _ (by decide),
          startsLc_false_of_head _ hel, ihw⟩

/-- A continuation after a dumped region that can introduce no marker:
marker-free and not beginning with a marker continuation letter. -/
def cleanTail (t : List Char) : Prop :=
  hasLc t = false ∧ ¬ t.head? = some 'c' ∧ ¬ t.head? = some '_'

/-- A closer or separator in front of a clean tail is again a clean tail. -/
theorem cleanTail_cons {c : Char} (t : List Char) (h1 : ¬ c = 'l')
    (h2 : ¬ c = 'c') (h3 : ¬ c = '_') (ht : cleanTail t) :
    cleanTail (c :: t) := by
  refine ⟨?_, by simp [h2], by simp [h3]⟩
  rw [hasLc_cons, Bool.or_eq_false_iff]
  exact ⟨startsLc_false_of_head _ h1, ht.1⟩

-- The dump of a wrapper-free value is marker-free, given a clean
-- continuation: every `l` emitted by the writer (in `null`, `false`, or a
-- string body) is followed by something other than `c_`.
mutual

theorem dump_clean_v : ∀ (v : PyVal) (tail : List Char), goodV v = true →
    cleanTail tail → hasLc (dumpChars v ++ tail) = false
  | PyVal.none, tail, _, ht => by
      obtain ⟨ht1, ht2, _⟩ := ht
      rw [show dumpChars PyVal.none ++ tail =
        'n' :: 'u' :: 'l' :: 'l' :: tail from rfl]
      simp only [hasLc_cons, Bool.or_eq_false_iff]
      exact ⟨startsLc_false_of_head _ (by decide),
        startsLc_false_of_head _ (by decide),
        startsLc_false_of_snd _ _ (by decide),
        startsLc_false_of_headOpt _ _ ht2, ht1⟩
  | PyVal.bool true, tail, _, ht => by
      rw [show dumpChars (PyVal.bool true) ++ tail =
        't' :: 'r' :: 'u' :: 'e' :: tail from rfl]
      simp only [hasLc_cons, Bool.or_eq_false_iff]
      exact ⟨startsLc_false_of_head _ (by decide),
        startsLc_false_of_head _ (by decide),
        startsLc_false_of_head _ (by decide),
        startsLc_false_of_head _ (by decide), ht.1⟩
  | PyVal.bool false, tail, _, ht => by
      rw [show dumpChars (PyVal.bool false) ++ tail =
        'f' :: 'a' :: 'l' :: 's' :: 'e' :: tail from rfl]
      simp only [hasLc_cons, Bool.or_eq_false_iff]
      exact ⟨startsLc_false_of_head _ (by decide),
        startsLc_false_of_head _ (by decide),
        startsLc_false_of_snd _ _ (by decide),
        startsLc_false_of_head _ (by decide),
        startsLc_false_of_head _ (by decide), ht.1⟩
  | PyVal.int i, tail, _, ht => by
      rw [show dumpChars (PyVal.int i) = intChars i from rfl]
      exact hasLc_append_noL _ _ (intChars_noL i) ht.1
  | PyVal.str s, tail, hv, ht => by
      obtain ⟨h1, -, -⟩ := goodStr_parts (by simpa [goodV] using hv)
      rw [show dumpChars (PyVal.str s) ++ tail =
        '"' :: (escStr s.toList ++ ('"' :: tail)) from by
          rw [show dumpChars (PyVal.str s) =
            '"' :: (escStr s.toList ++ ['"']) from rfl]; simp]
      rw [hasLc_cons, Bool.or_eq_false_iff]
      have htq : hasLc ('"' :: tail) = false := by
        rw [hasLc_cons, Bool.or_eq_false_iff]
        exact ⟨startsLc_false_of_head _ (by decide), ht.1⟩
      exact ⟨startsLc_false_of_head _ (by decide),
        esc_clean _ htq (by simp) (by simp) _ h1⟩
  | PyVal.list [], tail, _, ht => by
      rw [show dumpChars (PyVal.list []) ++ tail = '[' :: ']' :: tail from rfl]
      simp only [hasLc_cons, Bool.or_eq_false_iff]
      exact ⟨startsLc_false_of_head _ (by decide),
        startsLc_false_of_head _ (by decide), ht.1⟩
  | PyVal.list (x :: xs), tail, hv, ht => by
      have hg : goodV x = true ∧ goodList xs = true := by
        simpa [goodV, goodList, Bool.and_eq_true] using hv
      rw [show dumpChars (PyVal.list (x :: xs)) ++ tail =
        '[' :: (dumpChars x ++ (dumpItems xs ++ (']' :: tail))) from by
          rw [show dumpChars (PyVal.list (x :: xs)) =
            '[' :: (dumpChars x ++ dumpItems xs ++ [']']) from rfl]; simp]
      rw [hasLc_cons, Bool.or_eq_false_iff]
      refine ⟨startsLc_false_of_head _ (by decide), ?_⟩
      exact dump_clean_v x _ hg.1
        (dump_clean_items xs (']' :: tail)
          (cleanTail_cons tail (by decide) (by decide) (by decide) ht) hg.2)
  | PyVal.dict [], tail, _, ht => by
      rw [show dumpChars (PyVal.dict []) ++ tail =
        '\x7b' :: '\x7d' :: tail from rfl]
      simp only [hasLc_cons, Bool.or_eq_false_iff]
      exact ⟨startsLc_false_of_head _ (by decide),
        startsLc_false_of_head _ (by decide), ht.1⟩
  | PyVal.dict (m :: ms), tail, hv, ht => by
      have hg : goodStr m.1 = true ∧ goodV m.2 = true ∧ goodKVs ms = true := by
        simpa [goodV, goodKVs, Bool.and_eq_true, and_assoc] using hv
      rw [show dumpChars (PyVal.dict (m :: ms)) ++ tail =
        '\x7b' :: (dumpMember m ++ (dumpMembers ms ++ ('\x7d' :: tail))) from by
          rw [show dumpChars (PyVal.dict (m :: ms)) =
            '\x7b' :: (dumpMember m ++ dumpMembers ms ++ ['\x7d']) from rfl]; simp]
      rw [hasLc_cons, Bool.or_eq_false_iff]
      refine ⟨startsLc_false_of_head _ (by decide), ?_⟩
      exact dump_clean_member m _ hg.1 hg.2.1
        (dump_clean_members ms ('\x7d' :: tail)
          (cleanTail_cons tail (by decide) (by decide) (by decide) ht) hg.2.2)

theorem dump_clean_member : ∀ (m : String × PyVal) (tail : List Char),
    goodStr m.1 = true → goodV m.2 = true → cleanTail tail →
    hasLc (dumpMember m ++ tail) = false
  | (k, mv), tail, hk, hmv, ht => by
      obtain ⟨h1, -, -⟩ := goodStr_parts hk
      rw [show dumpMember (k, mv) ++ tail =
        '"' :: (escStr k.toList ++ ('"' :: ':' :: ' ' :: (dumpChars mv ++ tail)))
        from by
          rw [show dumpMember (k, mv) =
            '"' :: (escStr k.toList ++ '"' :: ':' :: ' ' :: dumpChars mv)
            from rfl]; simp]
      rw [hasLc_cons, Bool.or_eq_false_iff]
      have hin : hasLc ('"' :: ':' :: ' ' :: (dumpChars mv ++ tail)) = false := by
        simp only [hasLc_cons, Bool.or_eq_false_iff]
        exact ⟨startsLc_false_of_head _ (by decide),
          startsLc_false_of_head _ (by decide),
          startsLc_false_of_head _ (by decide),
          dump_clean_v mv tail hmv ht⟩
      exact ⟨startsLc_false_of_head _ (by decide),
        esc_clean _ hin (by simp) (by simp) _ h1⟩

theorem dump_clean_items : ∀ (xs : List PyVal) (tail : List Char),
    cleanTail tail → goodList xs = true → cleanTail (dumpItems xs ++ tail)
  | [], tail, ht, _ => by
      rw [show dumpItems [] = ([] : List Char) from rfl, List.nil_append]
      exact ht
  | x :: xs, tail, ht, hg => by
      have hg2 : goodV x = true ∧ goodList xs = true := by
        simpa [goodList, Bool.and_eq_true] using hg
      rw [show dumpItems (x :: xs) ++ tail =
        ',' :: ' ' :: (dumpChars x ++ (dumpItems xs ++ tail)) from by
          rw [show dumpItems (x :: xs) =
            ',' :: ' ' :: dumpChars x ++ dumpItems xs from rfl]; simp]
      refine ⟨?_, by simp, by simp⟩
      simp only [hasLc_cons, Bool.or_eq_false_iff]
      exact ⟨startsLc_false_of_head _ (by decide),
        startsLc_false_of_head _ (by decide),
        dump_clean_v x _ hg2.1 (dump_clean_items xs tail ht hg2.2)⟩

theorem dump_clean_members : ∀ (ms : List (String × PyVal)) (tail : List Char),
    cleanTail tail → goodKVs ms = true → cleanTail (dumpMembers ms ++ tail)
  | [], tail, ht, _ => by
      rw [show dumpMembers [] = ([] : List Char) from rfl, List.nil_append]
      exact ht
  | m :: ms, tail, ht, hg => by
      have hg2 : goodStr m.1 = true ∧ goodV m.2 = true ∧ goodKVs ms = true := by
        simpa [goodKVs, Bool.and_eq_true, and_assoc] using hg
      rw [show dumpMembers (m :: ms) ++ tail =
        ',' :: ' ' :: (dumpMember m ++ (dumpMembers ms ++ tail)) from by
          rw [show dumpMembers (m :: ms) =
            ',' :: ' ' :: dumpMember m ++ dumpMembers ms from rfl]; simp]
      refine ⟨?_, by simp, by simp⟩
      simp only [hasLc_cons, Bool.or_eq_false_iff]
      exact ⟨startsLc_false_of_head _ (by decide),
        startsLc_false_of_head _ (by decide),
        dump_clean_member m _ hg2.1 hg2.2.1
          (dump_clean_members ms tail ht hg2.2.2)⟩

end

/-- The escape letter of a decodable escape is itself round-trippable. -/
theorem decodeEsc_key_good {e d : Char} (h : decodeEsc e = some d) :
    goodChar e = true := by
  unfold decodeEsc at h
  split_ifs at h with h1 h2 h3 h4 h5 h6 h7 h8
  · subst h1; decide
  · subst h2; decide
  · subst h3; decide
  · subst h4; decide
  · subst h5; decide
  · subst h6; decide
  · subst h7; decide
  · subst h8; decide

/-- Encoding a round-trippable body emits only round-trippable characters. -/
theorem escStr_goodChars : ∀ s : List Char, s.all goodChar = true →
    (escStr s).all goodChar = true
  | [], _ => rfl
  | c :: t, h => by
      rw [List.all_cons, Bool.and_eq_true] at h
      rw [show escStr (c :: t) = escChar c ++ escStr t from rfl,
        List.all_append, Bool.and_eq_true]
      refine ⟨?_, escStr_goodChars t h.2⟩
      rcases (escChar_shape c).2 with hlit | ⟨e, he, hdec⟩
      · rw [hlit]
        simp [h.1]
      · rw [he]
        simp only [List.all_cons, List.all_nil, Bool.and_true, Bool.and_eq_true]
        exact ⟨by decide, decodeEsc_key_good hdec⟩

-- All characters of the dump of a wrapper-free value are round-trippable.
mutual

theorem dump_good_v : ∀ v : PyVal, goodV v = true →
    (dumpChars v).all goodChar = true
  | PyVal.none, _ => by decide
  | PyVal.bool true, _ => by decide
  | PyVal.bool false, _ => by decide
  | PyVal.int i, _ => by
      rw [show dumpChars (PyVal.int i) = intChars i from rfl]
      unfold intChars
      split_ifs with hneg
      · rw [List.all_cons, Bool.and_eq_true]
        refine ⟨by decide, ?_⟩
        obtain ⟨_, hall, _, _⟩ := natChars_spec i.natAbs
        rw [List.all_eq_true] at hall ⊢
        exact fun c hc => (digit_char_facts (hall c hc)).2.1
      · obtain ⟨_, hall, _, _⟩ := natChars_spec i.toNat
        rw [List.all_eq_true] at hall ⊢
        exact fun c hc => (digit_char_facts (hall c hc)).2.1
  | PyVal.str s, hv => by
      obtain ⟨-, h2, -⟩ := goodStr_parts (by simpa [goodV] using hv)
      rw [show dumpChars (PyVal.str s) =
        '"' :: (escStr s.toList ++ ['"']) from rfl]
      simp only [List.all_cons, List.all_append, Bool.and_eq_true]
      exact ⟨by decide, escStr_goodChars _ h2, by decide⟩
  | PyVal.list [], _ => by decide
  | PyVal.list (x :: xs), hv => by
      have hg : goodV x = true ∧ goodList xs = true := by
        simpa [goodV, goodList, Bool.and_eq_true] using hv
      rw [show dumpChars (PyVal.list (x :: xs)) =
        '[' :: (dumpChars x ++ dumpItems xs ++ [']']) from rfl]
      simp only [List.all_cons, List.all_append, Bool.and_eq_true]
      exact ⟨by decide, ⟨dump_good_v x hg.1, dump_good_items xs hg.2⟩, by decide⟩
  | PyVal.dict [], _ => by decide
  | PyVal.dict (m :: ms), hv => by
      have hg : goodStr m.1 = true ∧ goodV m.2 = true ∧ goodKVs ms = true := by
        simpa [goodV, goodKVs, Bool.and_eq_true, and_assoc] using hv
      rw [show dumpChars (PyVal.dict (m :: ms)) =
        '\x7b' :: (dumpMember m ++ dumpMembers ms ++ ['\x7d']) from rfl]
      simp only [List.all_cons, List.all_append, Bool.and_eq_true]
      exact ⟨by decide,
        ⟨dump_good_member m hg.1 hg.2.1, dump_good_members ms hg.2.2⟩,
        by decide⟩

theorem dump_good_member : ∀ m : String × PyVal, goodStr m.1 = true →
    goodV m.2 = true → (dumpMember m).all goodChar = true
  | (k, mv), hk, hmv => by
      obtain ⟨-, h2, -⟩ := goodStr_parts hk
      rw [show dumpMember (k, mv) =
        '"' :: (escStr k.toList ++ '"' :: ':' :: ' ' :: dumpChars mv) from rfl]
      simp only [List.all_cons, List.all_append, Bool.and_eq_true]
      exact ⟨by decide, escStr_goodChars _ h2, by decide, by decide, by decide,
        dump_good_v mv hmv⟩

theorem dump_good_items : ∀ xs : List PyVal, goodList xs = true →
    (dumpItems xs).all goodChar = true
  | [], _ => rfl
  | x :: xs, hg => by
      have hg2 : goodV x = true ∧ goodList xs = true := by
        simpa [goodList, Bool.and_eq_true] using hg
      rw [show dumpItems (x :: xs) =
        ',' :: ' ' :: dumpChars x ++ dumpItems xs from rfl]
      simp only [List.cons_append, List.all_cons, List.all_append,
        Bool.and_eq_true]
      exact ⟨by decide, by decide, dump_good_v x hg2.1,
        dump_good_items xs hg2.2⟩

theorem dump_good_members : ∀ ms : List (String × PyVal), goodKVs ms = true →
    (dumpMembers ms).all goodChar = true
  | [], _ => rfl
  | m :: ms, hg => by
      have hg2 : goodStr m.1 = true ∧ goodV m.2 = true ∧ goodKVs ms = true := by
        simpa [goodKVs, Bool.and_eq_true, and_assoc] using hg
      rw [show dumpMembers (m :: ms) =
        ',' :: ' ' :: dumpMember m ++ dumpMembers ms from rfl]
      simp only [List.cons_append, List.all_cons, List.all_append,
        Bool.and_eq_true]
      exact ⟨by decide, by decide, dump_good_member m hg2.1 hg2.2.1,
        dump_good_members ms hg2.2.2⟩

end

-- The parser fuel needed for a value is bounded by the length of its dump.
mutual

theorem jweight_le_v : ∀ v : PyVal, jweight v ≤ (dumpChars v).length + 1
  | PyVal.none => by simp [jweight]
  | PyVal.bool true => by simp [jweight]
  | PyVal.bool false => by simp [jweight]
  | PyVal.int i => by simp [jweight]
  | PyVal.str s => by simp [jweight]
  | PyVal.list [] => by
      rw [show dumpChars (PyVal.list []) = ['[', ']'] from rfl]
      simp [jweight]
  | PyVal.list (x :: xs) => by
      have h1 := jweight_le_v x
      have h2 := jweight_le_items xs
      rw [show dumpChars (PyVal.list (x :: xs)) =
        '[' :: (dumpChars x ++ dumpItems xs ++ [']']) from rfl,
        show jweight (PyVal.list (x :: xs)) =
          1 + (1 + jweight x + jweightItems xs) from rfl]
      simp only [List.length_cons, List.length_append, List.length_singleton]
      omega
  | PyVal.dict [] => by
      rw [show dumpChars (PyVal.dict []) = ['\x7b', '\x7d'] from rfl]
      simp [jweight]
  | PyVal.dict (m :: ms) => by
      have h1 := jweight_le_member m
      have h2 := jweight_le_members ms
      rw [show dumpChars (PyVal.dict (m :: ms)) =
        '\x7b' :: (dumpMember m ++ dumpMembers ms ++ ['\x7d']) from rfl,
        show jweight (PyVal.dict (m :: ms)) =
          1 + (1 + jweight m.2 + jweightMembers ms) from rfl]
      simp only [List.length_cons, List.length_append, List.length_singleton]
      omega

theorem jweight_le_member : ∀ m : String × PyVal,
    1 + jweight m.2 ≤ (dumpMember m).length
  | (k, mv) => by
      have h1 := jweight_le_v mv
      rw [show dumpMember (k, mv) =
        '"' :: (escStr k.toList ++ '"' :: ':' :: ' ' :: dumpChars mv) from rfl]
      simp only [List.length_cons, List.length_append]
      omega

theorem jweight_le_items : ∀ xs : List PyVal,
    jweightItems xs ≤ (dumpItems xs).length
  | [] => by simp [jweightItems, dumpItems]
  | x :: xs => by
      have h1 := jweight_le_v x
      have h2 := jweight_le_items xs
      rw [show dumpItems (x :: xs) =
        ',' :: ' ' :: dumpChars x ++ dumpItems xs from rfl,
        show jweightItems (x :: xs) = 1 + jweight x + jweightItems xs from rfl]
      simp only [List.cons_append, List.length_cons, List.length_append]
      omega

theorem jweight_le_members : ∀ ms : List (String × PyVal),
    jweightMembers ms ≤ (dumpMembers ms).length
  | [] => by simp [jweightMembers, dumpMembers]
  | m :: ms => by
      have h1 := jweight_le_member m
      have h2 := jweight_le_members ms
      rw [show dumpMembers (m :: ms) =
        ',' :: ' ' :: dumpMember m ++ dumpMembers ms from rfl,
        show jweightMembers (m :: ms) =
          1 + jweight m.2 + jweightMembers ms from rfl]
      simp only [List.cons_append, List.length_cons, List.length_append]
      omega

end

/-- Loading the dump of a wrapper-free value returns it exactly. -/
theorem jsonLoads_dumps (v : PyVal) (h : goodV v = true) :
    jsonLoads (jsonDumps v) = some v := by
  unfold jsonLoads
  rw [show (jsonDumps v).toList = dumpChars v from rfl,
    show (jsonDumps v).length = (dumpChars v).length from rfl]
  have hp := (parse_roundtrip ((dumpChars v).length + 2)).1 v [] h (Or.inl rfl)
    (by have := jweight_le_v v; omega)
  rw [List.append_nil] at hp
  rw [hp]
  simp [pySkipWs]

/-- The dump of a value is never blank. -/
theorem dump_not_blank (v : PyVal) : pyBlank (jsonDumps v) = false := by
  have hhead : ∃ c t, dumpChars v = c :: t ∧
      (c = ' ' || c = '\t' || c = '\n' || c = '\r' || decide (c.toNat = 11) ||
        decide (c.toNat = 12)) = false := by
    match v with
    | PyVal.none => exact ⟨'n', _, rfl, by decide⟩
    | PyVal.bool true => exact ⟨'t', _, rfl, by decide⟩
    | PyVal.bool false => exact ⟨'f', _, rfl, by decide⟩
    | PyVal.str s => exact ⟨'"', _, rfl, by decide⟩
    | PyVal.list [] => exact ⟨'[', _, rfl, by decide⟩
    | PyVal.list (x :: xs) =>
        exact ⟨'[', _, show dumpChars (PyVal.list (x :: xs)) =
          '[' :: (dumpChars x ++ dumpItems xs ++ [']']) from rfl, by decide⟩
    | PyVal.dict [] => exact ⟨'\x7b', _, rfl, by decide⟩
    | PyVal.dict (m :: ms) =>
        exact ⟨'\x7b', _, show dumpChars (PyVal.dict (m :: ms)) =
          '\x7b' :: (dumpMember m ++ dumpMembers ms ++ ['\x7d']) from rfl,
          by decide⟩
    | PyVal.int i =>
        rw [show dumpChars (PyVal.int i) = intChars i from rfl]
        unfold intChars
        by_cases hneg : i < 0
        · rw [if_pos hneg]
          exact ⟨'-', _, rfl, by decide⟩
        · rw [if_neg hneg]
          obtain ⟨hne, hall, _, _⟩ := natChars_spec i.toNat
          obtain ⟨c0, t0, hct⟩ := List.exists_cons_of_ne_nil hne
          refine ⟨c0, t0, hct, ?_⟩
          rw [List.all_eq_true] at hall
          exact (digit_char_facts (hall c0 (by rw [hct]; simp))).2.2
  obtain ⟨c, t, hct, hpred⟩ := hhead
  unfold pyBlank
  rw [show (jsonDumps v).toList = dumpChars v from rfl, hct]
  simp only [List.all_cons, hpred, Bool.false_and]

/-- Pointwise equal functions map lists equally. -/
theorem listMapCongr {α β : Type} {f g : α → β} : ∀ l : List α,
    (∀ a ∈ l, f a = g a) → l.map f = l.map g
  | [], _ => rfl
  | a :: l, h => by
      rw [List.map_cons, List.map_cons, h a (by simp),
        listMapCongr l (fun b hb => h b (by simp [hb]))]

/-- Every element of a wrapper-free list is wrapper-free. -/
theorem goodList_mem : ∀ xs : List PyVal, goodList xs = true →
    ∀ x ∈ xs, goodV x = true
  | [], _, x, hx => by simp at hx
  | y :: ys, h, x, hx => by
      have h2 : goodV y = true ∧ goodList ys = true := by
        simpa [goodList, Bool.and_eq_true] using h
      rcases List.mem_cons.mp hx with rfl | hx2
      · exact h2.1
      · exact goodList_mem ys h2.2 x hx2

/-- Every member of a wrapper-free object is wrapper-free. -/
theorem goodKVs_mem : ∀ kvs : List (String × PyVal), goodKVs kvs = true →
    ∀ kv ∈ kvs, goodStr kv.1 = true ∧ goodV kv.2 = true
  | [], _, kv, hkv => by simp at hkv
  | m :: ms, h, kv, hkv => by
      have h2 : goodStr m.1 = true ∧ goodV m.2 = true ∧ goodKVs ms = true := by
        simpa [goodKVs, Bool.and_eq_true, and_assoc] using h
      rcases List.mem_cons.mp hkv with rfl | hkv2
      · exact ⟨h2.1, h2.2.1⟩
      · exact goodKVs_mem ms h2.2.2 kv hkv2

/-- A list of wrapper-free images is wrapper-free. -/
theorem goodList_of_map (e : PyVal → PyVal) : ∀ xs : List PyVal,
    (∀ x ∈ xs, goodV (e x) = true) → goodList (xs.map e) = true
  | [], _ => rfl
  | x :: xs, h => by
      rw [List.map_cons,
        show goodList (e x :: xs.map e) =
          (goodV (e x) && goodList (xs.map e)) from by simp [goodList],
        Bool.and_eq_true]
      exact ⟨h x (by simp), goodList_of_map e xs (fun y hy => h y (by simp [hy]))⟩

/-- Members with wrapper-free keys and wrapper-free image values are
wrapper-free. -/
theorem goodKVs_of_map (g : String → PyVal → PyVal) :
    ∀ kvs : List (String × PyVal),
    (∀ kv ∈ kvs, goodStr kv.1 = true ∧ goodV (g kv.1 kv.2) = true) →
    goodKVs (kvs.map fun kv => (kv.1, g kv.1 kv.2)) = true
  | [], _ => rfl
  | m :: ms, h => by
      obtain ⟨h1, h2⟩ := h m (by simp)
      rw [List.map_cons,
        show goodKVs ((m.1, g m.1 m.2) :: ms.map fun kv => (kv.1, g kv.1 kv.2)) =
          (goodStr m.1 && goodV (g m.1 m.2) &&
            goodKVs (ms.map fun kv => (kv.1, g kv.1 kv.2))) from by
              simp [goodKVs],
        Bool.and_eq_true, Bool.and_eq_true]
      exact ⟨⟨h1, h2⟩, goodKVs_of_map g ms (fun kv hkv => h kv (by simp [hkv]))⟩

/-- The `id`-field strip does nothing to a wrapper-free value. -/
theorem good_stripId (k : String) {v : PyVal} (h : goodV v = true) :
    stripIdValue k v = v := by
  unfold stripIdValue
  split_ifs with hk
  · match v with
    | PyVal.none | PyVal.bool _ | PyVal.int _ | PyVal.list _ | PyVal.dict _ =>
        rfl
    | PyVal.str sv =>
        simp only []
        rw [if_neg]
        intro hpre
        rw [List.isPrefixOf_iff_prefix] at hpre
        obtain ⟨t, ht⟩ := hpre
        have h1 : hasLc sv.toList = false :=
          (goodStr_parts (by simpa [goodV] using h)).1
        rw [← ht] at h1
        rw [show ['l', 'c', '_'] ++ t = 'l' :: 'c' :: '_' :: t from rfl,
          hasLc_cons] at h1
        simp [startsLc] at h1
  · rfl

/-- Successfully parsed marker-free, backslash-free text yields a tame
value. -/
theorem jsonLoads_tame (s : String) (j : PyVal) (hl : hasLc s.toList = false)
    (hnb : noBS s.toList = true) (hj : jsonLoads s = some j) :
    tameV j = true := by
  unfold jsonLoads at hj
  rcases hpv : parseVal (s.length + 2) s.toList with _ | vr
  · rw [hpv] at hj
    simp at hj
  · rw [hpv] at hj
    simp only [] at hj
    split_ifs at hj
    · simp only [Option.some.injEq] at hj
      subst hj
      exact ((parse_tame (s.length + 2)).1 s.toList vr.1 vr.2 hl hnb
        (by rw [hpv])).1

/-- Extraction replaces a blank string by the fixed message. -/
theorem extract_str_blank (fuel : Nat) (s : String) (hb : pyBlank s = true) :
    extractF (fuel + 1) (PyVal.str s) = PyVal.str blankMsg := by
  have h1 : extractF (fuel + 1) (PyVal.str s) =
      if pyBlank s then PyVal.str blankMsg
      else PyVal.str (match jsonLoads (lcSub s) with
        | some j => jsonDumps (extractF fuel j)
        | Option.none => lcSub s) := rfl
  rw [h1, if_pos hb]

/-- A non-blank, marker-stable, non-JSON string is left unchanged. -/
theorem extract_str_stable (fuel : Nat) (s : String) (hb : pyBlank s = false)
    (hsub : lcSub s = s) (hj : jsonLoads s = Option.none) :
    extractF (fuel + 1) (PyVal.str s) = PyVal.str s := by
  have h1 : extractF (fuel + 1) (PyVal.str s) =
      if pyBlank s then PyVal.str blankMsg
      else PyVal.str (match jsonLoads (lcSub s) with
        | some j => jsonDumps (extractF fuel j)
        | Option.none => lcSub s) := rfl
  rw [h1, if_neg (by simp [hb]), hsub, hj]

/-- A non-blank, marker-stable string that parses is replaced by the dump of
the recursively extracted parse. -/
theorem extract_str_json (fuel : Nat) (s : String) (j : PyVal)
    (hb : pyBlank s = false) (hsub : lcSub s = s) (hj : jsonLoads s = some j) :
    extractF (fuel + 1) (PyVal.str s) =
      PyVal.str (jsonDumps (extractF fuel j)) := by
  have h1 : extractF (fuel + 1) (PyVal.str s) =
      if pyBlank s then PyVal.str blankMsg
      else PyVal.str (match jsonLoads (lcSub s) with
        | some j => jsonDumps (extractF fuel j)
        | Option.none => lcSub s) := rfl
  rw [h1, if_neg (by simp [hb]), hsub, hj]

/-- Components of a tame string. -/
theorem tameStr_parts {s : String} (h : tameStr s = true) :
    hasLc s.toList = false ∧ s.toList.all tameChar = true := by
  unfold tameStr at h
  rw [Bool.and_eq_true] at h
  exact ⟨by simpa using h.1, h.2⟩

/-- Components of a tame character. -/
theorem tameChar_parts {c : Char} (h : tameChar c = true) :
    32 ≤ c.toNat ∧ ¬ c = '"' ∧ ¬ c = '\\' := by
  unfold tameChar at h
  simp only [Bool.and_eq_true, decide_eq_true_eq] at h
  exact ⟨h.1.1, h.1.2, h.2⟩

/-- Tame characters are round-trippable. -/
theorem tameChar_good {c : Char} (h : tameChar c = true) :
    goodChar c = true := by
  obtain ⟨h32, -, -⟩ := tameChar_parts h
  unfold goodChar
  simp only [Bool.or_eq_true, decide_eq_true_eq]
  left; left; left; left; left
  exact h32

/-- Tame strings are wrapper-free. -/
theorem tameStr_good {s : String} (h : tameStr s = true) :
    goodStr s = true := by
  obtain ⟨h1, h2⟩ := tameStr_parts h
  unfold goodStr
  rw [Bool.and_eq_true, Bool.and_eq_true]
  refine ⟨⟨by simpa using h1, ?_⟩, ?_⟩
  · rw [List.all_eq_true] at h2 ⊢
    exact fun c hc => tameChar_good (h2 c hc)
  · unfold noBS
    rw [List.all_eq_true] at h2 ⊢
    intro c hc
    simpa using (tameChar_parts (h2 c hc)).2.2

/-- Tame strings contain no quote. -/
theorem tame_noQuote {s : String} (h : tameStr s = true) :
    noQuote s.toList = true := by
  obtain ⟨-, h2⟩ := tameStr_parts h
  unfold noQuote
  rw [List.all_eq_true] at h2 ⊢
  intro c hc
  simpa using (tameChar_parts (h2 c hc)).2.1

-- Tame values are wrapper-free.
mutual

theorem tameV_good : ∀ v : PyVal, tameV v = true → goodV v = true
  | PyVal.none, _ => by simp [goodV]
  | PyVal.bool b, _ => by simp [goodV]
  | PyVal.int i, _ => by simp [goodV]
  | PyVal.str s, h => by
      simp only [tameV] at h
      simp only [goodV]
      exact tameStr_good h
  | PyVal.list xs, h => by
      simp only [tameV] at h
      simp only [goodV]
      exact tameList_good xs h
  | PyVal.dict kvs, h => by
      simp only [tameV] at h
      simp only [goodV]
      exact tameKVs_good kvs h

theorem tameList_good : ∀ xs : List PyVal, tameList xs = true →
    goodList xs = true
  | [], _ => rfl
  | x :: xs, h => by
      have h2 : tameV x = true ∧ tameList xs = true := by
        simpa [tameList, Bool.and_eq_true] using h
      rw [show goodList (x :: xs) = (goodV x && goodList xs) from by
        simp [goodList], Bool.and_eq_true]
      exact ⟨tameV_good x h2.1, tameList_good xs h2.2⟩

theorem tameKVs_good : ∀ kvs : List (String × PyVal), tameKVs kvs = true →
    goodKVs kvs = true
  | [], _ => rfl
  | kv :: kvs, h => by
      have h2 : tameStr kv.1 = true ∧ tameV kv.2 = true ∧
          tameKVs kvs = true := by
        simpa [tameKVs, Bool.and_eq_true, and_assoc] using h
      rw [show goodKVs (kv :: kvs) =
        (goodStr kv.1 && goodV kv.2 && goodKVs kvs) from by simp [goodKVs],
        Bool.and_eq_true, Bool.and_eq_true]
      exact ⟨⟨tameStr_good h2.1, tameV_good kv.2 h2.2.1⟩,
        tameKVs_good kvs h2.2.2⟩

end

-- Quote-free-parse values are wrapper-free.
mutual

theorem qfreeV_good : ∀ v : PyVal, qfreeV v = true → goodV v = true
  | PyVal.none, _ => by simp [goodV]
  | PyVal.bool b, _ => by simp [goodV]
  | PyVal.int i, _ => by simp [goodV]
  | PyVal.str s, h => by simp [qfreeV] at h
  | PyVal.dict [], _ => by simp [goodV, goodKVs]
  | PyVal.dict (kv :: kvs), h => by simp [qfreeV] at h
  | PyVal.list xs, h => by
      simp only [qfreeV] at h
      simp only [goodV]
      exact qfreeList_good xs h

theorem qfreeList_good : ∀ xs : List PyVal, qfreeList xs = true →
    goodList xs = true
  | [], _ => rfl
  | x :: xs, h => by
      have h2 : qfreeV x = true ∧ qfreeList xs = true := by
        simpa [qfreeList, Bool.and_eq_true] using h
      rw [show goodList (x :: xs) = (goodV x && goodList xs) from by
        simp [goodList], Bool.and_eq_true]
      exact ⟨qfreeV_good x h2.1, qfreeList_good xs h2.2⟩

end

/-- Every element of a tame list is tame. -/
theorem tameList_mem : ∀ xs : List PyVal, tameList xs = true →
    ∀ x ∈ xs, tameV x = true
  | [], _, x, hx => by simp at hx
  | y :: ys, h, x, hx => by
      have h2 : tameV y = true ∧ tameList ys = true := by
        simpa [tameList, Bool.and_eq_true] using h
      rcases List.mem_cons.mp hx with rfl | hx2
      · exact h2.1
      · exact tameList_mem ys h2.2 x hx2

/-- Every member of a tame object is tame. -/
theorem tameKVs_mem : ∀ kvs : List (String × PyVal), tameKVs kvs = true →
    ∀ kv ∈ kvs, tameStr kv.1 = true ∧ tameV kv.2 = true
  | [], _, kv, hkv => by simp at hkv
  | m :: ms, h, kv, hkv => by
      have h2 : tameStr m.1 = true ∧ tameV m.2 = true ∧ tameKVs ms = true := by
        simpa [tameKVs, Bool.and_eq_true, and_assoc] using h
      rcases List.mem_cons.mp hkv with rfl | hkv2
      · exact ⟨h2.1, h2.2.1⟩
      · exact tameKVs_mem ms h2.2.2 kv hkv2

/-- A list of tame images is tame. -/
theorem tameList_of_map (e : PyVal → PyVal) : ∀ xs : List PyVal,
    (∀ x ∈ xs, tameV (e x) = true) → tameList (xs.map e) = true
  | [], _ => rfl
  | x :: xs, h => by
      rw [List.map_cons,
        show tameList (e x :: xs.map e) =
          (tameV (e x) && tameList (xs.map e)) from by simp [tameList],
        Bool.and_eq_true]
      exact ⟨h x (by simp), tameList_of_map e xs (fun y hy => h y (by simp [hy]))⟩

/-- Members with tame keys and tame image values are tame. -/
theorem tameKVs_of_map (g : String → PyVal → PyVal) :
    ∀ kvs : List (String × PyVal),
    (∀ kv ∈ kvs, tameStr kv.1 = true ∧ tameV (g kv.1 kv.2) = true) →
    tameKVs (kvs.map fun kv => (kv.1, g kv.1 kv.2)) = true
  | [], _ => rfl
  | m :: ms, h => by
      obtain ⟨h1, h2⟩ := h m (by simp)
      rw [List.map_cons,
        show tameKVs ((m.1, g m.1 m.2) :: ms.map fun kv => (kv.1, g kv.1 kv.2)) =
          (tameStr m.1 && tameV (g m.1 m.2) &&
            tameKVs (ms.map fun kv => (kv.1, g kv.1 kv.2))) from by
              simp [tameKVs],
        Bool.and_eq_true, Bool.and_eq_true]
      exact ⟨⟨h1, h2⟩, tameKVs_of_map g ms (fun kv hkv => h kv (by simp [hkv]))⟩

/-- The `id`-field strip does nothing to a tame value. -/
theorem tame_stripId (k : String) {v : PyVal} (h : tameV v = true) :
    stripIdValue k v = v := by
  unfold stripIdValue
  split_ifs with hk
  · match v with
    | PyVal.none | PyVal.bool _ | PyVal.int _ | PyVal.list _ | PyVal.dict _ =>
        rfl
    | PyVal.str sv =>
        simp only []
        rw [if_neg]
        intro hpre
        rw [List.isPrefixOf_iff_prefix] at hpre
        obtain ⟨t, ht⟩ := hpre
        have h1 : hasLc sv.toList = false :=
          (tameStr_parts (by simpa [tameV] using h)).1
        rw [← ht] at h1
        rw [show ['l', 'c', '_'] ++ t = 'l' :: 'c' :: '_' :: t from rfl,
          hasLc_cons] at h1
        simp [startsLc] at h1
  · rfl

/-- Parsing quote-free input can produce no string and no nonempty object:
a string literal or an object key would require an opening quote. -/
theorem parse_qfree : ∀ fuel : Nat,
    (∀ l v r, noQuote l = true → parseVal fuel l = some (v, r) →
      qfreeV v = true ∧ noQuote r = true) ∧
    (∀ l ms r, noQuote l = true → parseMembers fuel l = some (ms, r) →
      False) ∧
    (∀ l xs r, noQuote l = true → parseItems fuel l = some (xs, r) →
      qfreeList xs = true ∧ noQuote r = true)
  | 0 => by
      refine ⟨?_, ?_, ?_⟩ <;> (intro l a r _ hp; simp [parseVal, parseMembers, parseItems] at hp)
  | fuel + 1 => by
      obtain ⟨ihv, ihm, ihi⟩ := parse_qfree fuel
      refine ⟨?_, ?_, ?_⟩
      · intro l v r hnq hp
        rw [parseVal.eq_2] at hp
        have hnqs : noQuote (pySkipWs l) = true :=
          noQuote_sub (pySkipWs_sublist l) hnq
        rcases hsw : pySkipWs l with _ | ⟨c, rest⟩
        · rw [hsw] at hp
          simp at hp
        · rw [hsw] at hp hnqs
          simp only [] at hp
          have hcq : ¬ c = '"' ∧ noQuote rest = true := by
            simpa [noQuote] using hnqs
          split_ifs at hp with h1 h2 h3 h4 h5 h6 h7 h8 h9 h10 h11
          · exact absurd h1 hcq.1
          · simp only [Option.some.injEq, Prod.mk.injEq] at hp
            obtain ⟨hv, hr⟩ := hp
            subst hv
            subst hr
            exact ⟨by simp [qfreeV], noQuote_sub (List.tail_sublist _)
              (noQuote_sub (pySkipWs_sublist _) hcq.2)⟩
          · rcases hpm : parseMembers fuel (pySkipWs rest) with _ | mr
            · rw [hpm] at hp
              simp at hp
            · exact (ihm (pySkipWs rest) mr.1 mr.2
                (noQuote_sub (pySkipWs_sublist _) hcq.2) (by rw [hpm])).elim
          · simp only [Option.some.injEq, Prod.mk.injEq] at hp
            obtain ⟨hv, hr⟩ := hp
            subst hv
            subst hr
            exact ⟨by simp [qfreeV, qfreeList], noQuote_sub (List.tail_sublist _)
              (noQuote_sub (pySkipWs_sublist _) hcq.2)⟩
          · rcases hpi : parseItems fuel (pySkipWs rest) with _ | ir
            · rw [hpi] at hp
              simp at hp
            · rw [hpi] at hp
              simp only [Option.map_some', Option.some.injEq, Prod.mk.injEq] at hp
              obtain ⟨hv, hr⟩ := hp
              subst hv
              subst hr
              obtain ⟨hg1, hg2⟩ := ihi (pySkipWs rest) ir.1 ir.2
                (noQuote_sub (pySkipWs_sublist _) hcq.2) (by rw [hpi])
              exact ⟨by simpa [qfreeV] using hg1, hg2⟩
          · simp only [Option.some.injEq, Prod.mk.injEq] at hp
            obtain ⟨hv, hr⟩ := hp
            subst hv
            subst hr
            exact ⟨by simp [qfreeV],
              noQuote_sub (List.drop_sublist _ _) hcq.2⟩
          · simp only [Option.some.injEq, Prod.mk.injEq] at hp
            obtain ⟨hv, hr⟩ := hp
            subst hv
            subst hr
            exact ⟨by simp [qfreeV],
              noQuote_sub (List.drop_sublist _ _) hcq.2⟩
          · simp only [Option.some.injEq, Prod.mk.injEq] at hp
            obtain ⟨hv, hr⟩ := hp
            subst hv
            subst hr
            exact ⟨by simp [qfreeV],
              noQuote_sub (List.drop_sublist _ _) hcq.2⟩
          · rcases hpn : parseIntToken (c :: rest) with _ | nr
            · rw [hpn] at hp
              simp at hp
            · rw [hpn] at hp
              simp only [Option.map_some', Option.some.injEq, Prod.mk.injEq] at hp
              obtain ⟨hv, hr⟩ := hp
              subst hv
              subst hr
              exact ⟨by simp [qfreeV],
                noQuote_sub (parseIntToken_sublist _ nr.1 nr.2 (by rw [hpn]))
                  hnqs⟩
      · intro l ms r hnq hp
        rcases l with _ | ⟨c, rest⟩
        · rw [parseMembers.eq_2] at hp
          simp at hp
        · rw [parseMembers.eq_3] at hp
          have hcq : ¬ c = '"' ∧ noQuote rest = true := by
            simpa [noQuote] using hnq
          split_ifs at hp with h1
          exact absurd h1 hcq.1
      · intro l xs r hnq hp
        rw [parseItems.eq_2] at hp
        rcases hpv : parseVal fuel l with _ | vr
        · rw [hpv] at hp
          simp at hp
        · rw [hpv] at hp
          simp only [] at hp
          obtain ⟨hv1, hv2⟩ := ihv l vr.1 vr.2 hnq (by rw [hpv])
          split_ifs at hp with h1 h2
          · rcases hpi : parseItems fuel (pySkipWs (pySkipWs vr.2).tail)
              with _ | ir
            · rw [hpi] at hp
              simp at hp
            · rw [hpi] at hp
              simp only [Option.map_some', Option.some.injEq, Prod.mk.injEq] at hp
              obtain ⟨hv, hr⟩ := hp
              subst hv
              subst hr
              obtain ⟨hi1, hi2⟩ := ihi _ ir.1 ir.2
                (noQuote_sub (pySkipWs_sublist _)
                  (noQuote_sub (List.tail_sublist _)
                    (noQuote_sub (pySkipWs_sublist _) hv2)))
                (by rw [hpi])
              exact ⟨by simp [qfreeList, hv1, hi1], hi2⟩
          · simp only [Option.some.injEq, Prod.mk.injEq] at hp
            obtain ⟨hv, hr⟩ := hp
            subst hv
            subst hr
            exact ⟨by simp [qfreeList, hv1],
              noQuote_sub (List.tail_sublist _)
                (noQuote_sub (pySkipWs_sublist _) hv2)⟩

/-- Successfully parsed quote-free text yields a quote-free-parse value. -/
theorem jsonLoads_qfree (s : String) (j : PyVal)
    (hnq : noQuote s.toList = true) (hj : jsonLoads s = some j) :
    qfreeV j = true := by
  unfold jsonLoads at hj
  rcases hpv : parseVal (s.length + 2) s.toList with _ | vr
  · rw [hpv] at hj
    simp at hj
  · rw [hpv] at hj
    simp only [] at hj
    split_ifs at hj
    · simp only [Option.some.injEq] at hj
      subst hj
      exact ((parse_qfree (s.length + 2)).1 s.toList vr.1 vr.2 hnq
        (by rw [hpv])).1

-- The extractor is the identity on quote-free-parse values: no string is
-- present to rewrite and no nonempty object carries an `id` field.
mutual

theorem extract_qfree_id : ∀ (fuel : Nat) (v : PyVal), qfreeV v = true →
    extractF fuel v = v
  | 0, _, _ => rfl
  | _ + 1, PyVal.none, _ => rfl
  | _ + 1, PyVal.bool b, _ => rfl
  | _ + 1, PyVal.int i, _ => rfl
  | _ + 1, PyVal.str s, h => by simp [qfreeV] at h
  | _ + 1, PyVal.dict [], _ => rfl
  | _ + 1, PyVal.dict (kv :: kvs), h => by simp [qfreeV] at h
  | _ + 1, PyVal.list [], _ => rfl
  | fuel + 1, PyVal.list (x :: xs), h => by
      rw [show extractF (fuel + 1) (PyVal.list (x :: xs)) =
        PyVal.list ((x :: xs).map (extractF fuel)) from rfl,
        extract_qfree_id_list fuel (x :: xs) (by simpa [qfreeV] using h)]

theorem extract_qfree_id_list : ∀ (fuel : Nat) (xs : List PyVal),
    qfreeList xs = true → xs.map (extractF fuel) = xs
  | _, [], _ => rfl
  | fuel, x :: xs, h => by
      have h2 : qfreeV x = true ∧ qfreeList xs = true := by
        simpa [qfreeList, Bool.and_eq_true] using h
      rw [List.map_cons, extract_qfree_id fuel x h2.1,
        extract_qfree_id_list fuel xs h2.2]

end

/-- Digit characters are tame. -/
theorem digit_tame {c : Char} (h : c.isDigit = true) : tameChar c = true := by
  obtain ⟨h1, h2⟩ := isDigit_toNat h
  unfold tameChar
  simp only [Bool.and_eq_true, decide_eq_true_eq]
  refine ⟨⟨by omega, ?_⟩, ?_⟩
  · intro hc
    rw [hc] at h1
    exact absurd h1 (by decide)
  · intro hc
    rw [hc] at h2
    exact absurd h2 (by decide)

-- The dump of a quote-free-parse value is tame text: only digits, signs,
-- brackets, braces, separators and keyword letters appear.
mutual

theorem dump_qfree_chars : ∀ v : PyVal, qfreeV v = true →
    (dumpChars v).all tameChar = true
  | PyVal.none, _ => by decide
  | PyVal.bool true, _ => by decide
  | PyVal.bool false, _ => by decide
  | PyVal.int i, _ => by
      rw [show dumpChars (PyVal.int i) = intChars i from rfl]
      unfold intChars
      split_ifs with hneg
      · rw [List.all_cons, Bool.and_eq_true]
        refine ⟨by decide, ?_⟩
        obtain ⟨-, hall, -, -⟩ := natChars_spec i.natAbs
        rw [List.all_eq_true] at hall ⊢
        exact fun c hc => digit_tame (hall c hc)
      · obtain ⟨-, hall, -, -⟩ := natChars_spec i.toNat
        rw [List.all_eq_true] at hall ⊢
        exact fun c hc => digit_tame (hall c hc)
  | PyVal.str s, h => by simp [qfreeV] at h
  | PyVal.list [], _ => by decide
  | PyVal.list (x :: xs), h => by
      have h2 : qfreeV x = true ∧ qfreeList xs = true := by
        simpa [qfreeV, qfreeList, Bool.and_eq_true] using h
      rw [show dumpChars (PyVal.list (x :: xs)) =
        '[' :: (dumpChars x ++ dumpItems xs ++ [']']) from rfl]
      simp only [List.all_cons, List.all_append, Bool.and_eq_true]
      exact ⟨by decide, ⟨dump_qfree_chars x h2.1, dump_qfree_items xs h2.2⟩,
        by decide⟩
  | PyVal.dict [], _ => by decide
  | PyVal.dict (kv :: kvs), h => by simp [qfreeV] at h

theorem dump_qfree_items : ∀ xs : List PyVal, qfreeList xs = true →
    (dumpItems xs).all tameChar = true
  | [], _ => rfl
  | x :: xs, h => by
      have h2 : qfreeV x = true ∧ qfreeList xs = true := by
        simpa [qfreeList, Bool.and_eq_true] using h
      rw [show dumpItems (x :: xs) =
        ',' :: ' ' :: dumpChars x ++ dumpItems xs from rfl]
      simp only [List.cons_append, List.all_cons, List.all_append,
        Bool.and_eq_true]
      exact ⟨by decide, by decide, dump_qfree_chars x h2.1,
        dump_qfree_items xs h2.2⟩

end

/-- Tame characters need no escape. -/
theorem escChar_tame {c : Char} (h : tameChar c = true) : escChar c = [c] := by
  obtain ⟨h32, hq, hb⟩ := tameChar_parts h
  unfold escChar
  split_ifs with e1 e2 e3 e4 e5
  · rw [e1] at h32
    exact absurd h32 (by decide)
  · rw [e2] at h32
    exact absurd h32 (by decide)
  · rw [e3] at h32
    exact absurd h32 (by decide)
  · omega
  · omega
  · rfl

/-- Encoding is the identity on tame text. -/
theorem escStr_tame : ∀ s : List Char, s.all tameChar = true → escStr s = s
  | [], _ => rfl
  | c :: t, h => by
      rw [List.all_cons, Bool.and_eq_true] at h
      rw [show escStr (c :: t) = escChar c ++ escStr t from rfl,
        escChar_tame h.1, escStr_tame t h.2]
      rfl

-- The dump of a tame value contains no backslash: tame string content needs
-- no escape, and all structural characters are backslash-free.
mutual

theorem dump_noBS_v : ∀ v : PyVal, tameV v = true →
    noBS (dumpChars v) = true
  | PyVal.none, _ => by decide
  | PyVal.bool true, _ => by decide
  | PyVal.bool false, _ => by decide
  | PyVal.int i, _ => by
      rw [show dumpChars (PyVal.int i) = intChars i from rfl]
      unfold intChars noBS
      split_ifs with hneg
      · rw [List.all_cons, Bool.and_eq_true]
        refine ⟨by decide, ?_⟩
        obtain ⟨-, hall, -, -⟩ := natChars_spec i.natAbs
        rw [List.all_eq_true] at hall ⊢
        intro c hc
        simpa using (tameChar_parts (digit_tame (hall c hc))).2.2
      · obtain ⟨-, hall, -, -⟩ := natChars_spec i.toNat
        rw [List.all_eq_true] at hall ⊢
        intro c hc
        simpa using (tameChar_parts (digit_tame (hall c hc))).2.2
  | PyVal.str s, h => by
      have hts : tameStr s = true := by simpa [tameV] using h
      obtain ⟨-, h2⟩ := tameStr_parts hts
      rw [show dumpChars (PyVal.str s) =
        '"' :: (escStr s.toList ++ ['"']) from rfl, escStr_tame s.toList h2]
      unfold noBS
      simp only [List.all_cons, List.all_append, Bool.and_eq_true]
      refine ⟨by decide, ?_, by decide⟩
      rw [List.all_eq_true] at h2 ⊢
      intro c hc
      simpa using (tameChar_parts (h2 c hc)).2.2
  | PyVal.list [], _ => by decide
  | PyVal.list (x :: xs), h => by
      have h2 : tameV x = true ∧ tameList xs = true := by
        simpa [tameV, tameList, Bool.and_eq_true] using h
      rw [show dumpChars (PyVal.list (x :: xs)) =
        '[' :: (dumpChars x ++ dumpItems xs ++ [']']) from rfl]
      unfold noBS
      simp only [List.all_cons, List.all_append, Bool.and_eq_true]
      refine ⟨by decide, ⟨?_, ?_⟩, by decide⟩
      · have hx := dump_noBS_v x h2.1
        unfold noBS at hx
        exact hx
      · have hxs := dump_noBS_items xs h2.2
        unfold noBS at hxs
        exact hxs
  | PyVal.dict [], _ => by decide
  | PyVal.dict (m :: ms), h => by
      have h2 : tameStr m.1 = true ∧ tameV m.2 = true ∧ tameKVs ms = true := by
        simpa [tameV, tameKVs, Bool.and_eq_true, and_assoc] using h
      rw [show dumpChars (PyVal.dict (m :: ms)) =
        '\x7b' :: (dumpMember m ++ dumpMembers ms ++ ['\x7d']) from rfl]
      unfold noBS
      simp only [List.all_cons, List.all_append, Bool.and_eq_true]
      refine ⟨by decide, ⟨?_, ?_⟩, by decide⟩
      · have hm := dump_noBS_member m h2.1 h2.2.1
        unfold noBS at hm
        exact hm
      · have hms := dump_noBS_members ms h2.2.2
        unfold noBS at hms
        exact hms

theorem dump_noBS_member : ∀ m : String × PyVal, tameStr m.1 = true →
    tameV m.2 = true → noBS (dumpMember m) = true
  | (k, mv), hk, hmv => by
      obtain ⟨-, h2⟩ := tameStr_parts hk
      rw [show dumpMember (k, mv) =
        '"' :: (escStr k.toList ++ '"' :: ':' :: ' ' :: dumpChars mv) from rfl,
        escStr_tame k.toList h2]
      unfold noBS
      simp only [List.all_cons, List.all_append, Bool.and_eq_true]
      refine ⟨by decide, ?_, by decide, by decide, by decide, ?_⟩
      · rw [List.all_eq_true] at h2 ⊢
        intro c hc
        simpa using (tameChar_parts (h2 c hc)).2.2
      · have hmv2 := dump_noBS_v mv hmv
        unfold noBS at hmv2
        exact hmv2

theorem dump_noBS_items : ∀ xs : List PyVal, tameList xs = true →
    noBS (dumpItems xs) = true
  | [], _ => rfl
  | x :: xs, h => by
      have h2 : tameV x = true ∧ tameList xs = true := by
        simpa [tameList, Bool.and_eq_true] using h
      rw [show dumpItems (x :: xs) =
        ',' :: ' ' :: dumpChars x ++ dumpItems xs from rfl]
      unfold noBS
      simp only [List.cons_append, List.all_cons, List.all_append,
        Bool.and_eq_true]
      refine ⟨by decide, by decide, ?_, ?_⟩
      · have hx := dump_noBS_v x h2.1
        unfold noBS at hx
        exact hx
      · have hxs := dump_noBS_items xs h2.2
        unfold noBS at hxs
        exact hxs

theorem dump_noBS_members : ∀ ms : List (String × PyVal), tameKVs ms = true →
    noBS (dumpMembers ms) = true
  | [], _ => rfl
  | m :: ms, h => by
      have h2 : tameStr m.1 = true ∧ tameV m.2 = true ∧ tameKVs ms = true := by
        simpa [tameKVs, Bool.and_eq_true, and_assoc] using h
      rw [show dumpMembers (m :: ms) =
        ',' :: ' ' :: dumpMember m ++ dumpMembers ms from rfl]
      unfold noBS
      simp only [List.cons_append, List.all_cons, List.all_append,
        Bool.and_eq_true]
      refine ⟨by decide, by decide, ?_, ?_⟩
      · have hm := dump_noBS_member m h2.1 h2.2.1
        unfold noBS at hm
        exact hm
      · have hms := dump_noBS_members ms h2.2.2
        unfold noBS at hms
        exact hms

end

/-- On tame inputs the extractor produces tame outputs (for every recursion
budget): a tame string is quote-free, so a nested JSON parse of it yields a
quote-free-parse value, whose dump is again tame text. -/
theorem extract_tame : ∀ fuel : Nat, ∀ v, tameV v = true →
    tameV (extractF fuel v) = true
  | 0 => fun _ h => h
  | fuel + 1 => by
      intro v hv
      match v with
      | PyVal.none => exact hv
      | PyVal.bool b => exact hv
      | PyVal.int i => exact hv
      | PyVal.str s =>
          by_cases hb : pyBlank s = true
          · rw [extract_str_blank fuel s hb]
            decide
          · have hbf : pyBlank s = false := by
              cases hpb : pyBlank s
              · rfl
              · exact absurd hpb hb
            have hts : tameStr s = true := by simpa [tameV] using hv
            obtain ⟨hlc, -⟩ := tameStr_parts hts
            have hsub : lcSub s = s := lcSub_clean s hlc
            rcases hj : jsonLoads s with _ | j
            · rw [extract_str_stable fuel s hbf hsub hj]
              exact hv
            · have hqf : qfreeV j = true :=
                jsonLoads_qfree s j (tame_noQuote hts) hj
              rw [extract_str_json fuel s j hbf hsub hj,
                extract_qfree_id fuel j hqf]
              have hclean : hasLc (jsonDumps j).toList = false := by
                have h := dump_clean_v j [] (qfreeV_good j hqf)
                  ⟨rfl, by simp, by simp⟩
                rw [List.append_nil] at h
                exact h
              have hall : (jsonDumps j).toList.all tameChar = true :=
                dump_qfree_chars j hqf
              have hstr : tameStr (jsonDumps j) = true := by
                unfold tameStr
                rw [hclean]
                simpa using hall
              simpa [tameV] using hstr
      | PyVal.list [] => exact hv
      | PyVal.list (x :: xs) =>
          rw [show extractF (fuel + 1) (PyVal.list (x :: xs)) =
            PyVal.list ((x :: xs).map (extractF fuel)) from rfl]
          have hmem := tameList_mem _ (by simpa [tameV] using hv)
          rw [show tameV (PyVal.list ((x :: xs).map (extractF fuel))) =
            tameList ((x :: xs).map (extractF fuel)) from by simp [tameV]]
          exact tameList_of_map _ _ (fun y hy => extract_tame fuel y (hmem y hy))
      | PyVal.dict kvs =>
          rw [show extractF (fuel + 1) (PyVal.dict kvs) =
            PyVal.dict (kvs.map fun kv =>
              (kv.1, extractF fuel (stripIdValue kv.1 kv.2))) from rfl]
          have hmem := tameKVs_mem _ (by simpa [tameV] using hv)
          rw [show tameV (PyVal.dict (kvs.map fun kv =>
            (kv.1, extractF fuel (stripIdValue kv.1 kv.2)))) =
            tameKVs (kvs.map fun kv =>
              (kv.1, extractF fuel (stripIdValue kv.1 kv.2))) from by
                simp [tameV]]
          apply tameKVs_of_map (fun k w => extractF fuel (stripIdValue k w))
          intro kv hkv
          obtain ⟨hk1, hk2⟩ := hmem kv hkv
          refine ⟨hk1, ?_⟩
          rw [tame_stripId kv.1 hk2]
          exact extract_tame fuel kv.2 hk2

/-- On wrapper-free inputs the extractor preserves wrapper-freedom and is
idempotent (for every recursion budget). -/
theorem extract_good_idem : ∀ fuel : Nat,
    (∀ v, goodV v = true → goodV (extractF fuel v) = true) ∧
    (∀ v, goodV v = true → extractF fuel (extractF fuel v) = extractF fuel v)
  | 0 => ⟨fun _ h => h, fun _ _ => rfl⟩
  | fuel + 1 => by
      obtain ⟨ihg, ihe⟩ := extract_good_idem fuel
      constructor
      · intro v hv
        match v with
        | PyVal.none => exact hv
        | PyVal.bool b => exact hv
        | PyVal.int i => exact hv
        | PyVal.str s =>
            by_cases hb : pyBlank s = true
            · rw [extract_str_blank fuel s hb]
              decide
            · have hbf : pyBlank s = false := by
                cases hpb : pyBlank s
                · rfl
                · exact absurd hpb hb
              have hgs : goodStr s = true := by simpa [goodV] using hv
              obtain ⟨hlc, -, hnbs⟩ := goodStr_parts hgs
              have hsub : lcSub s = s := lcSub_clean s hlc
              rcases hj : jsonLoads s with _ | j
              · rw [extract_str_stable fuel s hbf hsub hj]
                exact hv
              · have htj : tameV j = true := jsonLoads_tame s j hlc hnbs hj
                have hwt : tameV (extractF fuel j) = true :=
                  extract_tame fuel j htj
                have hgw : goodV (extractF fuel j) = true := tameV_good _ hwt
                rw [extract_str_json fuel s j hbf hsub hj]
                have hclean : hasLc (jsonDumps (extractF fuel j)).toList =
                    false := by
                  have h := dump_clean_v (extractF fuel j) [] hgw
                    ⟨rfl, by simp, by simp⟩
                  rw [List.append_nil] at h
                  exact h
                have hgdm : (jsonDumps (extractF fuel j)).toList.all goodChar =
                    true := dump_good_v _ hgw
                have hgstr : goodStr (jsonDumps (extractF fuel j)) = true := by
                  unfold goodStr
                  rw [hclean, Bool.and_eq_true, Bool.and_eq_true]
                  exact ⟨⟨rfl, hgdm⟩, dump_noBS_v _ hwt⟩
                simpa [goodV] using hgstr
        | PyVal.list [] => exact hv
        | PyVal.list (x :: xs) =>
            rw [show extractF (fuel + 1) (PyVal.list (x :: xs)) =
              PyVal.list ((x :: xs).map (extractF fuel)) from rfl]
            have hmem := goodList_mem _ (by simpa [goodV] using hv)
            rw [show goodV (PyVal.list ((x :: xs).map (extractF fuel))) =
              goodList ((x :: xs).map (extractF fuel)) from by simp [goodV]]
            exact goodList_of_map _ _ (fun y hy => ihg y (hmem y hy))
        | PyVal.dict kvs =>
            rw [show extractF (fuel + 1) (PyVal.dict kvs) =
              PyVal.dict (kvs.map fun kv =>
                (kv.1, extractF fuel (stripIdValue kv.1 kv.2))) from rfl]
            have hmem := goodKVs_mem _ (by simpa [goodV] using hv)
            rw [show goodV (PyVal.dict (kvs.map fun kv =>
              (kv.1, extractF fuel (stripIdValue kv.1 kv.2)))) =
              goodKVs (kvs.map fun kv =>
                (kv.1, extractF fuel (stripIdValue kv.1 kv.2))) from by
                  simp [goodV]]
            apply goodKVs_of_map (fun k w => extractF fuel (stripIdValue k w))
            intro kv hkv
            obtain ⟨hk1, hk2⟩ := hmem kv hkv
            refine ⟨hk1, ?_⟩
            rw [good_stripId kv.1 hk2]
            exact ihg kv.2 hk2
      · intro v hv
        match v with
        | PyVal.none => rfl
        | PyVal.bool b => rfl
        | PyVal.int i => rfl
        | PyVal.str s =>
            by_cases hb : pyBlank s = true
            · rw [extract_str_blank fuel s hb]
              exact extract_str_stable fuel blankMsg (by decide) (by decide)
                (by decide)
            · have hbf : pyBlank s = false := by
                cases hpb : pyBlank s
                · rfl
                · exact absurd hpb hb
              have hgs : goodStr s = true := by simpa [goodV] using hv
              obtain ⟨hlc, -, hnbs⟩ := goodStr_parts hgs
              have hsub : lcSub s = s := lcSub_clean s hlc
              rcases hj : jsonLoads s with _ | j
              · rw [extract_str_stable fuel s hbf hsub hj,
                  extract_str_stable fuel s hbf hsub hj]
              · have hgj : goodV j = true :=
                  tameV_good j (jsonLoads_tame s j hlc hnbs hj)
                have hgw : goodV (extractF fuel j) = true := ihg j hgj
                rw [extract_str_json fuel s j hbf hsub hj]
                have hclean : hasLc (jsonDumps (extractF fuel j)).toList =
                    false := by
                  have h := dump_clean_v (extractF fuel j) [] hgw
                    ⟨rfl, by simp, by simp⟩
                  rw [List.append_nil] at h
                  exact h
                rw [extract_str_json fuel (jsonDumps (extractF fuel j))
                  (extractF fuel j) (dump_not_blank _)
                  (lcSub_clean _ hclean) (jsonLoads_dumps _ hgw)]
                rw [ihe j hgj]
        | PyVal.list [] => rfl
        | PyVal.list (x :: xs) =>
            have hmem := goodList_mem _ (by simpa [goodV] using hv)
            rw [show extractF (fuel + 1) (PyVal.list (x :: xs)) =
              PyVal.list ((x :: xs).map (extractF fuel)) from rfl,
              show extractF (fuel + 1)
                  (PyVal.list ((x :: xs).map (extractF fuel))) =
                PyVal.list (((x :: xs).map (extractF fuel)).map
                  (extractF fuel)) from rfl,
              List.map_map]
            congr 1
            apply listMapCongr
            intro y hy
            rw [Function.comp_apply]
            exact ihe y (hmem y hy)
        | PyVal.dict kvs =>
            have hmem := goodKVs_mem _ (by simpa [goodV] using hv)
            rw [show extractF (fuel + 1) (PyVal.dict kvs) =
              PyVal.dict (kvs.map fun kv =>
                (kv.1, extractF fuel (stripIdValue kv.1 kv.2))) from rfl,
              show extractF (fuel + 1) (PyVal.dict (kvs.map fun kv =>
                (kv.1, extractF fuel (stripIdValue kv.1 kv.2)))) =
                PyVal.dict ((kvs.map fun kv =>
                  (kv.1, extractF fuel (stripIdValue kv.1 kv.2))).map fun kv =>
                    (kv.1, extractF fuel (stripIdValue kv.1 kv.2))) from rfl,
              List.map_map]
            congr 1
            apply listMapCongr
            intro kv hkv
            obtain ⟨_, hk2⟩ := hmem kv hkv
            rw [Function.comp_apply]
            simp only []
            rw [good_stripId kv.1 hk2, good_stripId kv.1 (ihg kv.2 hk2),
              ihe kv.2 hk2]

/-- C5 (amended): the normalizer is not idempotent on arbitrary results —
on `\x7b"id": "lc_lc_x"\x7d` each pass strips one wrapper, so
`normalize(normalize(x)) ≠ normalize(x)` (see `c5_counterexample`), and a
marker can also be smuggled in through JSON escapes (`"\u006cc_"` decodes
to `lc_`). It is idempotent on wrapper-free results: if every string in the
object graph is free of the `lc_` marker, contains only characters that
survive a JSON round trip, and contains no backslash — so that, read back
as JSON text, no escape sequence can decode into a quote, a backslash or a
marker — then a second application of `extract_clickup_ids` returns the
first application's output unchanged, for every recursion budget. -/
theorem c5_normalize_idempotent_on_clean (fuel : Nat) (v : PyVal)
    (h : goodV v = true) :
    extractF fuel (extractF fuel v) = extractF fuel v :=
  (extract_good_idem fuel).2 v h

/-- Witness: the amended C5 theorem applied to a concrete clean result. -/
theorem c5_normalize_idempotent_on_clean_witness :
    goodV (PyVal.dict [("id", PyVal.str "abc123")]) = true ∧
    extractF 4 (extractF 4 (PyVal.dict [("id", PyVal.str "abc123")])) =
      extractF 4 (PyVal.dict [("id", PyVal.str "abc123")]) :=
  ⟨by decide, c5_normalize_idempotent_on_clean 4 _ (by decide)⟩
